import Mathlib

/-!
# Verification of the tool-invocation argument resolver

Shallow embedding of `src/tools/unreal_mcp/utils/params_parser.py` and
`src/tools/unreal_mcp/utils/argparse_parser.py`, together with proofs of the
documented properties of the layered resolver, the normalizer, the
escape-sequence restoration pass and the CLI-style flag parser.

Strings are modelled as `List Char`; Python `dict`s of parsed parameters are
modelled as ordered association lists (`Dict`), matching Python's
insertion-ordered dictionaries.  Parsed values are modelled by the `Json`
inductive below.  JSON floating point literals are modelled exactly as scaled
decimals (`Json.fnum m e` meaning `m * 10 ^ e`); IEEE-754 rounding performed
by Python's `float` is not modelled, which is the one deliberate abstraction
in the value domain.
-/

namespace UEParse

/-- Parsed parameter values: models the values produced by `json.loads` /
`ast.literal_eval` in the source.  `num` models Python `int`, `fnum m e`
models a float literal with value `m * 10 ^ e` (scaled decimal, no IEEE
rounding), `str`/`arr`/`obj` model the corresponding Python values; `obj`
is an insertion-ordered association list like a Python `dict`. -/
inductive Json : Type where
  | null : Json
  | bool : Bool → Json
  | num : Int → Json
  | fnum : Int → Int → Json
  | str : String → Json
  | arr : List Json → Json
  | obj : List (String × Json) → Json
deriving Repr

/-- A parsed ParameterSet: a Python `dict` mapping parameter names to values,
modelled as an insertion-ordered association list. -/
abbrev Dict := List (String × Json)

/-- Python `dict` assignment `d[k] = v`: if the key is present its value is
replaced in place (keeping its original position), otherwise the pair is
appended at the end, matching insertion-ordered `dict` semantics. -/
def dictInsert (d : Dict) (k : String) (v : Json) : Dict :=
  match d with
  | [] => [(k, v)]
  | (k', v') :: rest =>
      if k' = k then (k', v) :: rest else (k', v') :: dictInsert rest k v

/-- Python `str.isspace` / default `str.strip` whitespace class, restricted to
the code points that can appear here (ASCII whitespace plus the common Unicode
space characters Python treats as whitespace). -/
def isPySpace (c : Char) : Bool :=
  c = ' ' || c = '\t' || c = '\n' || c = '\r' || c = '\x0b' || c = '\x0c' ||
  c = '\x1c' || c = '\x1d' || c = '\x1e' || c = '\x1f' || c = '\u0085' ||
  c = '\u00a0' || c = '\u1680' || ('\u2000' ≤ c && c ≤ '\u200a') ||
  c = '\u2028' || c = '\u2029' || c = '\u202f' || c = '\u205f' || c = '\u3000'

/-- Python `str.lstrip()` with no argument. -/
def pyLStrip (s : List Char) : List Char := s.dropWhile isPySpace

/-- Python `str.rstrip()` with no argument. -/
def pyRStrip (s : List Char) : List Char :=
  (s.reverse.dropWhile isPySpace).reverse

/-- Python `str.strip()` with no argument. -/
def pyStrip (s : List Char) : List Char := pyRStrip (pyLStrip s)

/-- Fuel-driven worker for `pyReplace`; the fuel only serves structural
termination and any fuel at least the length of the text gives the replacement
semantics of Python `str.replace`. -/
def pyReplaceF (pat rep : List Char) : Nat → List Char → List Char
  | 0, s => s
  | _ + 1, [] => []
  | fuel + 1, c :: cs =>
      if pat ≠ [] ∧ pat.isPrefixOf (c :: cs) then
        rep ++ pyReplaceF pat rep fuel ((c :: cs).drop pat.length)
      else
        c :: pyReplaceF pat rep fuel cs

/-- Python `str.replace(pat, rep)`: left-to-right, non-overlapping replacement
of every occurrence of `pat` by `rep`.  (The source never calls `replace` with
an empty pattern; for totality an empty pattern returns the input unchanged.) -/
def pyReplace (pat rep : List Char) (s : List Char) : List Char :=
  pyReplaceF pat rep s.length s

/-- Python `str.find(pat)` restricted to a successful result: index of the
first occurrence of `pat` as a substring, `none` when absent (the source's
`-1`). -/
def subFind (pat : List Char) : List Char → Option Nat
  | [] => if pat = [] then some 0 else none
  | c :: cs =>
      if pat.isPrefixOf (c :: cs) then some 0
      else (subFind pat cs).map (· + 1)

/-- Python `pat in s` substring containment. -/
def containsSub (pat s : List Char) : Bool := (subFind pat s).isSome

/-- The `ZERO_WIDTH` constant of `params_parser.py`. -/
def ZERO_WIDTH : List Char :=
  ['\u200b', '\u200c', '\u200d', '\u2060', '\ufeff']

/-- The `SMART_QUOTES` constant of `params_parser.py` in its source order. -/
def SMART_QUOTES : List (Char × Char) :=
  [('“', '"'), ('”', '"'), ('„', '"'), ('‟', '"'),
   ('‘', '\''), ('’', '\''), ('‚', '\''), ('‛', '\'')]

/-- The character-level replacement passes at the start of `_normalize`:
line-ending unification, zero-width stripping, smart-quote replacement. -/
def charNormalize (s : List Char) : List Char :=
  let s1 := pyReplace ['\r', '\n'] ['\n'] s
  let s2 := pyReplace ['\r'] ['\n'] s1
  let s3 := ZERO_WIDTH.foldl (fun acc z => pyReplace [z] [] acc) s2
  SMART_QUOTES.foldl (fun acc kv => pyReplace [kv.1] [kv.2] acc) s3

/-- The `first_json_like` computation inside `_normalize`: the minimum of the
non-negative indices of the first `{`, `[` and triple-backtick fence, with `0`
when none of the three occurs. -/
def first_json_like (t : List Char) : Nat :=
  match ([subFind ['\x7b'] t, subFind ['\x5b'] t,
          subFind ['`', '`', '`'] t].filterMap id).min? with
  | none => 0
  | some m => m

/-- `_normalize` of `params_parser.py`: character replacements, left strip,
drop of leading noise up to the first structural token, final strip. -/
def normalize (s : List Char) : List Char :=
  let s' := charNormalize s
  let trimmed := pyLStrip s'
  let fj := first_json_like trimmed
  let trimmed2 := if fj > 0 then trimmed.drop fj else trimmed
  pyStrip trimmed2

/-- `_strip_outer_quotes` of `params_parser.py`: removes one layer of a
matching pair of outer `'` or `"` quotes. -/
def strip_outer_quotes (s : List Char) : List Char :=
  if s.length ≥ 2 ∧ s.head? = s.getLast? ∧
      (s.head? = some '"' ∨ s.head? = some '\'') then
    (s.drop 1).dropLast
  else s

/-! ## Decidable equality for `Json` -/

mutual

/-- Boolean equality on `Json`. -/
def Json.beq : Json → Json → Bool
  | .null, .null => true
  | .bool a, .bool b => a == b
  | .num a, .num b => a == b
  | .fnum a b, .fnum c d => a == c && b == d
  | .str a, .str b => a == b
  | .arr xs, .arr ys => Json.beqList xs ys
  | .obj xs, .obj ys => Json.beqPairs xs ys
  | _, _ => false

/-- Boolean equality on lists of `Json`. -/
def Json.beqList : List Json → List Json → Bool
  | [], [] => true
  | x :: xs, y :: ys => Json.beq x y && Json.beqList xs ys
  | _, _ => false

/-- Boolean equality on association lists of `Json`. -/
def Json.beqPairs : List (String × Json) → List (String × Json) → Bool
  | [], [] => true
  | (k, v) :: xs, (l, w) :: ys => k == l && Json.beq v w && Json.beqPairs xs ys
  | _, _ => false

end

mutual

theorem Json.beq_refl : (x : Json) → Json.beq x x = true
  | .null => rfl
  | .bool a => by simp [Json.beq]
  | .num a => by simp [Json.beq]
  | .fnum a b => by simp [Json.beq]
  | .str a => by simp [Json.beq]
  | .arr xs => by simp [Json.beq, Json.beqList_refl xs]
  | .obj xs => by simp [Json.beq, Json.beqPairs_refl xs]

theorem Json.beqList_refl : (xs : List Json) → Json.beqList xs xs = true
  | [] => rfl
  | x :: xs => by simp [Json.beqList, Json.beq_refl x, Json.beqList_refl xs]

theorem Json.beqPairs_refl : (xs : List (String × Json)) →
    Json.beqPairs xs xs = true
  | [] => rfl
  | (k, v) :: xs => by
      simp [Json.beqPairs, Json.beq_refl v, Json.beqPairs_refl xs]

end

mutual

theorem Json.eq_of_beq : (x y : Json) → Json.beq x y = true → x = y
  | .null, .null, _ => rfl
  | .bool a, .bool b, h => by simp only [Json.beq, beq_iff_eq] at h; rw [h]
  | .num a, .num b, h => by simp only [Json.beq, beq_iff_eq] at h; rw [h]
  | .fnum a b, .fnum c d, h => by
      simp only [Json.beq, Bool.and_eq_true, beq_iff_eq] at h
      rw [h.1, h.2]
  | .str a, .str b, h => by simp only [Json.beq, beq_iff_eq] at h; rw [h]
  | .arr xs, .arr ys, h => by
      simp only [Json.beq] at h
      rw [Json.eqList_of_beq xs ys h]
  | .obj xs, .obj ys, h => by
      simp only [Json.beq] at h
      rw [Json.eqPairs_of_beq xs ys h]
  | .null, .bool _, h => by simp [Json.beq] at h
  | .null, .num _, h => by simp [Json.beq] at h
  | .null, .fnum _ _, h => by simp [Json.beq] at h
  | .null, .str _, h => by simp [Json.beq] at h
  | .null, .arr _, h => by simp [Json.beq] at h
  | .null, .obj _, h => by simp [Json.beq] at h
  | .bool _, .null, h => by simp [Json.beq] at h
  | .bool _, .num _, h => by simp [Json.beq] at h
  | .bool _, .fnum _ _, h => by simp [Json.beq] at h
  | .bool _, .str _, h => by simp [Json.beq] at h
  | .bool _, .arr _, h => by simp [Json.beq] at h
  | .bool _, .obj _, h => by simp [Json.beq] at h
  | .num _, .null, h => by simp [Json.beq] at h
  | .num _, .bool _, h => by simp [Json.beq] at h
  | .num _, .fnum _ _, h => by simp [Json.beq] at h
  | .num _, .str _, h => by simp [Json.beq] at h
  | .num _, .arr _, h => by simp [Json.beq] at h
  | .num _, .obj _, h => by simp [Json.beq] at h
  | .fnum _ _, .null, h => by simp [Json.beq] at h
  | .fnum _ _, .bool _, h => by simp [Json.beq] at h
  | .fnum _ _, .num _, h => by simp [Json.beq] at h
  | .fnum _ _, .str _, h => by simp [Json.beq] at h
  | .fnum _ _, .arr _, h => by simp [Json.beq] at h
  | .fnum _ _, .obj _, h => by simp [Json.beq] at h
  | .str _, .null, h => by simp [Json.beq] at h
  | .str _, .bool _, h => by simp [Json.beq] at h
  | .str _, .num _, h => by simp [Json.beq] at h
  | .str _, .fnum _ _, h => by simp [Json.beq] at h
  | .str _, .arr _, h => by simp [Json.beq] at h
  | .str _, .obj _, h => by simp [Json.beq] at h
  | .arr _, .null, h => by simp [Json.beq] at h
  | .arr _, .bool _, h => by simp [Json.beq] at h
  | .arr _, .num _, h => by simp [Json.beq] at h
  | .arr _, .fnum _ _, h => by simp [Json.beq] at h
  | .arr _, .str _, h => by simp [Json.beq] at h
  | .arr _, .obj _, h => by simp [Json.beq] at h
  | .obj _, .null, h => by simp [Json.beq] at h
  | .obj _, .bool _, h => by simp [Json.beq] at h
  | .obj _, .num _, h => by simp [Json.beq] at h
  | .obj _, .fnum _ _, h => by simp [Json.beq] at h
  | .obj _, .str _, h => by simp [Json.beq] at h
  | .obj _, .arr _, h => by simp [Json.beq] at h

theorem Json.eqList_of_beq : (xs ys : List Json) →
    Json.beqList xs ys = true → xs = ys
  | [], [], _ => rfl
  | [], _ :: _, h => by simp [Json.beqList] at h
  | _ :: _, [], h => by simp [Json.beqList] at h
  | x :: xs, y :: ys, h => by
      simp only [Json.beqList, Bool.and_eq_true] at h
      rw [Json.eq_of_beq x y h.1, Json.eqList_of_beq xs ys h.2]

theorem Json.eqPairs_of_beq : (xs ys : List (String × Json)) →
    Json.beqPairs xs ys = true → xs = ys
  | [], [], _ => rfl
  | [], _ :: _, h => by simp [Json.beqPairs] at h
  | _ :: _, [], h => by simp [Json.beqPairs] at h
  | (k, v) :: xs, (l, w) :: ys, h => by
      simp only [Json.beqPairs, Bool.and_eq_true, beq_iff_eq] at h
      rw [h.1.1, Json.eq_of_beq v w h.1.2, Json.eqPairs_of_beq xs ys h.2]

end

instance : DecidableEq Json := fun a b =>
  if h : Json.beq a b = true then isTrue (Json.eq_of_beq a b h)
  else isFalse (fun he => h (he ▸ Json.beq_refl a))

/-! ## A model of `json.loads`

Recursive-descent parser over `List Char` following the strict JSON grammar
accepted by Python's `json.loads` (RFC 8259 with Python's default options).
Deliberate modelling choices, none of which the claims exercise:
* the non-standard tokens `NaN`/`Infinity`/`-Infinity` that Python accepts by
  default are treated as parse failures (IEEE special values are outside the
  `Json` value domain);
* a `\uXXXX` escape denoting a lone UTF-16 surrogate (which Python would turn
  into an unpaired surrogate code unit inside a `str`) is a parse failure,
  since Lean `Char` has no such code points; properly paired surrogates are
  combined as Python does;
* float literals are represented exactly as scaled decimals (`Json.fnum`),
  not rounded to IEEE doubles.
The parsers use a structural fuel argument; any fuel of at least twice the
input length is enough, and `try_json` supplies it. -/

/-- The whitespace accepted between JSON tokens by `json.loads`. -/
def isJsonWs (c : Char) : Bool := c = ' ' || c = '\t' || c = '\n' || c = '\r'

/-- Skip inter-token JSON whitespace. -/
def skipJsonWs (s : List Char) : List Char := s.dropWhile isJsonWs

/-- ASCII decimal digit test. -/
def isDigitChar (c : Char) : Bool := '0' ≤ c && c ≤ '9'

/-- Numeric value of a list of ASCII decimal digits (most significant first). -/
def digitsToNat (ds : List Char) : Nat :=
  ds.foldl (fun a c => a * 10 + (c.toNat - 48)) 0

/-- Value of one hexadecimal digit. -/
def hexVal (c : Char) : Option Nat :=
  if '0' ≤ c ∧ c ≤ '9' then some (c.toNat - 48)
  else if 'a' ≤ c ∧ c ≤ 'f' then some (c.toNat - 87)
  else if 'A' ≤ c ∧ c ≤ 'F' then some (c.toNat - 55)
  else none

/-- Parse exactly four hexadecimal digits (the `XXXX` of a `\uXXXX` escape). -/
def parseHex4 : List Char → Option (Nat × List Char)
  | a :: b :: c :: d :: rest =>
      match hexVal a, hexVal b, hexVal c, hexVal d with
      | some va, some vb, some vc, some vd =>
          some ((((va * 16 + vb) * 16 + vc) * 16 + vd), rest)
      | _, _, _, _ => none
  | _ => none

/-- The single-character JSON string escapes. -/
def jsonEscChar (e : Char) : Option Char :=
  if e = '"' then some '"'
  else if e = '\\' then some '\\'
  else if e = '/' then some '/'
  else if e = 'b' then some '\x08'
  else if e = 'f' then some '\x0c'
  else if e = 'n' then some '\n'
  else if e = 'r' then some '\r'
  else if e = 't' then some '\t'
  else none

/-- Parse the body of a JSON string after the opening quote, returning the
decoded characters and the remainder after the closing quote.  Strict mode:
raw control characters below `0x20` are rejected, exactly as `json.loads`
does by default. -/
def parseJStr : Nat → List Char → Option (List Char × List Char)
  | 0, _ => none
  | _ + 1, [] => none
  | fuel + 1, c :: cs =>
      if c = '"' then some ([], cs)
      else if c = '\\' then
        match cs with
        | [] => none
        | 'u' :: cs2 =>
            match parseHex4 cs2 with
            | none => none
            | some (n, rest) =>
                if 0xd800 ≤ n ∧ n < 0xdc00 then
                  match rest with
                  | '\\' :: 'u' :: cs3 =>
                      match parseHex4 cs3 with
                      | none => none
                      | some (lo, rest2) =>
                          if 0xdc00 ≤ lo ∧ lo ≤ 0xdfff then
                            match parseJStr fuel rest2 with
                            | some (p, r) =>
                                some (Char.ofNat
                                  (0x10000 + (n - 0xd800) * 0x400 +
                                    (lo - 0xdc00)) :: p, r)
                            | none => none
                          else none
                  | _ => none
                else if 0xdc00 ≤ n ∧ n ≤ 0xdfff then none
                else
                  match parseJStr fuel rest with
                  | some (p, r) => some (Char.ofNat n :: p, r)
                  | none => none
        | e :: cs2 =>
            match jsonEscChar e with
            | none => none
            | some d =>
                match parseJStr fuel cs2 with
                | some (p, r) => some (d :: p, r)
                | none => none
      else if c.toNat < 0x20 then none
      else
        match parseJStr fuel cs with
        | some (p, r) => some (c :: p, r)
        | none => none

/-- Parse a JSON number literal (the `NUMBER_RE` grammar of Python's `json`
module): optional `-`, integer part without leading zeros, optional fraction,
optional exponent.  A literal with neither fraction nor exponent is a Python
`int` (`Json.num`); otherwise a float literal (`Json.fnum`).  The parser is
`parseJNum` below; the pieces of the grammar come first.  This one is the
integer part (`(-?)(?:0|[1-9]\d*)`, sign handled by the caller): no leading
zeros. -/
def jIntPart (c : Char) (r : List Char) : Option (List Char × List Char) :=
  if c = '0' then some (['0'], r)
  else if isDigitChar c then
    some (c :: r.takeWhile isDigitChar, r.dropWhile isDigitChar)
  else none

/-- The optional fraction part (`(?:\.(\d+))?` of `NUMBER_RE`): digits taken
after a dot when present, otherwise nothing consumed. -/
def jFracSplit : List Char → List Char × List Char
  | '.' :: r2 =>
      if r2.takeWhile isDigitChar = [] then ([], '.' :: r2)
      else (r2.takeWhile isDigitChar, r2.dropWhile isDigitChar)
  | rest => ([], rest)

/-- The optional sign of an exponent. -/
def jExpSign : List Char → Int × List Char
  | '+' :: r4 => (1, r4)
  | '-' :: r4 => (-1, r4)
  | r3 => (1, r3)

/-- The optional exponent part (`(?:[eE][-+]?(\d+))?` of `NUMBER_RE`):
signed digits after `e`/`E` when present, otherwise nothing consumed. -/
def jExpSplit : List Char → Option Int × List Char
  | e :: r3 =>
      if e = 'e' ∨ e = 'E' then
        if (jExpSign r3).2.takeWhile isDigitChar = [] then (none, e :: r3)
        else (some ((jExpSign r3).1 *
                (digitsToNat ((jExpSign r3).2.takeWhile isDigitChar) : Int)),
              (jExpSign r3).2.dropWhile isDigitChar)
      else (none, e :: r3)
  | rest => (none, rest)

/-- Assembly of the parsed number from its parts: an `int` without fraction
and exponent, a `float` otherwise. -/
def jNumFinish (neg : Bool) (ids fds : List Char) :
    Option Int × List Char → Option (Json × List Char)
  | (none, rest2) =>
      if fds = [] then
        some (.num (if neg then -(digitsToNat ids : Int)
                    else (digitsToNat ids : Int)), rest2)
      else
        some (.fnum (if neg then -(digitsToNat (ids ++ fds) : Int)
                     else (digitsToNat (ids ++ fds) : Int))
          (-(fds.length : Int)), rest2)
  | (some ex, restE) =>
      some (.fnum (if neg then -(digitsToNat (ids ++ fds) : Int)
                   else (digitsToNat (ids ++ fds) : Int))
        (ex - (fds.length : Int)), restE)

/-- Number parsing after the optional leading minus: integer part without
leading zeros, then fraction and exponent. -/
def parseJNumFrom (neg : Bool) : List Char → Option (Json × List Char)
  | [] => none
  | c :: r =>
      match jIntPart c r with
      | none => none
      | some (ids, rest) =>
          jNumFinish neg ids (jFracSplit rest).1 (jExpSplit (jFracSplit rest).2)

/-- Parse a JSON number literal: optional minus, then the parts above. -/
def parseJNum : List Char → Option (Json × List Char)
  | '-' :: r => parseJNumFrom true r
  | s => parseJNumFrom false s

/-- Python's `dict(pairs)` on the member list of a JSON object: duplicate keys
keep their first position and last value, matching insertion-ordered `dict`
construction in `json.loads`. -/
def dictOfPairs (ms : List (String × Json)) : Dict :=
  ms.foldl (fun d p => dictInsert d p.1 p.2) []

mutual

/-- Parse one JSON value, skipping leading inter-token whitespace. -/
def parseJVal : Nat → List Char → Option (Json × List Char)
  | 0, _ => none
  | fuel + 1, s =>
      match skipJsonWs s with
      | [] => none
      | c :: r =>
          if c = '\x7b' then
            match skipJsonWs r with
            | '\x7d' :: r2 => some (.obj [], r2)
            | r' =>
                match parseJMembers fuel r' with
                | some (ms, rest) => some (.obj (dictOfPairs ms), rest)
                | none => none
          else if c = '[' then
            match skipJsonWs r with
            | ']' :: r2 => some (.arr [], r2)
            | r' =>
                match parseJElems fuel r' with
                | some (es, rest) => some (.arr es, rest)
                | none => none
          else if c = '"' then
            match parseJStr (r.length + 1) r with
            | some (content, rest) => some (.str ⟨content⟩, rest)
            | none => none
          else if c = 't' then
            match r with
            | 'r' :: 'u' :: 'e' :: r2 => some (.bool true, r2)
            | _ => none
          else if c = 'f' then
            match r with
            | 'a' :: 'l' :: 's' :: 'e' :: r2 => some (.bool false, r2)
            | _ => none
          else if c = 'n' then
            match r with
            | 'u' :: 'l' :: 'l' :: r2 => some (.null, r2)
            | _ => none
          else parseJNum (c :: r)

/-- Parse the members of a JSON object after the opening brace (whitespace
already skipped, at least one member present). -/
def parseJMembers : Nat → List Char → Option (List (String × Json) × List Char)
  | 0, _ => none
  | fuel + 1, s =>
      match s with
      | '"' :: r =>
          match parseJStr (r.length + 1) r with
          | none => none
          | some (key, rest) =>
              match skipJsonWs rest with
              | ':' :: r2 =>
                  match parseJVal fuel r2 with
                  | none => none
                  | some (v, rest2) =>
                      match skipJsonWs rest2 with
                      | ',' :: r3 =>
                          match parseJMembers fuel (skipJsonWs r3) with
                          | some (ms, rest3) =>
                              some ((⟨key⟩, v) :: ms, rest3)
                          | none => none
                      | '\x7d' :: r3 => some ([(⟨key⟩, v)], r3)
                      | _ => none
              | _ => none
      | _ => none

/-- Parse the elements of a JSON array after the opening bracket (whitespace
already skipped, at least one element present). -/
def parseJElems : Nat → List Char → Option (List Json × List Char)
  | 0, _ => none
  | fuel + 1, s =>
      match parseJVal fuel s with
      | none => none
      | some (v, rest) =>
          match skipJsonWs rest with
          | ',' :: r2 =>
              match parseJElems fuel r2 with
              | some (es, rest2) => some (v :: es, rest2)
              | none => none
          | ']' :: r2 => some ([v], r2)
          | _ => none

end

/-- `_try_json` of `params_parser.py`: `json.loads` on the whole text with all
exceptions converted into `none`.  Success requires the remainder after one
JSON value to be only whitespace (Python's `Extra data` check). -/
def try_json (s : List Char) : Option Json :=
  match parseJVal (2 * s.length + 2) s with
  | none => none
  | some (v, rest) => if skipJsonWs rest = [] then some v else none

/-! ## A model of `json.dumps`

Serializer with Python's defaults: `ensure_ascii=True` (every code point
outside printable ASCII is emitted as a `\uXXXX` escape, non-BMP code points
as a UTF-16 surrogate pair) and the default separators `", "` and `": "`.
`Json.fnum` values are emitted in exact scaled-decimal notation `<m>e<e>`;
Python would emit `repr(float)`, whose shortest-round-trip guarantee this
canonical form models. -/

/-- Decimal digit character. -/
def digitChar (n : Nat) : Char := Char.ofNat (48 + n)

/-- Lowercase hexadecimal digit character, as produced by `format(n, '04x')`. -/
def hexDigitChar (n : Nat) : Char :=
  if n < 10 then Char.ofNat (48 + n) else Char.ofNat (87 + n)

/-- Worker for `natDigits`; any fuel above the number itself is enough. -/
def natDigitsF : Nat → Nat → List Char
  | 0, _ => []
  | fuel + 1, n =>
      if n < 10 then [digitChar n]
      else natDigitsF fuel (n / 10) ++ [digitChar (n % 10)]

/-- Decimal digits of a natural number, most significant first (`str(n)`). -/
def natDigits (n : Nat) : List Char := natDigitsF (n + 1) n

/-- Python `str(i)` for an integer. -/
def intChars (i : Int) : List Char :=
  if i < 0 then '-' :: natDigits i.natAbs else natDigits i.natAbs

/-- Four lowercase hex digits of `n < 0x10000` (the `XXXX` of `\uXXXX`). -/
def hex4 (n : Nat) : List Char :=
  [hexDigitChar (n / 4096 % 16), hexDigitChar (n / 256 % 16),
   hexDigitChar (n / 16 % 16), hexDigitChar (n % 16)]

/-- Serialization of one character inside a JSON string under
`ensure_ascii=True`: printable ASCII except `"` and `\` is literal, the named
control escapes are used where they exist, everything else becomes `\uXXXX`
(with a surrogate pair above the BMP). -/
def serJChar (c : Char) : List Char :=
  if c = '"' then ['\\', '"']
  else if c = '\\' then ['\\', '\\']
  else if c = '\n' then ['\\', 'n']
  else if c = '\r' then ['\\', 'r']
  else if c = '\t' then ['\\', 't']
  else if c = '\x08' then ['\\', 'b']
  else if c = '\x0c' then ['\\', 'f']
  else if c.toNat < 0x20 then '\\' :: 'u' :: hex4 c.toNat
  else if c.toNat < 0x7f then [c]
  else if c.toNat < 0x10000 then '\\' :: 'u' :: hex4 c.toNat
  else
    ('\\' :: 'u' :: hex4 (0xd800 + (c.toNat - 0x10000) / 0x400)) ++
    ('\\' :: 'u' :: hex4 (0xdc00 + (c.toNat - 0x10000) % 0x400))

/-- Serialization of a JSON string body. -/
def serJStrBody : List Char → List Char
  | [] => []
  | c :: cs => serJChar c ++ serJStrBody cs

/-- Serialization of a JSON string with its quotes. -/
def serJString (s : String) : List Char := '"' :: (serJStrBody s.data ++ ['"'])

mutual

/-- `json.dumps` with default options, on the modelled value domain. -/
def serialize : Json → List Char
  | .null => ['n', 'u', 'l', 'l']
  | .bool b => if b then ['t', 'r', 'u', 'e'] else ['f', 'a', 'l', 's', 'e']
  | .num n => intChars n
  | .fnum m e => intChars m ++ 'e' :: intChars e
  | .str s => serJString s
  | .arr es => '[' :: serElems es
  | .obj ms => '\x7b' :: serMembers ms

/-- Elements of an array, with the default `", "` separator and the closing
bracket. -/
def serElems : List Json → List Char
  | [] => [']']
  | [e] => serialize e ++ [']']
  | e :: es => serialize e ++ ',' :: ' ' :: serElems es

/-- Members of an object, with the default `", "` and `": "` separators and
the closing brace. -/
def serMembers : List (String × Json) → List Char
  | [] => ['\x7d']
  | [(k, v)] => serJString k ++ ':' :: ' ' :: (serialize v ++ ['\x7d'])
  | (k, v) :: ms =>
      serJString k ++ ':' :: ' ' :: (serialize v ++ ',' :: ' ' :: serMembers ms)

end

/-! ## A model of `ast.literal_eval` (strategy 4)

`_try_python_literal_dict` calls `ast.literal_eval` and keeps the result only
when it is a `dict`.  Following the spec's §9 design note ("implementers must
write a minimal safe literal parser ... numbers, strings, booleans, mappings,
sequences, nesting"), this models the restricted literal grammar: single- or
double-quoted strings with the common backslash escapes, decimal numbers,
`True`/`False`/`None`, lists and dicts with string keys, with Python's
trailing commas.  Tuples, sets, bytes/complex literals, string prefixes and
concatenation, triple quotes, hex/octal ints and `\x`/`\u` string escapes are
treated as parse failures; none of them are exercised by the claims. -/

/-- Parse the body of a Python string literal after its opening quote `q`.
Unknown escapes keep the backslash (as Python does); a raw newline inside a
single-quoted literal is a syntax error. -/
def parsePyStr (q : Char) : Nat → List Char → Option (List Char × List Char)
  | 0, _ => none
  | _ + 1, [] => none
  | fuel + 1, c :: cs =>
      if c = q then some ([], cs)
      else if c = '\\' then
        match cs with
        | [] => none
        | e :: cs2 =>
            let decoded : List Char :=
              if e = 'n' then ['\n']
              else if e = 't' then ['\t']
              else if e = 'r' then ['\r']
              else if e = '\\' then ['\\']
              else if e = '\'' then ['\'']
              else if e = '"' then ['"']
              else ['\\', e]
            match parsePyStr q fuel cs2 with
            | some (p, r) => some (decoded ++ p, r)
            | none => none
      else if c = '\n' then none
      else
        match parsePyStr q fuel cs with
        | some (p, r) => some (c :: p, r)
        | none => none

/-- Parse a Python numeric literal (decimal only), with optional unary sign
as accepted by `ast.literal_eval`. -/
def parsePyNum (s : List Char) : Option (Json × List Char) :=
  let signAndRest : Bool × List Char :=
    match s with
    | '-' :: r => (true, r)
    | '+' :: r => (false, r)
    | _ => (false, s)
  let neg := signAndRest.1
  let s1 := signAndRest.2
  let ids := s1.takeWhile isDigitChar
  let rest := s1.dropWhile isDigitChar
  let fracSplit : Option (List Char) × List Char :=
    match rest with
    | '.' :: r2 => (some (r2.takeWhile isDigitChar), r2.dropWhile isDigitChar)
    | _ => (none, rest)
  let rest2 := fracSplit.2
  if ids = [] ∧ fracSplit.1.getD [] = [] then none
  else
    let expSplit : Option Int × List Char :=
      match rest2 with
      | e :: r3 =>
          if e = 'e' ∨ e = 'E' then
            let sgnRest : Int × List Char :=
              match r3 with
              | '+' :: r4 => (1, r4)
              | '-' :: r4 => (-1, r4)
              | _ => (1, r3)
            let es := sgnRest.2.takeWhile isDigitChar
            if es = [] then (none, rest2)
            else (some (sgnRest.1 * (digitsToNat es : Int)),
                  sgnRest.2.dropWhile isDigitChar)
          else (none, rest2)
      | _ => (none, rest2)
    let fds := (fracSplit.1.getD [])
    match fracSplit.1, expSplit.1 with
    | none, none =>
        some (.num (if neg then -(digitsToNat ids : Int)
                    else (digitsToNat ids : Int)), rest2)
    | _, _ =>
        let m : Int := digitsToNat (ids ++ fds)
        some (.fnum (if neg then -m else m)
              ((expSplit.1.getD 0) - (fds.length : Int)),
              if expSplit.1.isSome then expSplit.2 else rest2)

mutual

/-- Parse one Python literal value (restricted grammar, see above). -/
def pyLitVal : Nat → List Char → Option (Json × List Char)
  | 0, _ => none
  | fuel + 1, s =>
      match skipJsonWs s with
      | [] => none
      | c :: r =>
          if c = '\x7b' then
            match skipJsonWs r with
            | '\x7d' :: r2 => some (.obj [], r2)
            | r' =>
                match pyLitMembers fuel r' with
                | some (ms, rest) => some (.obj (dictOfPairs ms), rest)
                | none => none
          else if c = '[' then
            match skipJsonWs r with
            | ']' :: r2 => some (.arr [], r2)
            | r' =>
                match pyLitElems fuel r' with
                | some (es, rest) => some (.arr es, rest)
                | none => none
          else if c = '\'' ∨ c = '"' then
            match parsePyStr c (r.length + 1) r with
            | some (content, rest) => some (.str ⟨content⟩, rest)
            | none => none
          else if c = 'T' then
            match r with
            | 'r' :: 'u' :: 'e' :: r2 => some (.bool true, r2)
            | _ => none
          else if c = 'F' then
            match r with
            | 'a' :: 'l' :: 's' :: 'e' :: r2 => some (.bool false, r2)
            | _ => none
          else if c = 'N' then
            match r with
            | 'o' :: 'n' :: 'e' :: r2 => some (.null, r2)
            | _ => none
          else parsePyNum (c :: r)

/-- Parse the members of a Python dict literal (string keys only; at least
one member; trailing comma allowed). -/
def pyLitMembers : Nat → List Char → Option (List (String × Json) × List Char)
  | 0, _ => none
  | fuel + 1, s =>
      match pyLitVal fuel s with
      | some (.str key, rest) =>
          (match skipJsonWs rest with
          | ':' :: r2 =>
              match pyLitVal fuel r2 with
              | none => none
              | some (v, rest2) =>
                  match skipJsonWs rest2 with
                  | ',' :: r3 =>
                      (match skipJsonWs r3 with
                      | '\x7d' :: r4 => some ([(key, v)], r4)
                      | r3' =>
                          match pyLitMembers fuel r3' with
                          | some (ms, rest3) => some ((key, v) :: ms, rest3)
                          | none => none)
                  | '\x7d' :: r3 => some ([(key, v)], r3)
                  | _ => none
          | _ => none)
      | _ => none

/-- Parse the elements of a Python list literal (at least one element;
trailing comma allowed). -/
def pyLitElems : Nat → List Char → Option (List Json × List Char)
  | 0, _ => none
  | fuel + 1, s =>
      match pyLitVal fuel s with
      | none => none
      | some (v, rest) =>
          match skipJsonWs rest with
          | ',' :: r2 =>
              (match skipJsonWs r2 with
              | ']' :: r3 => some ([v], r3)
              | r2' =>
                  match pyLitElems fuel r2' with
                  | some (es, rest2) => some (v :: es, rest2)
                  | none => none)
          | ']' :: r2 => some ([v], r2)
          | _ => none

end

/-- `_try_python_literal_dict` of `params_parser.py`: evaluate the text as a
Python literal and keep the result only when it is a dict. -/
def try_python_literal_dict (s : List Char) : Option Dict :=
  match pyLitVal (2 * s.length + 2) s with
  | some (.obj ms, rest) => if skipJsonWs rest = [] then some ms else none
  | _ => none

/-! ## `_extract_code_fence` (strategy 2)

Model of `CODE_FENCE_RE = (?s)^\s*<fence>([a-zA-Z0-9_]*)\s*\n(.*?)\n<fence>`
applied with `re.match`, where `<fence>` is a triple backtick.  The `\s*\n`
between the language tag and the body matches greedily with backtracking: the
engine tries each newline of the whitespace run after the tag, last first,
and the body runs from just after that newline to the first subsequent
newline-plus-fence; `(.*?)` is lazy and nothing anchors the end of the
string.  Returns the lowered language tag and the body. -/

/-- Regex word characters `[a-zA-Z0-9_]`. -/
def isWordChar (c : Char) : Bool :=
  ('a' ≤ c && c ≤ 'z') || ('A' ≤ c && c ≤ 'Z') ||
  ('0' ≤ c && c ≤ '9') || c = '_'

/-- The `\s*\n(.*?)\n<fence>` tail of the fence regex: try each newline in
the leading whitespace run (last first), and cut the body at the first
newline-plus-triple-backtick after it. -/
def fenceBodySplit (rest1 : List Char) : Option (List Char) :=
  let run := rest1.takeWhile isPySpace
  let idxs :=
    ((List.range run.length).filter (fun k => run.getD k ' ' = '\n')).reverse
  idxs.findSome? fun k =>
    let area := rest1.drop (k + 1)
    (subFind ['\n', '`', '`', '`'] area).map (fun i => area.take i)

/-- `_extract_code_fence` of `params_parser.py`: returns
`(lang.lower().strip(), body)` when `CODE_FENCE_RE` matches, `none`
otherwise. -/
def extract_code_fence (s : List Char) : Option (List Char × List Char) :=
  let afterWs := s.dropWhile isPySpace
  match afterWs with
  | '`' :: '`' :: '`' :: rest =>
      let lang := rest.takeWhile isWordChar
      let rest1 := rest.dropWhile isWordChar
      match fenceBodySplit rest1 with
      | some body => some (pyStrip (lang.map Char.toLower), body)
      | none => none
  | _ => none

/-! ## `_extract_first_balanced_json` (strategy 3) -/

/-- One pass of the bracket-depth scanner of `_extract_first_balanced_json`:
`full` is the whole text (for slicing `text[start:i+1]`), the remaining
suffix is scanned with index `i`, string state `inStr`/`esc`/`quote`, the
current bracket `depth` and the `start` index of the currently open top-level
span (`none` models the source's `-1`).  On a span whose depth returns to
zero the span is parsed; if the parse succeeds the span is returned,
otherwise the scan continues, exactly as the source's loop does. -/
def ebjGo (full : List Char) :
    List Char → Nat → Bool → Bool → Char → Nat → Option Nat →
    Option (List Char)
  | [], _, _, _, _, _, _ => none
  | ch :: rest, i, inStr, esc, quote, depth, start =>
      if !inStr ∧ (ch = '\x7b' ∨ ch = '[') then
        ebjGo full rest (i + 1) inStr esc quote (depth + 1)
          (if depth = 0 then some i else start)
      else if !inStr ∧ (ch = '\x7d' ∨ ch = ']') then
        if depth > 0 then
          if depth - 1 = 0 then
            match start with
            | some st =>
                let segment := (full.drop st).take (i + 1 - st)
                if (try_json segment).isSome then some segment
                else ebjGo full rest (i + 1) inStr esc quote (depth - 1) start
            | none => ebjGo full rest (i + 1) inStr esc quote (depth - 1) start
          else ebjGo full rest (i + 1) inStr esc quote (depth - 1) start
        else ebjGo full rest (i + 1) inStr esc quote depth start
      else if ch = '"' ∨ ch = '\'' then
        if !inStr then ebjGo full rest (i + 1) true false ch depth start
        else
          ebjGo full rest (i + 1) (if !esc ∧ ch = quote then false else inStr)
            false quote depth start
      else if ch = '\\' ∧ inStr then
        ebjGo full rest (i + 1) inStr (!esc) quote depth start
      else ebjGo full rest (i + 1) inStr false quote depth start

/-- `_extract_first_balanced_json` of `params_parser.py`. -/
def extract_first_balanced_json (text : List Char) : Option (List Char) :=
  ebjGo text text 0 false false ' ' 0 none

/-- The same scan as `ebjGo`, collecting every top-level balanced span in
order without attempting to parse any of them (specification device for the
amended claim C4). -/
def ebjSpansGo (full : List Char) :
    List Char → Nat → Bool → Bool → Char → Nat → Option Nat →
    List (List Char)
  | [], _, _, _, _, _, _ => []
  | ch :: rest, i, inStr, esc, quote, depth, start =>
      if !inStr ∧ (ch = '\x7b' ∨ ch = '[') then
        ebjSpansGo full rest (i + 1) inStr esc quote (depth + 1)
          (if depth = 0 then some i else start)
      else if !inStr ∧ (ch = '\x7d' ∨ ch = ']') then
        if depth > 0 then
          if depth - 1 = 0 then
            match start with
            | some st =>
                ((full.drop st).take (i + 1 - st)) ::
                  ebjSpansGo full rest (i + 1) inStr esc quote (depth - 1) start
            | none =>
                ebjSpansGo full rest (i + 1) inStr esc quote (depth - 1) start
          else ebjSpansGo full rest (i + 1) inStr esc quote (depth - 1) start
        else ebjSpansGo full rest (i + 1) inStr esc quote depth start
      else if ch = '"' ∨ ch = '\'' then
        if !inStr then ebjSpansGo full rest (i + 1) true false ch depth start
        else
          ebjSpansGo full rest (i + 1)
            (if !esc ∧ ch = quote then false else inStr) false quote depth start
      else if ch = '\\' ∧ inStr then
        ebjSpansGo full rest (i + 1) inStr (!esc) quote depth start
      else ebjSpansGo full rest (i + 1) inStr false quote depth start

/-- All top-level balanced spans of the text, in scan order. -/
def balancedSpans (text : List Char) : List (List Char) :=
  ebjSpansGo text text 0 false false ' ' 0 none

/-! ## Transport decodings (strategy 5): `unquote_plus` and base64 -/

/-- UTF-8 encoding of one character. -/
def utf8Encode (c : Char) : List Nat :=
  let n := c.toNat
  if n < 0x80 then [n]
  else if n < 0x800 then [0xc0 + n / 0x40, 0x80 + n % 0x40]
  else if n < 0x10000 then
    [0xe0 + n / 0x1000, 0x80 + n / 0x40 % 0x40, 0x80 + n % 0x40]
  else
    [0xf0 + n / 0x40000, 0x80 + n / 0x1000 % 0x40,
     0x80 + n / 0x40 % 0x40, 0x80 + n % 0x40]

/-- UTF-8 decoding of a byte list.  `repl` is the action on undecodable
bytes: `some r` inserts the replacement character `r` (Python's
`errors='replace'`, approximated as one replacement per rejected byte),
`none` drops them (`errors='ignore'`).  Overlong encodings, surrogates and
out-of-range sequences are rejected as CPython's strict decoder does. -/
def utf8DecodeF (repl : Option Char) : Nat → List Nat → List Char
  | 0, _ => []
  | _ + 1, [] => []
  | fuel + 1, b :: bs =>
      let bad := fun (tl : List Nat) =>
        (match repl with
         | some r => r :: utf8DecodeF repl fuel tl
         | none => utf8DecodeF repl fuel tl)
      if b < 0x80 then Char.ofNat b :: utf8DecodeF repl fuel bs
      else if 0xc2 ≤ b ∧ b ≤ 0xdf then
        match bs with
        | b2 :: bs2 =>
            if 0x80 ≤ b2 ∧ b2 ≤ 0xbf then
              Char.ofNat ((b - 0xc0) * 0x40 + (b2 - 0x80)) ::
                utf8DecodeF repl fuel bs2
            else bad bs
        | [] => bad []
      else if 0xe0 ≤ b ∧ b ≤ 0xef then
        match bs with
        | b2 :: b3 :: bs2 =>
            let n := (b - 0xe0) * 0x1000 + (b2 - 0x80) * 0x40 + (b3 - 0x80)
            if 0x80 ≤ b2 ∧ b2 ≤ 0xbf ∧ 0x80 ≤ b3 ∧ b3 ≤ 0xbf ∧
                0x800 ≤ n ∧ ¬(0xd800 ≤ n ∧ n ≤ 0xdfff) then
              Char.ofNat n :: utf8DecodeF repl fuel bs2
            else bad bs
        | _ => bad bs
      else if 0xf0 ≤ b ∧ b ≤ 0xf4 then
        match bs with
        | b2 :: b3 :: b4 :: bs2 =>
            let n := (b - 0xf0) * 0x40000 + (b2 - 0x80) * 0x1000 +
              (b3 - 0x80) * 0x40 + (b4 - 0x80)
            if 0x80 ≤ b2 ∧ b2 ≤ 0xbf ∧ 0x80 ≤ b3 ∧ b3 ≤ 0xbf ∧
                0x80 ≤ b4 ∧ b4 ≤ 0xbf ∧ 0x10000 ≤ n ∧ n ≤ 0x10ffff then
              Char.ofNat n :: utf8DecodeF repl fuel bs2
            else bad bs
        | _ => bad bs
      else bad bs

/-- UTF-8 decoding with `errors='ignore'`. -/
def utf8DecodeIgnore (bs : List Nat) : List Char :=
  utf8DecodeF none (bs.length + 1) bs

/-- UTF-8 decoding with `errors='replace'`. -/
def utf8DecodeReplace (bs : List Nat) : List Char :=
  utf8DecodeF (some '�') (bs.length + 1) bs

/-- Collect a maximal run of `%XX` percent escapes into bytes. -/
def pctRun : List Char → (List Nat × List Char)
  | '%' :: a :: b :: rest =>
      match hexVal a, hexVal b with
      | some va, some vb =>
          let p := pctRun rest
          ((va * 16 + vb) :: p.1, p.2)
      | _, _ => ([], '%' :: a :: b :: rest)
  | s => ([], s)

/-- Worker for `unquote_plus`: decode maximal `%XX` runs as UTF-8 with
replacement, leave a `%` not starting a valid escape literal. -/
def unquoteGo : Nat → List Char → List Char
  | 0, s => s
  | _ + 1, [] => []
  | fuel + 1, c :: cs =>
      if c = '%' then
        let p := pctRun (c :: cs)
        if p.1 = [] then c :: unquoteGo fuel cs
        else utf8DecodeReplace p.1 ++ unquoteGo fuel p.2
      else c :: unquoteGo fuel cs

/-- `urllib.parse.unquote_plus`: `+` to space, then percent-decoding. -/
def unquote_plus (s : List Char) : List Char :=
  unquoteGo s.length (s.map (fun c => if c = '+' then ' ' else c))

/-- Value of one base64 alphabet character. -/
def b64Val (c : Char) : Option Nat :=
  if 'A' ≤ c ∧ c ≤ 'Z' then some (c.toNat - 65)
  else if 'a' ≤ c ∧ c ≤ 'z' then some (c.toNat - 71)
  else if '0' ≤ c ∧ c ≤ '9' then some (c.toNat + 4)
  else if c = '+' then some 62
  else if c = '/' then some 63
  else none

/-- `base64.b64decode(s, validate=True)`: the string must consist of
alphabet characters followed by at most two `=` pads; with `n` data
characters and `p` pads, `n % 4 = 1` is always an error, `n % 4 = 2`
requires `p = 2`, `n % 4 = 3` requires `p = 1`, and `n % 4 = 0` accepts any
`p` unless there is no data at all; each full quad yields three bytes and a
final partial group of two or three data characters yields one or two. -/
def b64Quads : List Char → Option (List Nat)
  | [] => some []
  | [a, b] =>
      (match b64Val a, b64Val b with
      | some va, some vb => some [va * 4 + vb / 16]
      | _, _ => none)
  | [a, b, c] =>
      (match b64Val a, b64Val b, b64Val c with
      | some va, some vb, some vc =>
          some [va * 4 + vb / 16, vb % 16 * 16 + vc / 4]
      | _, _, _ => none)
  | a :: b :: c :: d :: rest =>
      (match b64Val a, b64Val b, b64Val c, b64Val d with
      | some va, some vb, some vc, some vd =>
          (b64Quads rest).map
            (fun g => (va * 4 + vb / 16) :: (vb % 16 * 16 + vc / 4) ::
              (vc % 4 * 64 + vd) :: g)
      | _, _, _, _ => none)
  | _ => none

/-- See `b64Quads`; the padding acceptance rule was established against
CPython. -/
def b64decode_strict (s : List Char) : Option (List Nat) :=
  let pads := (s.reverse.takeWhile (· = '=')).length
  let body := (s.reverse.dropWhile (· = '=')).reverse
  if pads > 2 then none
  else if !body.all (fun c => (b64Val c).isSome) then none
  else if body.length % 4 = 0 then
    if 0 < pads ∧ body = [] then none else b64Quads body
  else if body.length % 4 = 2 then
    if pads = 2 then b64Quads body else none
  else if body.length % 4 = 3 then
    if pads = 1 then b64Quads body else none
  else none

/-- `_try_base64_json` of `params_parser.py`: strict base64 decode, then
UTF-8 with `errors='ignore'`, then `_try_json`; all failures give `none`. -/
def try_base64_json (s : List Char) : Option Json :=
  match b64decode_strict s with
  | none => none
  | some bytes => try_json (utf8DecodeIgnore bytes)

/-! ## `_kvs_fallback` (strategy 6) and `_maybe_path_arg` (strategy 7) -/

/-- Attempt of the regex `\bpath\s*=\s*([^\s]+)` at one position (the
boundary test for `\b` is done by the caller). -/
def kvPathAt (s : List Char) : Option (List Char) :=
  if ['p', 'a', 't', 'h'].isPrefixOf s then
    let r := (s.drop 4).dropWhile isPySpace
    match r with
    | '=' :: r2 =>
        let r3 := r2.dropWhile isPySpace
        let tok := r3.takeWhile (fun c => !isPySpace c)
        if tok = [] then none else some tok
    | _ => none
  else none

/-- `re.search(r'\bpath\s*=\s*([^\s]+)', s)`: leftmost position preceded by
a non-word character (or the start) where the pattern matches. -/
def kvPathGo : Option Char → List Char → Option (List Char)
  | _, [] => none
  | prev, c :: cs =>
      if (match prev with | none => true | some p => !isWordChar p) then
        match kvPathAt (c :: cs) with
        | some tok => some tok
        | none => kvPathGo (some c) cs
      else kvPathGo (some c) cs

/-- Attempt of the regex `\bscript\s*=\s*(.+)$` (with `re.S`) at one
position: after `script\s*=`, the greedy `\s*` backs off just enough to
leave at least one character for `(.+)`, which then runs to the end. -/
def kvScriptAt (s : List Char) : Option (List Char) :=
  if ['s', 'c', 'r', 'i', 'p', 't'].isPrefixOf s then
    let r := (s.drop 6).dropWhile isPySpace
    match r with
    | '=' :: r2 =>
        if r2 = [] then none
        else some (r2.drop (min (r2.takeWhile isPySpace).length (r2.length - 1)))
    | _ => none
  else none

/-- `re.search(r'\bscript\s*=\s*(.+)$', s, flags=re.S)`. -/
def kvScriptGo : Option Char → List Char → Option (List Char)
  | _, [] => none
  | prev, c :: cs =>
      if (match prev with | none => true | some p => !isWordChar p) then
        match kvScriptAt (c :: cs) with
        | some body => some body
        | none => kvScriptGo (some c) cs
      else kvScriptGo (some c) cs

/-- `_kvs_fallback` of `params_parser.py`: `path=` first, then `script=`;
a `script=` body that is a code fence yields the fence content, otherwise
one layer of outer quotes is stripped. -/
def kvs_fallback (s : List Char) : Option Dict :=
  match kvPathGo none s with
  | some tok => some [("path", Json.str ⟨strip_outer_quotes tok⟩)]
  | none =>
      match kvScriptGo none s with
      | some body0 =>
          let body := pyStrip body0
          match extract_code_fence body with
          | some (_, content) =>
              if content ≠ [] then some [("script", Json.str ⟨content⟩)]
              else some [("script", Json.str ⟨strip_outer_quotes body⟩)]
          | none => some [("script", Json.str ⟨strip_outer_quotes body⟩)]
      | none => none

/-- `_maybe_path_arg` of `params_parser.py`: a trimmed text ending in `.py`
is taken as a path, without checking existence. -/
def maybe_path_arg (s : List Char) : Option Dict :=
  let ss := pyStrip s
  if ['.', 'p', 'y'].isSuffixOf ss then some [("path", Json.str ⟨ss⟩)]
  else none

/-! ## `_decode_unicode_escapes` (used by strategy 8)

`s.encode('utf-8').decode('unicode_escape')`: the text is encoded to UTF-8
bytes and those bytes are decoded by the `unicode_escape` codec, each
non-escape byte standing for the code point of its own value (Latin-1 view —
this is what mangles non-ASCII text) and backslash escapes interpreted as in
a Python string literal.  Any decode error makes the source return the text
unchanged.  A `\uXXXX`/`\UXXXXXXXX` escape denoting a surrogate (which
CPython would accept, producing an unpaired surrogate code unit) is
unrepresentable in `Char` and modelled as a decode error. -/

/-- Octal digit test. -/
def isOctalChar (c : Char) : Bool := '0' ≤ c && c ≤ '7'

/-- The `unicode_escape` codec over the Latin-1 view of the bytes. -/
def uniEsc : Nat → List Char → Option (List Char)
  | 0, _ => none
  | _ + 1, [] => some []
  | fuel + 1, c :: cs =>
      if c = '\\' then
        match cs with
        | [] => none
        | e :: cs2 =>
            if e = '\n' then uniEsc fuel cs2
            else if e = 'n' then (uniEsc fuel cs2).map (fun l => '\n' :: l)
            else if e = 't' then (uniEsc fuel cs2).map (fun l => '\t' :: l)
            else if e = 'r' then (uniEsc fuel cs2).map (fun l => '\r' :: l)
            else if e = 'a' then (uniEsc fuel cs2).map (fun l => '\x07' :: l)
            else if e = 'b' then (uniEsc fuel cs2).map (fun l => '\x08' :: l)
            else if e = 'f' then (uniEsc fuel cs2).map (fun l => '\x0c' :: l)
            else if e = 'v' then (uniEsc fuel cs2).map (fun l => '\x0b' :: l)
            else if e = '\\' then (uniEsc fuel cs2).map (fun l => '\\' :: l)
            else if e = '\'' then (uniEsc fuel cs2).map (fun l => '\'' :: l)
            else if e = '"' then (uniEsc fuel cs2).map (fun l => '"' :: l)
            else if e = 'x' then
              match cs2 with
              | h1 :: h2 :: cs3 =>
                  match hexVal h1, hexVal h2 with
                  | some v1, some v2 =>
                      (uniEsc fuel cs3).map
                        (fun l => Char.ofNat (v1 * 16 + v2) :: l)
                  | _, _ => none
              | _ => none
            else if e = 'u' then
              match parseHex4 cs2 with
              | some (n, cs3) =>
                  if 0xd800 ≤ n ∧ n ≤ 0xdfff then none
                  else (uniEsc fuel cs3).map (fun l => Char.ofNat n :: l)
              | none => none
            else if e = 'U' then
              match parseHex4 cs2 with
              | some (hi, m) =>
                  match parseHex4 m with
                  | some (lo, cs3) =>
                      let n := hi * 0x10000 + lo
                      if n > 0x10ffff ∨ (0xd800 ≤ n ∧ n ≤ 0xdfff) then none
                      else (uniEsc fuel cs3).map (fun l => Char.ofNat n :: l)
                  | none => none
              | none => none
            else if e = 'N' then none
            else if isOctalChar e then
              let ds := (cs2.takeWhile isOctalChar).take 2
              let rest := cs2.drop ds.length
              let v := (e :: ds).foldl (fun a d => a * 8 + (d.toNat - 48)) 0
              (uniEsc fuel rest).map (fun l => Char.ofNat v :: l)
            else (uniEsc fuel cs2).map (fun l => '\\' :: e :: l)
      else (uniEsc fuel cs).map (fun l => c :: l)

/-- `_decode_unicode_escapes` of `params_parser.py`. -/
def decode_unicode_escapes (s : List Char) : List Char :=
  let latin := ((s.map utf8Encode).flatten).map Char.ofNat
  match uniEsc (latin.length + 1) latin with
  | some out => out
  | none => s

/-! ## The layered resolver `robust_parse_third_arg` -/

/-- `return j if isinstance(j, dict) else {"value": j}`. -/
def dictOrWrap (j : Json) : Dict :=
  match j with
  | .obj ms => ms
  | v => [("value", v)]

/-- Strategy 1: direct JSON parse of the whole normalized text. -/
def strat_direct_json (s : List Char) : Option Dict :=
  (try_json s).map dictOrWrap

/-- The language tags treated as structured data in strategy 2. -/
def jsonFenceLangs : List (List Char) :=
  ["json".data, "javascript".data, "jsonc".data]

/-- Strategy 2: code-fence extraction.  A truthy (non-empty) fence body
always produces a result: parsed JSON for a data language tag when it
parses, otherwise a script payload for the script-executing tool and a
`value` wrapper for any other tool. -/
def strat_code_fence (s : List Char) (tool_name : String) : Option Dict :=
  match extract_code_fence s with
  | none => none
  | some (lang, content) =>
      if content ≠ [] then
        let sv : Dict :=
          if tool_name = "execute_python_script" then
            [("script", Json.str ⟨content⟩)]
          else [("value", Json.str ⟨content⟩)]
        some (
          if jsonFenceLangs.contains lang then
            match try_json content with
            | some j => dictOrWrap j
            | none => sv
          else sv)
      else none

/-- Strategy 3: first balanced JSON span embedded in the text. -/
def strat_balanced (s : List Char) : Option Dict :=
  match extract_first_balanced_json s with
  | some seg => if seg ≠ [] then (try_json seg).map dictOrWrap else none
  | none => none

/-- Strategy 5a: URL decoding, retried as JSON only when it changed the
text. -/
def strat_urldecode (s : List Char) : Option Dict :=
  if unquote_plus s ≠ s then (try_json (unquote_plus s)).map dictOrWrap
  else none

/-- Strategy 5b: base64-wrapped JSON. -/
def strat_base64 (s : List Char) : Option Dict :=
  (try_base64_json s).map dictOrWrap

/-- The leftmost match of `"script"\s*:\s*"(.*)"\s*$` (with `re.S`): the
greedy `(.*)` runs to the last `"` that is followed only by whitespace. -/
def lastQuoteAllWs (r : List Char) : Option Nat :=
  ((List.range r.length).filter
    (fun j => r.getD j ' ' = '"' ∧ (r.drop (j + 1)).all isPySpace)).getLast?

/-- Attempt of the broken-`"script"`-literal regex at one position. -/
def scriptFragAt (s : List Char) : Option (List Char) :=
  if ['"', 's', 'c', 'r', 'i', 'p', 't', '"'].isPrefixOf s then
    match (s.drop 8).dropWhile isPySpace with
    | ':' :: r2 =>
        (match r2.dropWhile isPySpace with
        | '"' :: r3 =>
            match lastQuoteAllWs r3 with
            | some j => some (r3.take j)
            | none => none
        | _ => none)
    | _ => none
  else none

/-- `re.search` for the broken-`"script"`-literal pattern. -/
def scriptFragGo : List Char → Option (List Char)
  | [] => none
  | c :: cs =>
      match scriptFragAt (c :: cs) with
      | some content => some content
      | none => scriptFragGo cs

/-- Strategy 8 (reached only for `execute_python_script`): strip one layer
of outer quotes, recover the right-hand side of a broken
`"script": "..."` fragment when present, and apply
`_decode_unicode_escapes`. -/
def script_payload_fallback (s : List Char) : Dict :=
  match scriptFragGo (strip_outer_quotes s) with
  | some code => [("script", Json.str ⟨decode_unicode_escapes code⟩)]
  | none =>
      [("script", Json.str ⟨decode_unicode_escapes (strip_outer_quotes s)⟩)]

/-- Strategies 1-7 of the resolver as an ordered chain, first success
winning (the source's sequence of early returns). -/
def strategies17 (s : List Char) (tool_name : String) : Option Dict :=
  (strat_direct_json s).orElse fun _ =>
  (strat_code_fence s tool_name).orElse fun _ =>
  (strat_balanced s).orElse fun _ =>
  (try_python_literal_dict s).orElse fun _ =>
  (strat_urldecode s).orElse fun _ =>
  (strat_base64 s).orElse fun _ =>
  (kvs_fallback s).orElse fun _ =>
  maybe_path_arg s

/-- `robust_parse_third_arg` of `params_parser.py`: the layered resolver. -/
def robust_parse_third_arg (raw : String) (tool_name : String) : Dict :=
  if raw.data = [] ∨ pyStrip raw.data = [] then []
  else
    match strategies17 (normalize raw.data) tool_name with
    | some d => d
    | none =>
        if tool_name = "execute_python_script" then
          script_payload_fallback (normalize raw.data)
        else [("value", Json.str ⟨normalize raw.data⟩)]


/-! # Embedding of `argparse_parser.py` -/

/-- The ordered replacement table of `_process_escape_sequences` (Python
dicts preserve insertion order, so the replacements run in this order). -/
def escapeReplacements : List (List Char × List Char) :=
  [(['\\', 'n'], ['\n']), (['\\', 't'], ['\t']), (['\\', 'r'], ['\r']),
   (['\\', '"'], ['"']), (['\\', '\''], ['\'']), (['\\', '\\'], ['\\'])]

/-- `_process_escape_sequences` of `argparse_parser.py` on a string: the six
literal substring replacements, each applied once over the whole text, in
table order. -/
def process_escape_sequences (text : List Char) : List Char :=
  if text = [] then text
  else escapeReplacements.foldl (fun acc p => pyReplace p.1 p.2 acc) text

/-- The outer-quote strip at the start of `_process_value`. -/
def pvStripQuotes (v : List Char) : List Char :=
  if v.length ≥ 2 ∧
      ((v.head? = some '"' ∧ v.getLast? = some '"') ∨
       (v.head? = some '\'' ∧ v.getLast? = some '\'')) then
    (v.drop 1).dropLast
  else v

/-- A model of Python `float(value)`: surrounding whitespace allowed, then an
optional sign and a decimal literal with optional fraction and exponent,
consumed entirely.  `inf`/`nan` forms and underscore separators are treated
as failures (unexercised here); the value is kept as an exact scaled
decimal. -/
def tryPyFloat (v : List Char) : Option Json :=
  let t := pyStrip v
  let signAndRest : Bool × List Char :=
    match t with
    | '-' :: r => (true, r)
    | '+' :: r => (false, r)
    | _ => (false, t)
  let neg := signAndRest.1
  let s1 := signAndRest.2
  let ids := s1.takeWhile isDigitChar
  let rest := s1.dropWhile isDigitChar
  let fracSplit : List Char × List Char :=
    match rest with
    | '.' :: r2 => (r2.takeWhile isDigitChar, r2.dropWhile isDigitChar)
    | _ => ([], rest)
  let hadDot : Bool := match rest with | '.' :: _ => true | _ => false
  let fds := fracSplit.1
  if ids = [] ∧ fds = [] then none
  else
    let expSplit : Option Int × List Char :=
      match fracSplit.2 with
      | e :: r3 =>
          if e = 'e' ∨ e = 'E' then
            let sgnRest : Int × List Char :=
              match r3 with
              | '+' :: r4 => (1, r4)
              | '-' :: r4 => (-1, r4)
              | _ => (1, r3)
            let es := sgnRest.2.takeWhile isDigitChar
            if es = [] then (none, fracSplit.2)
            else (some (sgnRest.1 * (digitsToNat es : Int)),
                  sgnRest.2.dropWhile isDigitChar)
          else (none, fracSplit.2)
      | _ => (none, fracSplit.2)
    let finalRest := if expSplit.1.isSome then expSplit.2
                     else if hadDot then fracSplit.2 else rest
    if finalRest ≠ [] then none
    else
      let m : Int := digitsToNat (ids ++ fds)
      some (.fnum (if neg then -m else m)
        ((expSplit.1.getD 0) - (fds.length : Int)))

/-- `_process_value` of `argparse_parser.py`: strip one layer of matching
outer quotes, then try boolean, integer, float, finally plain string. -/
def process_value (value : List Char) : Json :=
  let v := pvStripQuotes value
  if v.map Char.toLower = ['t', 'r', 'u', 'e'] then Json.bool true
  else if v.map Char.toLower = ['f', 'a', 'l', 's', 'e'] then Json.bool false
  else if ((!v.isEmpty && v.all isDigitChar) ||
      (match v with
       | '-' :: r => !r.isEmpty && r.all isDigitChar
       | _ => false)) then
    Json.num (match v with
              | '-' :: r => -(digitsToNat r : Int)
              | _ => (digitsToNat v : Int))
  else
    match tryPyFloat v with
    | some j => j
    | none => Json.str ⟨v⟩

/-- The `supported_tools` table of `MCPArgumentParser.__init__`. -/
def SUPPORTED_TOOLS : List (String × List String) :=
  [("api_doc_query", ["query"]),
   ("execute_python_script", ["script", "path"]),
   ("list_python_scripts", []),
   ("get_camera_0_view", []),
   ("move_camera", ["location", "rotation"])]

/-- The generic token loop of `_parse_cli_style` (lines 91-118 of
`argparse_parser.py`), on the token list produced by `shlex.split`:
`--name=value` assigns a coerced value, a bare `--name` consumes the next
token when one exists and otherwise becomes a boolean flag, and a positional
token is assigned to the first expected parameter of the tool when the tool
has one. -/
def parse_cli_tokens (tool_name : String) : Dict → List String → Dict
  | result, [] => result
  | result, arg :: rest =>
      if arg.data.take 2 = ['-', '-'] then
        if arg.data.contains '=' then
          let kv := arg.data.drop 2
          let key : String := ⟨kv.takeWhile (· ≠ '=')⟩
          let v := (kv.dropWhile (· ≠ '=')).drop 1
          parse_cli_tokens tool_name (dictInsert result key (process_value v))
            rest
        else
          match rest with
          | v :: rest2 =>
              parse_cli_tokens tool_name
                (dictInsert result ⟨arg.data.drop 2⟩ (process_value v.data))
                rest2
          | [] =>
              parse_cli_tokens tool_name
                (dictInsert result ⟨arg.data.drop 2⟩ (Json.bool true)) []
      else
        match SUPPORTED_TOOLS.lookup tool_name with
        | some (p :: _) =>
            parse_cli_tokens tool_name
              (dictInsert result p (process_value arg.data)) rest
        | _ => parse_cli_tokens tool_name result rest

/-! ## A model of `shlex.split` (POSIX mode)

Whitespace separates tokens; single quotes protect everything up to the next
single quote; double quotes protect their span, inside which a backslash
escapes only `"` and `\`; outside quotes a backslash takes the next character
literally.  An unterminated quote or a trailing backslash raises
`ValueError`, modelled as `none`.  (The backslash-newline line-continuation
subtlety of `shlex` is not modelled; no claim exercises it.) -/

/-- `shlex` whitespace. -/
def isShlexWs (c : Char) : Bool := c = ' ' || c = '\t' || c = '\r' || c = '\n'

/-- Span protected by single quotes. -/
def shlexQuoteSingle : List Char → Option (List Char × List Char)
  | [] => none
  | '\'' :: rest => some ([], rest)
  | c :: cs =>
      match shlexQuoteSingle cs with
      | some p => some (c :: p.1, p.2)
      | none => none

/-- Span protected by double quotes. -/
def shlexQuoteDouble : List Char → Option (List Char × List Char)
  | [] => none
  | '"' :: rest => some ([], rest)
  | '\\' :: c :: cs =>
      if c = '"' ∨ c = '\\' then
        match shlexQuoteDouble cs with
        | some p => some (c :: p.1, p.2)
        | none => none
      else
        match shlexQuoteDouble cs with
        | some p => some ('\\' :: c :: p.1, p.2)
        | none => none
  | ['\\'] => none
  | c :: cs =>
      match shlexQuoteDouble cs with
      | some p => some (c :: p.1, p.2)
      | none => none

/-- One token starting at a non-whitespace position. -/
def shlexTok : Nat → List Char → Option (List Char × List Char)
  | 0, _ => none
  | _ + 1, [] => some ([], [])
  | fuel + 1, c :: cs =>
      if isShlexWs c then some ([], cs)
      else if c = '\'' then
        match shlexQuoteSingle cs with
        | none => none
        | some (content, rest) =>
            match shlexTok fuel rest with
            | some p => some (content ++ p.1, p.2)
            | none => none
      else if c = '"' then
        match shlexQuoteDouble cs with
        | none => none
        | some (content, rest) =>
            match shlexTok fuel rest with
            | some p => some (content ++ p.1, p.2)
            | none => none
      else if c = '\\' then
        match cs with
        | [] => none
        | e :: cs2 =>
            match shlexTok fuel cs2 with
            | some p => some (e :: p.1, p.2)
            | none => none
      else
        match shlexTok fuel cs with
        | some p => some (c :: p.1, p.2)
        | none => none

/-- Worker for `shlexSplit`. -/
def shlexSplitGo : Nat → List Char → Option (List String)
  | 0, _ => some []
  | _ + 1, [] => some []
  | fuel + 1, c :: cs =>
      if isShlexWs c then shlexSplitGo fuel cs
      else
        match shlexTok ((c :: cs).length + 1) (c :: cs) with
        | none => none
        | some (tok, rest) =>
            match shlexSplitGo fuel rest with
            | some ts => some (⟨tok⟩ :: ts)
            | none => none

/-- `shlex.split` (POSIX), `none` on a tokenization `ValueError`. -/
def shlexSplit (s : List Char) : Option (List String) :=
  shlexSplitGo s.length s

/-! ## `_parse_execute_python_script` -/

/-- `re.search`: try the position matcher at each start position, leftmost
first. -/
def searchAt (f : List Char → Option (List Char)) : List Char → Option (List Char)
  | [] => f []
  | c :: cs =>
      match f (c :: cs) with
      | some r => some r
      | none => searchAt f cs

/-- Python `str.strip(chars)`: remove leading and trailing characters drawn
from the given set. -/
def stripSet (set : List Char) (s : List Char) : List Char :=
  ((s.dropWhile (set.contains ·)).reverse.dropWhile (set.contains ·)).reverse

/-- Attempt of `--script=["\x27]?\$\(cat\s+([^)]+)\)["\x27]?` at one position
(the regex backtracking corner where the `([^)]+)` group would be forced to
take part of the whitespace run is not modelled; no claim exercises it). -/
def catAt (s : List Char) : Option (List Char) :=
  if ['-', '-', 's', 'c', 'r', 'i', 'p', 't', '='].isPrefixOf s then
    let r := s.drop 9
    let r1 := match r with
              | c :: cs => if c = '"' ∨ c = '\'' then cs else r
              | [] => r
    if ['$', '(', 'c', 'a', 't'].isPrefixOf r1 then
      let r2 := r1.drop 5
      if r2.takeWhile isPySpace = [] then none
      else
        let r3 := r2.dropWhile isPySpace
        let grp := r3.takeWhile (· ≠ ')')
        if grp = [] then none
        else
          match r3.dropWhile (· ≠ ')') with
          | ')' :: _ => some grp
          | _ => none
    else none
  else none

/-- Attempt of `--path=["\x27]?([^"\s]+)["\x27]?` at one position. -/
def pathAt (s : List Char) : Option (List Char) :=
  if ['-', '-', 'p', 'a', 't', 'h', '='].isPrefixOf s then
    let r := s.drop 7
    let pred := fun (c : Char) => c ≠ '"' ∧ ¬isPySpace c
    let attempt := fun (t : List Char) =>
      let g := t.takeWhile pred
      if g = [] then none else some g
    match r with
    | c :: cs =>
        if c = '"' ∨ c = '\'' then
          match attempt cs with
          | some g => some g
          | none => attempt r
        else attempt r
    | [] => none
  else none

/-- Attempt of `--script=["\x27]?(.*?)["\x27]?$` (DOTALL) at one position:
an optional opening quote is consumed, the lazy group then runs to the end,
minus a single trailing quote when one is present. -/
def scriptEqAt (s : List Char) : Option (List Char) :=
  if ['-', '-', 's', 'c', 'r', 'i', 'p', 't', '='].isPrefixOf s then
    let r := s.drop 9
    let t := match r with
             | c :: cs => if c = '"' ∨ c = '\'' then cs else r
             | [] => r
    match t.getLast? with
    | some q => if q = '"' ∨ q = '\'' then some t.dropLast else some t
    | none => some t
  else none

/-- The `startswith`/`endswith` quote strip applied to the captured script
content (no minimum length: a single quote character strips to empty, as
Python slicing does). -/
def scriptContentStrip (content : List Char) : List Char :=
  if content.head? = some '"' ∧ content.getLast? = some '"' then
    (content.drop 1).dropLast
  else if content.head? = some '\'' ∧ content.getLast? = some '\'' then
    (content.drop 1).dropLast
  else content

/-- `_parse_execute_python_script` of `argparse_parser.py`.  The file system
is abstracted by `readFile` (the `$(cat file)` shorthand reads a file; a
missing file degrades to a placeholder comment). -/
def parse_execute_python_script (readFile : List Char → Option (List Char))
    (args_str : List Char) : Dict :=
  match searchAt catAt args_str with
  | some grp =>
      let filename := stripSet ['"', '\''] (pyStrip grp)
      match readFile filename with
      | some content => [("script", Json.str ⟨content⟩)]
      | none =>
          [("script", Json.str
            ⟨"# File not found: ".data ++ filename⟩)]
  | none =>
      match searchAt pathAt args_str with
      | some grp => [("path", Json.str ⟨grp⟩)]
      | none =>
          match searchAt scriptEqAt args_str with
          | some content =>
              [("script", Json.str
                ⟨process_escape_sequences (scriptContentStrip content)⟩)]
          | none =>
              [("script", Json.str ⟨process_escape_sequences args_str⟩)]

/-- `_parse_cli_style` of `argparse_parser.py`. -/
def parse_cli_style (readFile : List Char → Option (List Char))
    (tool_name : String) (args_str : List Char) : Dict :=
  if tool_name = "execute_python_script" then
    parse_execute_python_script readFile args_str
  else
    match shlexSplit args_str with
    | some toks => parse_cli_tokens tool_name [] toks
    | none =>
        match SUPPORTED_TOOLS.lookup tool_name with
        | some (p :: _) => [(p, Json.str ⟨pyStrip args_str⟩)]
        | _ => [("value", Json.str ⟨pyStrip args_str⟩)]

/-! ## `_try_parse_json` and `parse_args` -/

/-- `_process_escape_sequences` applied to a parsed JSON value, as the
source does for `script` entries.  A falsy value is returned unchanged, a
string is processed; a truthy non-string raises `AttributeError`
(`.replace` is not defined on it), modelled as `none`. -/
def process_escape_json : Json → Option Json
  | .str s => some (.str ⟨process_escape_sequences s.data⟩)
  | .null => some .null
  | .bool false => some (.bool false)
  | .num n => if n = 0 then some (.num n) else none
  | .fnum m e => if m = 0 then some (.fnum m e) else none
  | .arr es => if es = [] then some (.arr es) else none
  | .obj ms => if ms = [] then some (.obj ms) else none
  | .bool true => none

/-- `if "script" in result: result["script"] = _process_escape_sequences(...)`
on a parsed dict. -/
def applyScriptEscape (d : Dict) : Option Dict :=
  match d.lookup "script" with
  | none => some d
  | some v =>
      match process_escape_json v with
      | some w => some (dictInsert d "script" w)
      | none => none

/-- The double-escaping preprocessing of `_try_parse_json`:
`\\n → \n`, `\\" → \"`, `\\t → \t`, `\\r → \r` on the two-character
escape sequences (each pattern is three characters of actual text). -/
def preprocessShellEscapes (s : List Char) : List Char :=
  pyReplace ['\\', '\\', 'r'] ['\\', 'r']
    (pyReplace ['\\', '\\', 't'] ['\\', 't']
      (pyReplace ['\\', '\\', '"'] ['\\', '"']
        (pyReplace ['\\', '\\', 'n'] ['\\', 'n'] s)))

/-- `_try_parse_json` of `argparse_parser.py`: parse as JSON (retrying after
the shell-double-escaping fix), then unwrap the nested
`{"type": ..., "params": {...}}` format and process escape sequences on any
`script` entry.  `Except.error` models the uncaught `AttributeError` on a
truthy non-string `script` value; `Except.ok none` models "not JSON". -/
def try_parse_json (args_str : List Char) : Except Unit (Option Dict) :=
  let parsed : Option Json :=
    match try_json args_str with
    | some v => some v
    | none => try_json (preprocessShellEscapes args_str)
  match parsed with
  | none => .ok none
  | some (.obj kvs) =>
      if ((kvs.lookup "type").isSome &&
          (match kvs.lookup "params" with
           | some (.obj _) => true
           | _ => false)) then
        match kvs.lookup "params" with
        | some (.obj pkvs) =>
            (match applyScriptEscape pkvs with
            | some d => .ok (some d)
            | none => .error ())
        | _ => .ok none
      else
        match applyScriptEscape kvs with
        | some d => .ok (some d)
        | none => .error ()
  | some v => .ok (some [("value", v)])

/-- `parse_args` of `argparse_parser.py` (also the `robust_parse_third_arg`
compatibility wrapper of that file): empty input gives `{}`, then the JSON
path, then the CLI-style path.  `Except.error` models an uncaught exception
escaping `_try_parse_json`. -/
def parse_args (readFile : List Char → Option (List Char))
    (tool_name : String) (args_str : List Char) : Except Unit Dict :=
  if pyStrip args_str = [] then .ok []
  else
    match try_parse_json (pyStrip args_str) with
    | .error e => .error e
    | .ok (some d) => .ok d
    | .ok none => .ok (parse_cli_style readFile tool_name args_str)

/-! # Vocabulary for the serialization round-trip (claim C2)

A serialized JSON value is followed in context either by nothing or by a
separator (`,`, `]` or `}`); and the modelled `Json` values that stand for
Python `dict`-derived data have no duplicate keys at any object level. -/

/-- The character classes that can legally follow a complete JSON value in
the serialized text: end of input or a closing separator. -/
def sepOk : List Char → Bool
  | [] => true
  | c :: _ => c = ',' || c = ']' || c = '\x7d'

/-- `k` does not occur among the keys of the member list. -/
def keyFresh (k : String) : List (String × Json) → Bool
  | [] => true
  | (k', _) :: ms => !(k = k') && keyFresh k ms

mutual

/-- A `Json` value that comes from Python data: every object member list has
pairwise distinct keys (Python `dict`s cannot hold duplicates). -/
def wfJson : Json → Bool
  | .null => true
  | .bool _ => true
  | .num _ => true
  | .fnum _ _ => true
  | .str _ => true
  | .arr es => wfElems es
  | .obj ms => wfPairs ms

/-- `wfJson` on every element. -/
def wfElems : List Json → Bool
  | [] => true
  | v :: es => wfJson v && wfElems es

/-- Pairwise distinct keys and well-formed values. -/
def wfPairs : List (String × Json) → Bool
  | [] => true
  | (k, v) :: ms => keyFresh k ms && wfJson v && wfPairs ms

end

/-! # Toolkit lemmas -/

theorem containsSub_cons (pat : List Char) (c : Char) (cs : List Char) :
    containsSub pat (c :: cs) =
      (pat.isPrefixOf (c :: cs) || containsSub pat cs) := by
  unfold containsSub
  conv_lhs => rw [subFind]
  by_cases h : pat.isPrefixOf (c :: cs) <;> simp [h]

theorem pyReplaceF_eq_self (pat rep : List Char) :
    ∀ (fuel : Nat) (s : List Char), containsSub pat s = false →
      pyReplaceF pat rep fuel s = s := by
  intro fuel
  induction fuel with
  | zero => intro s _; rfl
  | succ n ih =>
      intro s h
      match s with
      | [] => rfl
      | c :: cs =>
          rw [containsSub_cons, Bool.or_eq_false_iff] at h
          unfold pyReplaceF
          rw [if_neg, ih cs h.2]
          rintro ⟨_, hpre⟩
          rw [h.1] at hpre
          exact Bool.false_ne_true hpre

theorem pyReplace_eq_self (pat rep s : List Char)
    (h : containsSub pat s = false) : pyReplace pat rep s = s :=
  pyReplaceF_eq_self pat rep s.length s h

/-! # Claim C1 -/

/-- C1: for every string `x` (including the empty string) and every tool
name `t`, the layered resolver terminates and returns a ParameterSet (in the
embedding, `robust_parse_third_arg` is a total function into `Dict`; every
fallible strategy is an `Option` whose failure falls through to the next),
and when `x` is empty or whitespace-only the result is the empty mapping. -/
theorem C1_resolver_totality (x t : String) :
    ∃ ps : Dict, robust_parse_third_arg x t = ps ∧
      ((x = "" ∨ pyStrip x.data = []) → ps = []) := by
  refine ⟨robust_parse_third_arg x t, rfl, ?_⟩
  intro h
  unfold robust_parse_third_arg
  rw [if_pos]
  rcases h with h | h
  · left; rw [h]
  · right; exact h

/-- Witness for C1 at the whitespace-only input `"   "`. -/
theorem C1_witness :
    robust_parse_third_arg "   " "execute_python_script" = [] := by
  obtain ⟨ps, h1, h2⟩ := C1_resolver_totality "   " "execute_python_script"
  exact h1.trans (h2 (Or.inr (by decide)))

/-! # Claim C9 -/

/-- C9: for text with no further nested escaping — formalized as: the
once-restored text contains none of the six two-character escape sequences —
applying `_process_escape_sequences` twice equals applying it once. -/
theorem C9_escape_restoration_fixpoint (s : List Char)
    (h : escapeReplacements.all
      (fun p => !containsSub p.1 (process_escape_sequences s)) = true) :
    process_escape_sequences (process_escape_sequences s) =
      process_escape_sequences s := by
  simp only [escapeReplacements, List.all_cons, List.all_nil,
    Bool.and_eq_true, Bool.not_eq_true'] at h
  obtain ⟨h1, h2, h3, h4, h5, h6, -⟩ := h
  by_cases he : process_escape_sequences s = []
  · rw [he]; rfl
  · conv_lhs => rw [process_escape_sequences]
    rw [if_neg he]
    simp only [escapeReplacements, List.foldl_cons, List.foldl_nil]
    rw [pyReplace_eq_self _ _ _ h1, pyReplace_eq_self _ _ _ h2,
      pyReplace_eq_self _ _ _ h3, pyReplace_eq_self _ _ _ h4,
      pyReplace_eq_self _ _ _ h5, pyReplace_eq_self _ _ _ h6]

/-- Witness for C9 at `"line1\\nline2"` (single backslash-n in the actual
text), whose restoration contains no remaining escape sequence. -/
theorem C9_witness :
    process_escape_sequences (process_escape_sequences "line1\\nline2".data) =
      process_escape_sequences "line1\\nline2".data :=
  C9_escape_restoration_fixpoint "line1\\nline2".data (by decide)

/-! # Claim C7 -/

theorem string_mk_data (s : String) : String.mk s.data = s := by
  cases s; rfl

/-- C7: in the CLI-style token loop, a token `--name` with no `=`: when a
non-flag token follows, that token is consumed (the loop skips it) and its
coerced value is assigned to key `name`; when no token follows, key `name`
is assigned boolean `true`. -/
theorem C7_cli_flag_tokens (tool : String) (acc : Dict) (name : String)
    (hname : ¬ name.data.contains '=' = true) :
    (∀ (next : String) (rest : List String),
      ¬ next.data.take 2 = ['-', '-'] →
      parse_cli_tokens tool acc (("--" ++ name) :: next :: rest) =
        parse_cli_tokens tool
          (dictInsert acc name (process_value next.data)) rest) ∧
    parse_cli_tokens tool acc [("--" ++ name)] =
      dictInsert acc name (Json.bool true) := by
  have hdata : ("--" ++ name).data = '-' :: '-' :: name.data := by
    rw [String.data_append]; rfl
  have htake : (("--" ++ name).data.take 2) = ['-', '-'] := by
    rw [hdata]; rfl
  have hcont : ¬ ("--" ++ name).data.contains '=' = true := by
    rw [hdata]
    simpa using hname
  have hdrop : ("--" ++ name).data.drop 2 = name.data := by
    rw [hdata]; rfl
  constructor
  · intro next rest _
    rw [parse_cli_tokens, if_pos htake, if_neg hcont]
    rw [hdrop, string_mk_data]
  · rw [parse_cli_tokens, if_pos htake, if_neg hcont]
    rw [hdrop, string_mk_data]
    rw [parse_cli_tokens]

/-- Witness for C7: `--query hello` consumes `hello` as the value of
`query`, and a trailing `--flag` becomes boolean `true`. -/
theorem C7_witness :
    parse_cli_tokens "api_doc_query" [] ["--query", "hello"] =
      [("query", Json.str "hello")] ∧
    parse_cli_tokens "api_doc_query" [] ["--flag"] =
      [("flag", Json.bool true)] := by
  constructor
  · have h := (C7_cli_flag_tokens "api_doc_query" [] "query"
      (by decide)).1 "hello" [] (by decide)
    exact h.trans (by rfl)
  · have h := (C7_cli_flag_tokens "api_doc_query" [] "flag" (by decide)).2
    exact h.trans (by rfl)

/-! # Claim C3 -/

theorem script_payload_fallback_ne_nil (s : List Char) :
    script_payload_fallback s ≠ [] := by
  unfold script_payload_fallback
  cases h : scriptFragGo (strip_outer_quotes s) <;> simp [h]

set_option maxHeartbeats 2000000 in
/-- Counterexample to C3 as stated: the input `"{}"` contains non-whitespace
characters, yet the resolver returns the empty mapping (strategy 1 parses it
as the empty JSON object). -/
theorem C3_counterexample :
    robust_parse_third_arg "\x7b\x7d" "api_doc_query" = [] ∧
    pyStrip "\x7b\x7d".data ≠ [] := by
  constructor
  · decide
  · decide

/-- C3 amended: the resolver returns the empty mapping exactly when the
input is empty or whitespace-only, or when the first matching strategy among
1-7 yields an empty mapping; the fallback steps 8 and 9 themselves always
return a singleton mapping. -/
theorem C3_empty_result_characterization (x t : String) :
    robust_parse_third_arg x t = [] ↔
      (pyStrip x.data = [] ∨
        strategies17 (normalize x.data) t = some []) := by
  unfold robust_parse_third_arg
  by_cases hc : x.data = [] ∨ pyStrip x.data = []
  · rw [if_pos hc]
    have hps : pyStrip x.data = [] := by
      rcases hc with h | h
      · rw [h]; rfl
      · exact h
    simp [hps]
  · rw [if_neg hc]
    have h1 : ¬ pyStrip x.data = [] := fun h => hc (Or.inr h)
    cases hs : strategies17 (normalize x.data) t with
    | some d => simp [h1]
    | none =>
        simp only [h1, false_or]
        constructor
        · intro h
          by_cases ht : t = "execute_python_script"
          · rw [if_pos ht] at h
            exact absurd h (script_payload_fallback_ne_nil _)
          · rw [if_neg ht] at h
            exact absurd h (by simp)
        · intro h
          exact absurd h (by simp)

/-! # Claim C6 -/

set_option maxHeartbeats 2000000 in
/-- Counterexample to C6 as stated: on input `\x41` (backslash, x, 4, 1)
with the script tool, strategies 1-7 all fail and the fallback applies
Python `unicode_escape` decoding, yielding `{"script": "A"}`; the §4.3
replacement list named by the claim would leave the text unchanged. -/
theorem C6_counterexample :
    robust_parse_third_arg "\\x41" "execute_python_script" =
      [("script", Json.str "A")] ∧
    process_escape_sequences
      (strip_outer_quotes (normalize "\\x41".data)) = "\\x41".data ∧
    "A".data ≠ "\\x41".data := by
  refine ⟨by decide, by decide, by decide⟩

/-- C6 amended: when the tool is `execute_python_script` and strategies 1-7
all fail, the resolver returns `{"script": c}` where `c` is obtained from
the outer-quote-stripped text (or from the content of a trailing broken
`"script": "..."` fragment) by `_decode_unicode_escapes` — Python
unicode-escape decoding of the UTF-8 bytes — not by the §4.3 replacement
list. -/
theorem C6_script_fallback (x : String)
    (hne : ¬(x.data = [] ∨ pyStrip x.data = []))
    (hs : strategies17 (normalize x.data) "execute_python_script" = none) :
    robust_parse_third_arg x "execute_python_script" =
      match scriptFragGo (strip_outer_quotes (normalize x.data)) with
      | some code =>
          [("script", Json.str ⟨decode_unicode_escapes code⟩)]
      | none =>
          [("script", Json.str
            ⟨decode_unicode_escapes
              (strip_outer_quotes (normalize x.data))⟩)] := by
  unfold robust_parse_third_arg
  rw [if_neg hne, hs, if_pos rfl]
  unfold script_payload_fallback
  cases hf : scriptFragGo (strip_outer_quotes (normalize x.data)) <;> rfl

set_option maxHeartbeats 2000000 in
/-- Witness for C6 (amended) at the input `\x42`, which decodes to `B`. -/
theorem C6_witness :
    robust_parse_third_arg "\\x42" "execute_python_script" =
      [("script", Json.str "B")] := by
  have h := C6_script_fallback "\\x42" (by decide) (by decide)
  exact h.trans (by decide)

/-! # Claim C10 -/

/-- C10: when an argument string parses as a JSON object in the nested
`{"type": ..., "params": {...}}` format, `parse_args` returns only the
`params` sub-mapping (top-level keys are discarded), and in both nested and
flat results a string-valued `script` entry has the escape-sequence
substitutions applied before the mapping is returned. -/
theorem C10_parse_args_nested_and_script
    (readFile : List Char → Option (List Char)) (tool : String) :
    (∀ (x : String) (kvs pkvs : Dict),
      pyStrip x.data ≠ [] →
      try_json (pyStrip x.data) = some (.obj kvs) →
      (kvs.lookup "type").isSome = true →
      kvs.lookup "params" = some (.obj pkvs) →
      (pkvs.lookup "script" = none ∨
        ∃ v, pkvs.lookup "script" = some (.str v)) →
      parse_args readFile tool x.data = .ok
        (match pkvs.lookup "script" with
         | some (.str v) =>
             dictInsert pkvs "script"
               (.str ⟨process_escape_sequences v.data⟩)
         | _ => pkvs)) ∧
    (∀ (x : String) (kvs : Dict),
      pyStrip x.data ≠ [] →
      try_json (pyStrip x.data) = some (.obj kvs) →
      ((kvs.lookup "type").isSome &&
        (match kvs.lookup "params" with
         | some (.obj _) => true
         | _ => false)) = false →
      (kvs.lookup "script" = none ∨
        ∃ v, kvs.lookup "script" = some (.str v)) →
      parse_args readFile tool x.data = .ok
        (match kvs.lookup "script" with
         | some (.str v) =>
             dictInsert kvs "script"
               (.str ⟨process_escape_sequences v.data⟩)
         | _ => kvs)) := by
  constructor
  · intro x kvs pkvs hne hp htype hparams hsc
    unfold parse_args
    rw [if_neg hne]
    unfold try_parse_json
    rw [hp]
    simp only [htype, hparams, Bool.true_and, if_pos]
    unfold applyScriptEscape
    rcases hsc with hn | ⟨v, hv⟩
    · rw [hn]
    · rw [hv]
      unfold process_escape_json
      simp
  · intro x kvs hne hp hflat hsc
    unfold parse_args
    rw [if_neg hne]
    unfold try_parse_json
    rw [hp]
    simp only [hflat, if_neg, Bool.false_eq_true, not_false_iff]
    unfold applyScriptEscape
    rcases hsc with hn | ⟨v, hv⟩
    · rw [hn]
    · rw [hv]
      unfold process_escape_json
      simp

/-- Witness for C10: the nested format extracts the `params` mapping with
the `script` entry unescaped, and a flat object gets its `script` entry
unescaped too. -/
theorem C10_witness :
    parse_args (fun _ => none) "execute_python_script"
      "\x7b\"type\": \"t\", \"params\": \x7b\"script\": \"a\\\\nb\", \"k\": 1\x7d\x7d".data
      = .ok [("script", Json.str "a\nb"), ("k", Json.num 1)] ∧
    parse_args (fun _ => none) "execute_python_script"
      "\x7b\"script\": \"x\\\\ty\"\x7d".data
      = .ok [("script", Json.str "x\ty")] := by
  constructor
  · have h := (C10_parse_args_nested_and_script (fun _ => none)
      "execute_python_script").1
      "\x7b\"type\": \"t\", \"params\": \x7b\"script\": \"a\\\\nb\", \"k\": 1\x7d\x7d"
      [("type", Json.str "t"),
       ("params", Json.obj [("script", Json.str "a\\nb"), ("k", Json.num 1)])]
      [("script", Json.str "a\\nb"), ("k", Json.num 1)]
      (by decide) (by rfl) (by rfl) (by rfl)
      (Or.inr ⟨"a\\nb", by rfl⟩)
    exact h.trans (by rfl)
  · have h := (C10_parse_args_nested_and_script (fun _ => none)
      "execute_python_script").2
      "\x7b\"script\": \"x\\\\ty\"\x7d"
      [("script", Json.str "x\\ty")]
      (by decide) (by rfl) (by rfl)
      (Or.inr ⟨"x\\ty", by rfl⟩)
    exact h.trans (by rfl)

/-! # Claim C4 -/

/-- Counterexample to C4 as stated: in `{bad} {"b": 1}` the first span whose
depth returns to zero is `{bad}`, which does not parse; the strategy then
parses the second span `{"b": 1}` and returns it, so a span other than the
first is parsed. -/
theorem C4_counterexample :
    extract_first_balanced_json "\x7bbad\x7d \x7b\"b\": 1\x7d".data =
      some "\x7b\"b\": 1\x7d".data ∧
    balancedSpans "\x7bbad\x7d \x7b\"b\": 1\x7d".data =
      ["\x7bbad\x7d".data, "\x7b\"b\": 1\x7d".data] ∧
    try_json "\x7bbad\x7d".data = none := by
  refine ⟨by decide, by decide, by decide⟩

/-- C4 amended, main induction: the source's scan returns the first
top-level balanced span (tracking bracket depth, ignoring brackets inside
quoted literals with escape-aware close detection) whose parse succeeds,
skipping spans that fail to parse. -/
theorem ebjGo_eq_find (full : List Char) :
    ∀ (rest : List Char) (i : Nat) (inStr esc : Bool) (quote : Char)
      (depth : Nat) (start : Option Nat),
      ebjGo full rest i inStr esc quote depth start =
        (ebjSpansGo full rest i inStr esc quote depth start).find?
          (fun sp => (try_json sp).isSome) := by
  intro rest
  induction rest with
  | nil => intro i inStr esc quote depth start; rfl
  | cons ch rest ih =>
      intro i inStr esc quote depth start
      rw [ebjGo.eq_def, ebjSpansGo.eq_def]
      dsimp only
      by_cases h1 : !inStr ∧ (ch = '\x7b' ∨ ch = '[')
      · rw [if_pos h1, if_pos h1]; exact ih ..
      · rw [if_neg h1, if_neg h1]
        by_cases h2 : !inStr ∧ (ch = '\x7d' ∨ ch = ']')
        · rw [if_pos h2, if_pos h2]
          by_cases h3 : depth > 0
          · rw [if_pos h3, if_pos h3]
            by_cases h4 : depth - 1 = 0
            · rw [if_pos h4, if_pos h4]
              cases start with
              | none => exact ih ..
              | some st =>
                  dsimp only
                  by_cases h5 :
                      (try_json ((full.drop st).take (i + 1 - st))).isSome =
                        true
                  · rw [if_pos h5]
                    exact (@List.find?_cons_of_pos (List Char)
                      (fun sp => (try_json sp).isSome)
                      ((full.drop st).take (i + 1 - st))
                      (ebjSpansGo full rest (i + 1) inStr esc quote
                        (depth - 1) (some st)) h5).symm
                  · rw [if_neg h5]
                    rw [@List.find?_cons_of_neg (List Char)
                      (fun sp => (try_json sp).isSome)
                      ((full.drop st).take (i + 1 - st))
                      (ebjSpansGo full rest (i + 1) inStr esc quote
                        (depth - 1) (some st)) h5]
                    exact ih ..
            · rw [if_neg h4, if_neg h4]; exact ih ..
          · rw [if_neg h3, if_neg h3]; exact ih ..
        · rw [if_neg h2, if_neg h2]
          by_cases h6 : ch = '"' ∨ ch = '\''
          · rw [if_pos h6, if_pos h6]
            by_cases h7 : !inStr
            · rw [if_pos h7, if_pos h7]; exact ih ..
            · rw [if_neg h7, if_neg h7]; exact ih ..
          · rw [if_neg h6, if_neg h6]
            by_cases h8 : ch = '\\' ∧ inStr
            · rw [if_pos h8, if_pos h8]; exact ih ..
            · rw [if_neg h8, if_neg h8]; exact ih ..

/-- C4 amended, top level: `_extract_first_balanced_json` returns exactly
the first top-level balanced span that parses as JSON (spans that fail to
parse are skipped, not final). -/
theorem C4_first_parsable_span (text : List Char) :
    extract_first_balanced_json text =
      (balancedSpans text).find? (fun sp => (try_json sp).isSome) :=
  ebjGo_eq_find text text 0 false false ' ' 0 none

/-! # Toolkit for the normalizer proofs (claims C5 and C8) -/

/-- A character untouched by every replacement pass of `charNormalize`:
not a carriage return, not zero-width, not a smart quote. -/
def goodChar (c : Char) : Bool :=
  !(c = '\r' || c = '​' || c = '‌' || c = '‍' ||
    c = '⁠' || c = '﻿' ||
    c = '“' || c = '”' || c = '„' || c = '‟' ||
    c = '‘' || c = '’' || c = '‚' || c = '‛')

theorem containsSub_false_of_head_notin (pat : List Char) (c : Char)
    (hc : pat.head? = some c) :
    ∀ (s : List Char), c ∉ s → containsSub pat s = false := by
  intro s
  induction s with
  | nil =>
      intro _
      unfold containsSub subFind
      have : pat ≠ [] := by
        intro h; rw [h] at hc; exact Option.noConfusion hc
      simp [this]
  | cons d ds ih =>
      intro hmem
      rw [containsSub_cons]
      have hdc : d ≠ c := fun h => hmem (h ▸ List.mem_cons_self d ds)
      have hpre : pat.isPrefixOf (d :: ds) = false := by
        match pat, hc with
        | c :: pat', rfl =>
            simp only [List.isPrefixOf, List.mem_cons] at *
            simp [Ne.symm hdc]
      rw [hpre, ih (fun h => hmem (List.mem_cons_of_mem d h))]
      rfl

theorem not_mem_of_all_good (s : List Char) (h : s.all goodChar = true)
    (c : Char) (hc : goodChar c = false) : c ∉ s := by
  intro hmem
  rw [List.all_eq_true] at h
  rw [h c hmem] at hc
  exact Bool.noConfusion hc

theorem pyReplaceF_single_eq_map (a b : Char) :
    ∀ (fuel : Nat) (t : List Char), t.length ≤ fuel →
      pyReplaceF [a] [b] fuel t =
        t.map (fun c => if c = a then b else c) := by
  intro fuel
  induction fuel with
  | zero =>
      intro t ht
      rw [List.eq_nil_of_length_eq_zero (Nat.le_zero.mp ht)]
      rfl
  | succ n ih =>
      intro t ht
      match t with
      | [] => rfl
      | c :: cs =>
          have hlen : cs.length ≤ n := by
            simp only [List.length_cons] at ht; omega
          unfold pyReplaceF
          by_cases hca : c = a
          · rw [if_pos ⟨by simp, by simp [List.isPrefixOf, hca]⟩]
            show b :: pyReplaceF [a] [b] n cs = _
            rw [List.map_cons, if_pos hca, ih cs hlen]
          · rw [if_neg (by
              rintro ⟨-, hpre⟩
              simp only [List.isPrefixOf, List.isPrefixOf_nil_left,
                Bool.and_true, beq_iff_eq] at hpre
              exact hca hpre.symm)]
            rw [List.map_cons, if_neg hca, ih cs hlen]

theorem pyReplace_single_eq_map (a b : Char) (s : List Char) :
    pyReplace [a] [b] s = s.map (fun c => if c = a then b else c) :=
  pyReplaceF_single_eq_map a b s.length s (le_refl _)

theorem pyReplaceF_single_eq_filter (a : Char) :
    ∀ (fuel : Nat) (t : List Char), t.length ≤ fuel →
      pyReplaceF [a] [] fuel t = t.filter (fun c => !(c = a)) := by
  intro fuel
  induction fuel with
  | zero =>
      intro t ht
      rw [List.eq_nil_of_length_eq_zero (Nat.le_zero.mp ht)]
      rfl
  | succ n ih =>
      intro t ht
      match t with
      | [] => rfl
      | c :: cs =>
          have hlen : cs.length ≤ n := by
            simp only [List.length_cons] at ht; omega
          unfold pyReplaceF
          by_cases hca : c = a
          · rw [if_pos ⟨by simp, by simp [List.isPrefixOf, hca]⟩]
            show pyReplaceF [a] [] n cs = _
            rw [ih cs hlen, List.filter_cons]
            simp [hca]
          · rw [if_neg (by
              rintro ⟨-, hpre⟩
              simp only [List.isPrefixOf, List.isPrefixOf_nil_left,
                Bool.and_true, beq_iff_eq] at hpre
              exact hca hpre.symm)]
            rw [ih cs hlen, List.filter_cons]
            simp [hca]

theorem pyReplace_single_eq_filter (a : Char) (s : List Char) :
    pyReplace [a] [] s = s.filter (fun c => !(c = a)) :=
  pyReplaceF_single_eq_filter a s.length s (le_refl _)

/-- `charNormalize` is the identity on a string of good characters. -/
theorem charNormalize_eq_self_of_good (s : List Char)
    (h : s.all goodChar = true) : charNormalize s = s := by
  have habs : ∀ (c : Char), goodChar c = false → c ∉ s :=
    fun c hc => not_mem_of_all_good s h c hc
  unfold charNormalize
  simp only [ZERO_WIDTH, SMART_QUOTES, List.foldl_cons, List.foldl_nil]
  rw [pyReplace_eq_self _ _ _ (containsSub_false_of_head_notin ['\r', '\n']
    '\r' rfl s (habs '\r' (by decide)))]
  rw [pyReplace_eq_self _ _ _ (containsSub_false_of_head_notin ['\r']
    '\r' rfl s (habs '\r' (by decide)))]
  rw [pyReplace_eq_self _ _ _ (containsSub_false_of_head_notin ['​'] '​' rfl s
    (habs '​' (by decide)))]
  rw [pyReplace_eq_self _ _ _ (containsSub_false_of_head_notin ['‌'] '‌' rfl s
    (habs '‌' (by decide)))]
  rw [pyReplace_eq_self _ _ _ (containsSub_false_of_head_notin ['‍'] '‍' rfl s
    (habs '‍' (by decide)))]
  rw [pyReplace_eq_self _ _ _ (containsSub_false_of_head_notin ['⁠'] '⁠' rfl s
    (habs '⁠' (by decide)))]
  rw [pyReplace_eq_self _ _ _ (containsSub_false_of_head_notin ['﻿'] '﻿' rfl s
    (habs '﻿' (by decide)))]
  rw [pyReplace_eq_self _ _ _ (containsSub_false_of_head_notin ['“'] '“' rfl s
    (habs '“' (by decide)))]
  rw [pyReplace_eq_self _ _ _ (containsSub_false_of_head_notin ['”'] '”' rfl s
    (habs '”' (by decide)))]
  rw [pyReplace_eq_self _ _ _ (containsSub_false_of_head_notin ['„'] '„' rfl s
    (habs '„' (by decide)))]
  rw [pyReplace_eq_self _ _ _ (containsSub_false_of_head_notin ['‟'] '‟' rfl s
    (habs '‟' (by decide)))]
  rw [pyReplace_eq_self _ _ _ (containsSub_false_of_head_notin ['‘'] '‘' rfl s
    (habs '‘' (by decide)))]
  rw [pyReplace_eq_self _ _ _ (containsSub_false_of_head_notin ['’'] '’' rfl s
    (habs '’' (by decide)))]
  rw [pyReplace_eq_self _ _ _ (containsSub_false_of_head_notin ['‚'] '‚' rfl s
    (habs '‚' (by decide)))]
  rw [pyReplace_eq_self _ _ _ (containsSub_false_of_head_notin ['‛'] '‛' rfl s
    (habs '‛' (by decide)))]


/-- The single-character image of the smart-quote replacement chain. -/
def smartApply (c : Char) : Char :=
  SMART_QUOTES.foldl (fun a kv => if a = kv.1 then kv.2 else a) c

/-- The single-character image of the `\r` to `\n` replacement. -/
def rmCR (c : Char) : Char := if c = '\r' then '\n' else c

/-- Survival predicate of the zero-width removal passes. -/
def zwPred (c : Char) : Bool := ZERO_WIDTH.all (fun z => !(c = z))

theorem foldl_replace_pairs_eq_map (ps : List (Char × Char)) :
    ∀ (t : List Char),
      ps.foldl (fun acc kv => pyReplace [kv.1] [kv.2] acc) t =
        t.map (fun c =>
          ps.foldl (fun a kv => if a = kv.1 then kv.2 else a) c) := by
  induction ps with
  | nil =>
      intro t
      simp only [List.foldl_nil]
      exact (List.map_id' t).symm
  | cons p ps ih =>
      intro t
      simp only [List.foldl_cons]
      rw [ih (pyReplace [p.1] [p.2] t), pyReplace_single_eq_map,
        List.map_map]
      rfl

theorem foldl_replace_zw_eq_filter (zs : List Char) :
    ∀ (t : List Char),
      zs.foldl (fun acc z => pyReplace [z] [] acc) t =
        t.filter (fun c => zs.all (fun z => !(c = z))) := by
  induction zs with
  | nil =>
      intro t
      simp only [List.foldl_nil, List.all_nil]
      exact (List.filter_true t).symm
  | cons z zs ih =>
      intro t
      simp only [List.foldl_cons]
      rw [ih (pyReplace [z] [] t), pyReplace_single_eq_filter,
        List.filter_filter]
      apply List.filter_congr
      intro a _
      simp only [List.all_cons]
      rw [Bool.and_comm]

theorem charNormalize_eq_pipeline (s : List Char) :
    charNormalize s =
      (((pyReplace ['\r', '\n'] ['\n'] s).map rmCR).filter zwPred).map
        smartApply := by
  unfold charNormalize
  rw [foldl_replace_pairs_eq_map, foldl_replace_zw_eq_filter,
    pyReplace_single_eq_map]
  rfl

theorem rmCR_ne_cr (d : Char) : rmCR d ≠ '\r' := by
  unfold rmCR
  by_cases h : d = '\r' <;> simp [h]

theorem goodChar_smartApply (c : Char) (hr : c ≠ '\r')
    (hz : zwPred c = true) : goodChar (smartApply c) = true := by
  simp only [zwPred, ZERO_WIDTH, List.all_cons, List.all_nil,
    Bool.and_eq_true, Bool.not_eq_true', and_true, decide_eq_false_iff_not]
    at hz
  obtain ⟨hz1, hz2, hz3, hz4, hz5⟩ := hz
  unfold smartApply SMART_QUOTES
  simp only [List.foldl_cons, List.foldl_nil]
  by_cases e1 : c = '“'
  · subst e1; decide
  rw [if_neg e1]
  by_cases e2 : c = '”'
  · subst e2; decide
  rw [if_neg e2]
  by_cases e3 : c = '„'
  · subst e3; decide
  rw [if_neg e3]
  by_cases e4 : c = '‟'
  · subst e4; decide
  rw [if_neg e4]
  by_cases e5 : c = '‘'
  · subst e5; decide
  rw [if_neg e5]
  by_cases e6 : c = '’'
  · subst e6; decide
  rw [if_neg e6]
  by_cases e7 : c = '‚'
  · subst e7; decide
  rw [if_neg e7]
  by_cases e8 : c = '‛'
  · subst e8; decide
  rw [if_neg e8]
  unfold goodChar
  simp [hr, hz1, hz2, hz3, hz4, hz5, e1, e2, e3, e4, e5, e6, e7, e8]

/-- Every character of the normalizer's character pass is good, so the pass
is idempotent. -/
theorem charNormalize_good (s : List Char) :
    (charNormalize s).all goodChar = true := by
  rw [List.all_eq_true]
  intro x hx
  rw [charNormalize_eq_pipeline] at hx
  obtain ⟨c, hc, rfl⟩ := List.mem_map.mp hx
  obtain ⟨hcm, hzp⟩ := List.mem_filter.mp hc
  obtain ⟨d, _, rfl⟩ := List.mem_map.mp hcm
  exact goodChar_smartApply (rmCR d) (rmCR_ne_cr d) hzp

theorem charNormalize_idem (s : List Char) :
    charNormalize (charNormalize s) = charNormalize s :=
  charNormalize_eq_self_of_good (charNormalize s) (charNormalize_good s)

/-! ## Strip lemmas -/

theorem dropWhile_head_false {p : Char → Bool} {l : List Char} {c : Char}
    {cs : List Char} (h : l.dropWhile p = c :: cs) : p c = false := by
  have := List.head?_dropWhile_not p l
  rw [h] at this
  exact this

theorem pyLStrip_idem (x : List Char) :
    pyLStrip (pyLStrip x) = pyLStrip x := by
  unfold pyLStrip
  cases h : x.dropWhile isPySpace with
  | nil => rfl
  | cons c cs => rw [List.dropWhile_cons_of_neg]; simp [dropWhile_head_false h]

theorem pyRStrip_prefix (x : List Char) : pyRStrip x <+: x := by
  unfold pyRStrip
  have h := List.dropWhile_suffix (l := x.reverse) isPySpace
  rw [← List.reverse_prefix] at h
  simpa using h

theorem pyLStrip_pyRStrip_pyLStrip (x : List Char) :
    pyLStrip (pyRStrip (pyLStrip x)) = pyRStrip (pyLStrip x) := by
  cases h : pyRStrip (pyLStrip x) with
  | nil => rfl
  | cons c cs =>
      have hpre : (c :: cs) <+: pyLStrip x := h ▸ pyRStrip_prefix (pyLStrip x)
      obtain ⟨t, ht⟩ := hpre
      have hhead : pyLStrip x = c :: (cs ++ t) := by rw [← ht]; rfl
      have hc : isPySpace c = false := dropWhile_head_false hhead
      unfold pyLStrip
      rw [List.dropWhile_cons_of_neg]
      simp [hc]

theorem pyRStrip_idem (x : List Char) :
    pyRStrip (pyRStrip x) = pyRStrip x := by
  unfold pyRStrip
  rw [List.reverse_reverse]
  cases h : x.reverse.dropWhile isPySpace with
  | nil => rfl
  | cons c cs =>
      rw [List.dropWhile_cons_of_neg]
      simp [dropWhile_head_false h]

theorem pyStrip_idem (x : List Char) : pyStrip (pyStrip x) = pyStrip x := by
  unfold pyStrip
  rw [pyLStrip_pyRStrip_pyLStrip, pyRStrip_idem]

theorem pyStrip_ne_nil_of_mem (x : List Char) (c : Char) (hc : c ∈ x)
    (hws : isPySpace c = false) : pyStrip x ≠ [] := by
  intro h
  unfold pyStrip pyRStrip at h
  have h2 : (pyLStrip x).reverse.dropWhile isPySpace = [] := by
    have := congrArg List.reverse h
    simpa using this
  rw [List.dropWhile_eq_nil_iff] at h2
  have hall : ∀ a ∈ pyLStrip x, isPySpace a = true := by
    intro a ha
    exact h2 a (by simpa using ha)
  have hx := (List.takeWhile_append_dropWhile (p := isPySpace) (l := x))
  rw [← hx] at hc
  rcases List.mem_append.mp hc with hin | hin
  · rw [List.mem_takeWhile_imp hin] at hws
    exact Bool.noConfusion hws
  · rw [hall c hin] at hws
    exact Bool.noConfusion hws

theorem pyRStrip_append (a b : List Char) (c : Char)
    (hlast : a.getLast? = some c) (hc : isPySpace c = false) :
    pyRStrip (a ++ b) = a ++ pyRStrip b := by
  have hrev : a.reverse.head? = some c := by
    rw [List.head?_reverse]; exact hlast
  obtain ⟨rest, hrest⟩ : ∃ rest, a.reverse = c :: rest := by
    cases h : a.reverse with
    | nil => rw [h] at hrev; exact Option.noConfusion hrev
    | cons d r =>
        rw [h] at hrev
        have hdc : d = c := by simpa using hrev
        exact ⟨r, by rw [hdc]⟩
  unfold pyRStrip
  rw [List.reverse_append, List.dropWhile_append]
  by_cases hemp : (b.reverse.dropWhile isPySpace).isEmpty = true
  · rw [if_pos hemp]
    rw [List.isEmpty_iff] at hemp
    rw [hemp, List.reverse_nil, List.append_nil, hrest,
      List.dropWhile_cons_of_neg (by simp [hc])]
    rw [← hrest, List.reverse_reverse]
  · rw [if_neg hemp, List.reverse_append, List.reverse_reverse]

/-! ## Substring search lemmas -/

theorem subFind_cons (pat : List Char) (c : Char) (cs : List Char) :
    subFind pat (c :: cs) =
      if pat.isPrefixOf (c :: cs) = true then some 0
      else (subFind pat cs).map (· + 1) := rfl

theorem subFind_some_startsAt (pat : List Char) :
    ∀ (t : List Char) (i : Nat), subFind pat t = some i →
      pat.isPrefixOf (t.drop i) = true := by
  intro t
  induction t with
  | nil =>
      intro i h
      unfold subFind at h
      by_cases hp : pat = []
      · rw [if_pos hp] at h
        simp [hp, List.isPrefixOf]
      · rw [if_neg hp] at h
        exact Option.noConfusion h
  | cons c cs ih =>
      intro i h
      unfold subFind at h
      by_cases hp : pat.isPrefixOf (c :: cs) = true
      · rw [if_pos hp] at h
        have : i = 0 := by
          simpa using h.symm
        rw [this]
        simpa using hp
      · rw [if_neg hp] at h
        cases hsub : subFind pat cs with
        | none => rw [hsub] at h; exact Option.noConfusion h
        | some j =>
            rw [hsub] at h
            simp only [Option.map_some'] at h
            have hij : i = j + 1 := (Option.some_inj.mp h).symm
            rw [hij]
            simpa using ih j hsub

theorem subFind_zero_of_startsAt (pat t : List Char)
    (h : pat.isPrefixOf t = true) : subFind pat t = some 0 := by
  cases t with
  | nil =>
      have : pat = [] := by
        cases pat with
        | nil => rfl
        | cons c cs => simp [List.isPrefixOf] at h
      unfold subFind
      rw [if_pos this]
  | cons c cs =>
      unfold subFind
      rw [if_pos h]

theorem subFind_append_shift (pat : List Char) (c : Char)
    (hc : pat.head? = some c) :
    ∀ (a b : List Char), c ∉ a →
      subFind pat (a ++ b) = (subFind pat b).map (a.length + ·) := by
  intro a
  induction a with
  | nil =>
      intro b _
      simp only [List.nil_append, List.length_nil]
      cases subFind pat b <;> simp
  | cons d ds ih =>
      intro b hmem
      have hdc : d ≠ c := fun h => hmem (h ▸ List.mem_cons_self d ds)
      have hpre : pat.isPrefixOf (d :: (ds ++ b)) = false := by
        match pat, hc with
        | c :: pat', rfl =>
            simp only [List.cons_append, List.isPrefixOf, beq_iff_eq]
            simp [Ne.symm hdc]
      show subFind pat (d :: (ds ++ b)) = _
      rw [subFind_cons, hpre]
      simp only [Bool.false_eq_true, if_false]
      rw [ih b (fun h => hmem (List.mem_cons_of_mem d h))]
      cases subFind pat b with
      | none => rfl
      | some j =>
          simp only [Option.map_some', List.length_cons]
          congr 1
          omega

theorem containsSub_iff_parts (pat s : List Char) :
    containsSub pat s = true ↔ ∃ u v, s = u ++ pat ++ v := by
  constructor
  · intro h
    unfold containsSub at h
    rw [Option.isSome_iff_exists] at h
    obtain ⟨i, hi⟩ := h
    have hp := subFind_some_startsAt pat s i hi
    rw [List.isPrefixOf_iff_prefix] at hp
    obtain ⟨v, hv⟩ := hp
    refine ⟨s.take i, v, ?_⟩
    rw [List.append_assoc, hv, List.take_append_drop]
  · rintro ⟨u, v, rfl⟩
    induction u with
    | nil =>
        unfold containsSub
        rw [subFind_zero_of_startsAt pat _ (by
          rw [List.isPrefixOf_iff_prefix]
          simpa using List.prefix_append pat v)]
        rfl
    | cons d ds ih =>
        show containsSub pat (d :: (ds ++ pat ++ v)) = true
        rw [containsSub_cons]
        rw [ih]
        simp

theorem containsSub_mono_infix (pat t s : List Char)
    (h : containsSub pat t = true) (hinf : t <:+: s) :
    containsSub pat s = true := by
  rw [containsSub_iff_parts] at h ⊢
  obtain ⟨u, v, rfl⟩ := h
  obtain ⟨l, r, rfl⟩ := hinf
  exact ⟨l ++ u, v ++ r, by simp⟩

/-! ## `first_json_like` lemmas -/

theorem first_json_like_eq (t : List Char) (p : Nat)
    (hmem : subFind ['\x7b'] t = some p ∨ subFind ['\x5b'] t = some p ∨
      subFind ['`', '`', '`'] t = some p)
    (h1 : ∀ j, subFind ['\x7b'] t = some j → p ≤ j)
    (h2 : ∀ j, subFind ['\x5b'] t = some j → p ≤ j)
    (h3 : ∀ j, subFind ['`', '`', '`'] t = some j → p ≤ j) :
    first_json_like t = p := by
  unfold first_json_like
  have hmin : ([subFind ['\x7b'] t, subFind ['\x5b'] t,
      subFind ['`', '`', '`'] t].filterMap id).min? = some p := by
    rw [List.min?_eq_some_iff (fun a => Nat.le_refl a)
      (fun a b => min_choice a b) (fun a b c => le_min_iff)]
    constructor
    · rw [List.mem_filterMap]
      rcases hmem with h | h | h
      · exact ⟨subFind ['\x7b'] t, by simp, by rw [h]; rfl⟩
      · exact ⟨subFind ['\x5b'] t, by simp, by rw [h]; rfl⟩
      · exact ⟨subFind ['`', '`', '`'] t, by simp, by rw [h]; rfl⟩
    · intro b hb
      rw [List.mem_filterMap] at hb
      obtain ⟨o, ho, hob⟩ := hb
      simp only [List.mem_cons, List.mem_singleton, List.not_mem_nil,
        or_false] at ho
      simp only [id_eq] at hob
      rcases ho with rfl | rfl | rfl
      · exact h1 b hob
      · exact h2 b hob
      · exact h3 b hob
  rw [hmin]

/-! # Claim C8 -/

theorem subFind_eq_none_of_not_contains (pat n : List Char)
    (h : containsSub pat n = false) : subFind pat n = none := by
  unfold containsSub at h
  cases h' : subFind pat n with
  | none => rfl
  | some j => rw [h'] at h; exact Bool.noConfusion h

theorem first_json_like_zero_of_none (t : List Char)
    (h1 : subFind ['\x7b'] t = none) (h2 : subFind ['\x5b'] t = none)
    (h3 : subFind ['`', '`', '`'] t = none) : first_json_like t = 0 := by
  unfold first_json_like
  rw [h1, h2, h3]
  rfl

/-- A string starting with one of the three structural tokens keeps it at
position zero after a full strip. -/
theorem first_json_like_pyStrip_zero (t : List Char)
    (h : (['\x7b'] : List Char).isPrefixOf t = true ∨
      (['\x5b'] : List Char).isPrefixOf t = true ∨
      (['`', '`', '`'] : List Char).isPrefixOf t = true) :
    first_json_like (pyStrip t) = 0 := by
  have core : ∀ (pat : List Char), pat ≠ [] →
      (∀ c ∈ pat, isPySpace c = false) →
      pat.isPrefixOf t = true →
      pat.isPrefixOf (pyStrip t) = true := by
    intro pat hne hnws hpre
    rw [List.isPrefixOf_iff_prefix] at hpre
    obtain ⟨rest, hrest⟩ := hpre
    have hhead : ∃ c pat', pat = c :: pat' := by
      cases pat with
      | nil => exact absurd rfl hne
      | cons c pat' => exact ⟨c, pat', rfl⟩
    obtain ⟨c, pat', rfl⟩ := hhead
    have hlstrip : pyLStrip t = t := by
      rw [← hrest]
      unfold pyLStrip
      rw [List.cons_append, List.dropWhile_cons_of_neg]
      simp [hnws c (List.mem_cons_self c pat')]
    have hlast : (c :: pat').getLast? = some ((c :: pat').getLast (by simp)) :=
      List.getLast?_eq_getLast _ _
    unfold pyStrip
    rw [hlstrip, ← hrest, List.cons_append]
    rw [show (c :: pat') ++ rest = (c :: pat') ++ rest from rfl] at *
    rw [← List.cons_append, pyRStrip_append (c :: pat') rest _ hlast
      (hnws _ (List.getLast_mem _))]
    rw [List.isPrefixOf_iff_prefix]
    exact List.prefix_append _ _
  rcases h with h | h | h
  · have hp := core ['\x7b'] (by simp) (by decide) h
    rw [List.isPrefixOf_iff_prefix] at hp
    exact first_json_like_eq _ 0
      (Or.inl (subFind_zero_of_startsAt _ _ (by
        rw [List.isPrefixOf_iff_prefix]; exact hp)))
      (fun j _ => Nat.zero_le j) (fun j _ => Nat.zero_le j)
      (fun j _ => Nat.zero_le j)
  · have hp := core ['\x5b'] (by simp) (by decide) h
    exact first_json_like_eq _ 0
      (Or.inr (Or.inl (subFind_zero_of_startsAt _ _ hp)))
      (fun j _ => Nat.zero_le j) (fun j _ => Nat.zero_le j)
      (fun j _ => Nat.zero_le j)
  · have hp := core ['`', '`', '`'] (by simp) (by decide) h
    exact first_json_like_eq _ 0
      (Or.inr (Or.inr (subFind_zero_of_startsAt _ _ hp)))
      (fun j _ => Nat.zero_le j) (fun j _ => Nat.zero_le j)
      (fun j _ => Nat.zero_le j)

theorem pyStrip_infix_self (x : List Char) : pyStrip x <:+: x := by
  unfold pyStrip
  have h1 : pyRStrip (pyLStrip x) <+: pyLStrip x := pyRStrip_prefix _
  have h2 : pyLStrip x <:+ x := List.dropWhile_suffix _
  exact h1.isInfix.trans h2.isInfix

theorem normalize_eq (s : List Char) :
    normalize s =
      pyStrip (if first_json_like (pyLStrip (charNormalize s)) > 0 then
        (pyLStrip (charNormalize s)).drop
          (first_json_like (pyLStrip (charNormalize s)))
        else pyLStrip (charNormalize s)) := rfl

theorem pyLStrip_pyStrip (x : List Char) :
    pyLStrip (pyStrip x) = pyStrip x :=
  pyLStrip_pyRStrip_pyLStrip x

/-- After the leading-noise cut, a further strip keeps the first structural
token (when any) at position zero. -/
theorem fjl_pyStrip_after_cut (tr : List Char) :
    first_json_like (pyStrip (if first_json_like tr > 0 then
      tr.drop (first_json_like tr) else tr)) = 0 := by
  have hunf : first_json_like tr =
      match ([subFind ['\x7b'] tr, subFind ['\x5b'] tr,
        subFind ['`', '`', '`'] tr].filterMap id).min? with
      | none => 0
      | some m => m := rfl
  cases hm : ([subFind ['\x7b'] tr, subFind ['\x5b'] tr,
      subFind ['`', '`', '`'] tr].filterMap id).min? with
  | none =>
      have hz : first_json_like tr = 0 := by rw [hunf, hm]
      have hemp := List.min?_eq_none_iff.mp hm
      have hnones : subFind ['\x7b'] tr = none ∧
          subFind ['\x5b'] tr = none ∧
          subFind ['`', '`', '`'] tr = none := by
        cases h1 : subFind ['\x7b'] tr <;>
          cases h2 : subFind ['\x5b'] tr <;>
            cases h3 : subFind ['`', '`', '`'] tr <;>
              simp [h1, h2, h3] at hemp ⊢
      rw [hz, if_neg (by omega)]
      have transfer : ∀ (pat : List Char), subFind pat tr = none →
          subFind pat (pyStrip tr) = none := by
        intro pat hnone
        apply subFind_eq_none_of_not_contains
        cases hcc : containsSub pat (pyStrip tr) with
        | false => rfl
        | true =>
            have hmono := containsSub_mono_infix _ _ _ hcc (pyStrip_infix_self tr)
            unfold containsSub at hmono
            rw [hnone] at hmono
            exact Bool.noConfusion hmono
      exact first_json_like_zero_of_none _ (transfer _ hnones.1)
        (transfer _ hnones.2.1) (transfer _ hnones.2.2)
  | some p =>
      have hp : first_json_like tr = p := by rw [hunf, hm]
      have hpm : p ∈ ([subFind ['\x7b'] tr, subFind ['\x5b'] tr,
          subFind ['`', '`', '`'] tr].filterMap id) :=
        List.min?_mem (fun a b => min_choice a b) hm
      rw [List.mem_filterMap] at hpm
      obtain ⟨o, ho, hop⟩ := hpm
      simp only [List.mem_cons, List.mem_singleton, List.not_mem_nil,
        or_false, id_eq] at ho hop
      have hdrop : (if first_json_like tr > 0 then
          tr.drop (first_json_like tr) else tr) = tr.drop p := by
        rw [hp]
        by_cases h : p > 0
        · rw [if_pos h]
        · rw [if_neg h]
          have hzz : p = 0 := by omega
          rw [hzz, List.drop_zero]
      rw [hdrop]
      apply first_json_like_pyStrip_zero
      rcases ho with rfl | rfl | rfl
      · exact Or.inl (subFind_some_startsAt _ _ _ hop)
      · exact Or.inr (Or.inl (subFind_some_startsAt _ _ _ hop))
      · exact Or.inr (Or.inr (subFind_some_startsAt _ _ _ hop))

/-- Every character of a normalized string is untouched by the character
passes. -/
theorem normalize_all_good (s : List Char) :
    (normalize s).all goodChar = true := by
  rw [List.all_eq_true]
  intro c hc
  have h1 := pyStrip_infix_self (if first_json_like (pyLStrip (charNormalize s))
      > 0 then (pyLStrip (charNormalize s)).drop
        (first_json_like (pyLStrip (charNormalize s)))
      else pyLStrip (charNormalize s))
  rw [← normalize_eq s] at h1
  have h2 : (if first_json_like (pyLStrip (charNormalize s)) > 0 then
      (pyLStrip (charNormalize s)).drop
        (first_json_like (pyLStrip (charNormalize s)))
      else pyLStrip (charNormalize s)) <:+: pyLStrip (charNormalize s) := by
    by_cases h : first_json_like (pyLStrip (charNormalize s)) > 0
    · rw [if_pos h]; exact (List.drop_suffix _ _).isInfix
    · rw [if_neg h]
  have h3 : pyLStrip (charNormalize s) <:+: charNormalize s :=
    (List.dropWhile_suffix _).isInfix
  have hcu : c ∈ charNormalize s := (h1.trans (h2.trans h3)).subset hc
  exact List.all_eq_true.mp (charNormalize_good s) c hcu

/-- C8: a single application of the normalizer reaches a fixed point. -/
theorem C8_normalize_idempotent (s : List Char) :
    normalize (normalize s) = normalize s := by
  have hcn : charNormalize (normalize s) = normalize s :=
    charNormalize_eq_self_of_good _ (normalize_all_good s)
  have hls : pyLStrip (normalize s) = normalize s := by
    rw [normalize_eq s]
    exact pyLStrip_pyStrip _
  have hfj0 : first_json_like (normalize s) = 0 := by
    rw [normalize_eq s]
    exact fjl_pyStrip_after_cut _
  have hps : pyStrip (normalize s) = normalize s := by
    conv_lhs => rw [normalize_eq s]
    rw [pyStrip_idem]
    exact (normalize_eq s).symm
  rw [normalize_eq (normalize s), hcn, hls, hfj0, if_neg (by omega)]
  exact hps

/-! # Claim C5 -/

set_option maxHeartbeats 2000000 in
/-- Counterexample to C5 as stated: when the prose before the fence itself
contains a JSON-like token, the leading-noise cut of `_normalize` starts the
text at that token and an earlier strategy (here: the balanced-span scan)
wins over the fence, so the full string resolves differently from the fence
body alone. -/
theorem C5_counterexample :
    robust_parse_third_arg
        "see \x7b\"b\": 2\x7d\n```json\n\x7b\"a\": 1\x7d\n```"
        "move_camera" = [("b", Json.num 2)] ∧
    robust_parse_third_arg "\x7b\"a\": 1\x7d" "move_camera" =
      [("a", Json.num 1)] ∧
    ([("b", Json.num 2)] : Dict) ≠ [("a", Json.num 1)] := by
  refine ⟨by decide, by decide, by decide⟩

theorem isPrefixOf_take (pat a b : List Char)
    (h : pat.isPrefixOf (a ++ b) = true) (hlen : pat.length ≤ a.length) :
    pat.isPrefixOf a = true := by
  rw [List.isPrefixOf_iff_prefix] at h ⊢
  have he := List.prefix_iff_eq_take.mp h
  rw [List.take_append_of_le_length hlen] at he
  rw [he]
  exact List.take_prefix _ _

theorem containsSub_of_prefix_drop (pat t : List Char) (i : Nat)
    (h : pat.isPrefixOf (t.drop i) = true) : containsSub pat t = true := by
  rw [containsSub_iff_parts]
  rw [List.isPrefixOf_iff_prefix] at h
  obtain ⟨v, hv⟩ := h
  refine ⟨t.take i, v, ?_⟩
  rw [List.append_assoc, hv, List.take_append_drop]

/-- `str.find` on `a ++ b` returns exactly `a.length` when the pattern heads
`b` and occurs nowhere earlier. -/
theorem subFind_append_exact (pat : List Char) :
    ∀ (a b : List Char),
      (∀ i, i < a.length → pat.isPrefixOf ((a ++ b).drop i) = false) →
      pat.isPrefixOf b = true →
      subFind pat (a ++ b) = some a.length := by
  intro a
  induction a with
  | nil =>
      intro b _ hp
      simpa using subFind_zero_of_startsAt pat b hp
  | cons d ds ih =>
      intro b hno hp
      have h0 : pat.isPrefixOf (d :: (ds ++ b)) = false := hno 0 (by simp)
      show subFind pat (d :: (ds ++ b)) = some (ds.length + 1)
      rw [subFind_cons, h0]
      simp only [Bool.false_eq_true, if_false]
      rw [ih b (fun i hi => hno (i + 1)
        (by simp only [List.length_cons]; omega)) hp]
      rfl

/-- The pattern `"\n```"` cannot start inside the last one-to-three
characters of the fence body: its tail would have to overlap the closing
fence, whose first character is a newline where the pattern demands a
backtick. -/
theorem nt4_prefix_short (a1 : Char) (d tail : List Char)
    (hlen : d.length ≤ 2)
    (h : (['\n', '`', '`', '`'] : List Char).isPrefixOf
      ((a1 :: d) ++ ('\n' :: '`' :: '`' :: '`' :: tail)) = true) : False := by
  rcases d with _ | ⟨a2, _ | ⟨a3, _ | ⟨a4, d4⟩⟩⟩
  · simp [List.isPrefixOf] at h
  · simp [List.isPrefixOf] at h
  · simp [List.isPrefixOf] at h
  · simp only [List.length_cons] at hlen
    omega

/-- A fence body free of `"\n```"` admits no early match of the closing
delimiter in `body ++ "\n```" ++ rest`. -/
theorem nt4_no_early (bd post2 : List Char)
    (hbf : containsSub ['\n', '`', '`', '`'] bd = false) :
    ∀ i, i < bd.length →
      (['\n', '`', '`', '`'] : List Char).isPrefixOf
        ((bd ++ ('\n' :: '`' :: '`' :: '`' :: post2)).drop i) = false := by
  intro i hi
  cases hP : (['\n', '`', '`', '`'] : List Char).isPrefixOf
      ((bd ++ ('\n' :: '`' :: '`' :: '`' :: post2)).drop i) with
  | false => rfl
  | true =>
      exfalso
      rw [List.drop_append_eq_append_drop,
        show i - bd.length = 0 by omega, List.drop_zero] at hP
      by_cases hle : i + 4 ≤ bd.length
      · have hpre : (['\n', '`', '`', '`'] : List Char).isPrefixOf
            (bd.drop i) = true :=
          isPrefixOf_take _ _ _ hP (by
            simp only [List.length_drop, List.length_cons, List.length_nil]
            omega)
        have hcon := containsSub_of_prefix_drop _ bd i hpre
        rw [hbf] at hcon
        exact Bool.noConfusion hcon
      · cases hd : bd.drop i with
        | nil =>
            have hdl := congrArg List.length hd
            rw [List.length_drop] at hdl
            simp only [List.length_nil] at hdl
            omega
        | cons a1 d =>
            rw [hd] at hP
            have hdl := congrArg List.length hd
            rw [List.length_drop] at hdl
            simp only [List.length_cons] at hdl
            exact nt4_prefix_short a1 d post2 (by omega) hP

/-- `json.loads` fails on any text whose first character is a backtick. -/
theorem try_json_backtick (cs : List Char) : try_json ('`' :: cs) = none :=
  rfl

theorem pyLStrip_append (a x : List Char)
    (hx : x.dropWhile isPySpace = x) :
    pyLStrip (a ++ x) = pyLStrip a ++ x := by
  unfold pyLStrip
  rw [List.dropWhile_append]
  by_cases h : (a.dropWhile isPySpace).isEmpty = true
  · rw [if_pos h, hx]
    rw [List.isEmpty_iff] at h
    rw [h, List.nil_append]
  · rw [if_neg h]

/-- The non-empty, non-strategy-determining branch of the resolver
summarized: a non-blank input whose normalized form some strategy of 1-7
resolves returns that strategy's mapping. -/
theorem robust_eq_of_strategies (x t : String) (d : Dict)
    (hne : ¬(x.data = [] ∨ pyStrip x.data = []))
    (hs : strategies17 (normalize x.data) t = some d) :
    robust_parse_third_arg x t = d := by
  unfold robust_parse_third_arg
  rw [if_neg hne, hs]

/-- C5 (amended): when the prose before the fence carries no structural
token (`{`, `[`, backtick), the fence body is a stripped JSON object not
containing a closing-fence delimiter, and all text is free of the
characters rewritten by `_normalize`, the full string and the fence body
alone resolve to the same mapping (the parsed object). -/
theorem C5_fence_precedence (pre body' post : List Char) (kvs : Dict)
    (t : String)
    (hgpre : pre.all goodChar = true)
    (hgbody : ('\x7b' :: body').all goodChar = true)
    (hgpost : post.all goodChar = true)
    (hpre1 : '\x7b' ∉ pre) (hpre2 : '\x5b' ∉ pre) (hpre3 : '`' ∉ pre)
    (hbody : try_json ('\x7b' :: body') = some (Json.obj kvs))
    (hbstrip : pyStrip ('\x7b' :: body') = '\x7b' :: body')
    (hbfence : containsSub ['\n', '`', '`', '`'] ('\x7b' :: body') = false) :
    robust_parse_third_arg
        ⟨pre ++ '`' :: '`' :: '`' :: 'j' :: 's' :: 'o' :: 'n' :: '\n' ::
          (('\x7b' :: body') ++ '\n' :: '`' :: '`' :: '`' :: post)⟩ t =
      kvs ∧
    robust_parse_third_arg ⟨'\x7b' :: body'⟩ t = kvs := by
  have happA : ∀ (u v : List Char), u.all goodChar = true →
      v.all goodChar = true → (u ++ v).all goodChar = true := by
    intro u v hu hv
    rw [List.all_append, hu, hv]
    rfl
  have hcons : ∀ (c : Char) (l : List Char), goodChar c = true →
      l.all goodChar = true → (c :: l).all goodChar = true := by
    intro c l hc hl
    rw [List.all_cons, hc, hl]
    rfl
  -- ## Part B: the fence body alone
  have hBnorm : normalize ('\x7b' :: body') = '\x7b' :: body' := by
    rw [normalize_eq]
    rw [charNormalize_eq_self_of_good _ hgbody]
    have hls : pyLStrip ('\x7b' :: body') = '\x7b' :: body' :=
      List.dropWhile_cons_of_neg (by decide)
    rw [hls]
    have hfj : first_json_like ('\x7b' :: body') = 0 :=
      first_json_like_eq _ 0
        (Or.inl (subFind_zero_of_startsAt _ _ (by simp [List.isPrefixOf])))
        (fun j _ => Nat.zero_le j) (fun j _ => Nat.zero_le j)
        (fun j _ => Nat.zero_le j)
    rw [hfj, if_neg (by omega)]
    exact hbstrip
  have hBstrat : strategies17 ('\x7b' :: body') t = some kvs := by
    unfold strategies17
    have hd : strat_direct_json ('\x7b' :: body') = some kvs := by
      unfold strat_direct_json
      rw [hbody]
      rfl
    rw [hd]
    rfl
  have hB : robust_parse_third_arg ⟨'\x7b' :: body'⟩ t = kvs := by
    refine robust_eq_of_strategies _ t kvs ?_ ?_
    · rintro (h | h)
      · exact List.noConfusion h
      · have h' : pyStrip ('\x7b' :: body') = [] := h
        rw [hbstrip] at h'
        exact List.noConfusion h'
    · show strategies17 (normalize ('\x7b' :: body')) t = some kvs
      rw [hBnorm]
      exact hBstrat
  -- ## Part A: the full string
  -- goodness of the full text
  have hgX : ('`' :: '`' :: '`' :: 'j' :: 's' :: 'o' :: 'n' :: '\n' ::
      (('\x7b' :: body') ++ '\n' :: '`' :: '`' :: '`' :: post)).all goodChar
      = true :=
    hcons _ _ (by decide) (hcons _ _ (by decide) (hcons _ _ (by decide)
      (hcons _ _ (by decide) (hcons _ _ (by decide) (hcons _ _ (by decide)
      (hcons _ _ (by decide) (hcons _ _ (by decide)
      (happA _ _ hgbody (hcons _ _ (by decide) (hcons _ _ (by decide)
        (hcons _ _ (by decide) (hcons _ _ (by decide) hgpost))))))))))))
  have hcnF : charNormalize (pre ++ '`' :: '`' :: '`' :: 'j' :: 's' :: 'o' ::
      'n' :: '\n' :: (('\x7b' :: body') ++ '\n' :: '`' :: '`' :: '`' :: post))
      = pre ++ '`' :: '`' :: '`' :: 'j' :: 's' :: 'o' :: 'n' :: '\n' ::
        (('\x7b' :: body') ++ '\n' :: '`' :: '`' :: '`' :: post) :=
    charNormalize_eq_self_of_good _ (happA _ _ hgpre hgX)
  -- left strip passes through the prose only
  have hlsF : pyLStrip (pre ++ '`' :: '`' :: '`' :: 'j' :: 's' :: 'o' ::
      'n' :: '\n' :: (('\x7b' :: body') ++ '\n' :: '`' :: '`' :: '`' :: post))
      = pyLStrip pre ++ '`' :: '`' :: '`' :: 'j' :: 's' :: 'o' :: 'n' ::
        '\n' :: (('\x7b' :: body') ++ '\n' :: '`' :: '`' :: '`' :: post) :=
    pyLStrip_append _ _ (List.dropWhile_cons_of_neg (by decide))
  -- the structural tokens all live at or after the fence
  have hp1 : '\x7b' ∉ pyLStrip pre := fun hm =>
    hpre1 ((List.dropWhile_suffix (l := pre) isPySpace).subset hm)
  have hp2 : '\x5b' ∉ pyLStrip pre := fun hm =>
    hpre2 ((List.dropWhile_suffix (l := pre) isPySpace).subset hm)
  have hp3 : '`' ∉ pyLStrip pre := fun hm =>
    hpre3 ((List.dropWhile_suffix (l := pre) isPySpace).subset hm)
  have hbt : subFind ['`', '`', '`'] (pyLStrip pre ++ '`' :: '`' :: '`' ::
      'j' :: 's' :: 'o' :: 'n' :: '\n' :: (('\x7b' :: body') ++
      '\n' :: '`' :: '`' :: '`' :: post)) = some (pyLStrip pre).length := by
    rw [subFind_append_shift ['`', '`', '`'] '`' rfl (pyLStrip pre) _ hp3,
      subFind_zero_of_startsAt ['`', '`', '`'] _ (by simp [List.isPrefixOf]),
      Option.map_some']
    simp
  have hob : ∀ j, subFind ['\x7b'] (pyLStrip pre ++ '`' :: '`' :: '`' ::
      'j' :: 's' :: 'o' :: 'n' :: '\n' :: (('\x7b' :: body') ++
      '\n' :: '`' :: '`' :: '`' :: post)) = some j →
      (pyLStrip pre).length ≤ j := by
    intro j hj
    rw [subFind_append_shift ['\x7b'] '\x7b' rfl (pyLStrip pre) _ hp1] at hj
    cases h : subFind ['\x7b'] ('`' :: '`' :: '`' :: 'j' :: 's' :: 'o' ::
        'n' :: '\n' :: (('\x7b' :: body') ++
        '\n' :: '`' :: '`' :: '`' :: post)) with
    | none => rw [h] at hj; exact Option.noConfusion hj
    | some j0 =>
        rw [h, Option.map_some'] at hj
        have hjj := Option.some_inj.mp hj
        omega
  have hsb : ∀ j, subFind ['\x5b'] (pyLStrip pre ++ '`' :: '`' :: '`' ::
      'j' :: 's' :: 'o' :: 'n' :: '\n' :: (('\x7b' :: body') ++
      '\n' :: '`' :: '`' :: '`' :: post)) = some j →
      (pyLStrip pre).length ≤ j := by
    intro j hj
    rw [subFind_append_shift ['\x5b'] '\x5b' rfl (pyLStrip pre) _ hp2] at hj
    cases h : subFind ['\x5b'] ('`' :: '`' :: '`' :: 'j' :: 's' :: 'o' ::
        'n' :: '\n' :: (('\x7b' :: body') ++
        '\n' :: '`' :: '`' :: '`' :: post)) with
    | none => rw [h] at hj; exact Option.noConfusion hj
    | some j0 =>
        rw [h, Option.map_some'] at hj
        have hjj := Option.some_inj.mp hj
        omega
  have hfjF : first_json_like (pyLStrip pre ++ '`' :: '`' :: '`' :: 'j' ::
      's' :: 'o' :: 'n' :: '\n' :: (('\x7b' :: body') ++
      '\n' :: '`' :: '`' :: '`' :: post)) = (pyLStrip pre).length :=
    first_json_like_eq _ _ (Or.inr (Or.inr hbt)) hob hsb (fun j hj => by
      rw [hbt] at hj
      have hjj := Option.some_inj.mp hj
      omega)
  -- the cut drops exactly the prose
  have hdropF : (if first_json_like (pyLStrip pre ++ '`' :: '`' :: '`' ::
        'j' :: 's' :: 'o' :: 'n' :: '\n' :: (('\x7b' :: body') ++
        '\n' :: '`' :: '`' :: '`' :: post)) > 0
      then (pyLStrip pre ++ '`' :: '`' :: '`' :: 'j' :: 's' :: 'o' :: 'n' ::
        '\n' :: (('\x7b' :: body') ++
        '\n' :: '`' :: '`' :: '`' :: post)).drop
        (first_json_like (pyLStrip pre ++ '`' :: '`' :: '`' :: 'j' :: 's' ::
        'o' :: 'n' :: '\n' :: (('\x7b' :: body') ++
        '\n' :: '`' :: '`' :: '`' :: post)))
      else pyLStrip pre ++ '`' :: '`' :: '`' :: 'j' :: 's' :: 'o' :: 'n' ::
        '\n' :: (('\x7b' :: body') ++ '\n' :: '`' :: '`' :: '`' :: post)) =
      '`' :: '`' :: '`' :: 'j' :: 's' :: 'o' :: 'n' :: '\n' ::
        (('\x7b' :: body') ++ '\n' :: '`' :: '`' :: '`' :: post) := by
    rw [hfjF]
    by_cases h : (pyLStrip pre).length > 0
    · rw [if_pos h, List.drop_left]
    · rw [if_neg h]
      have h0 : pyLStrip pre = [] := List.eq_nil_of_length_eq_zero (by omega)
      rw [h0, List.nil_append]
  -- the final strip only trims the trailing prose
  have hlastA : ('`' :: '`' :: '`' :: 'j' :: 's' :: 'o' :: 'n' :: '\n' ::
      (('\x7b' :: body') ++ ['\n', '`', '`', '`'])).getLast? = some '`' := by
    rw [show ('`' :: '`' :: '`' :: 'j' :: 's' :: 'o' :: 'n' :: '\n' ::
        (('\x7b' :: body') ++ ['\n', '`', '`', '`'])) =
        ['`', '`', '`', 'j', 's', 'o', 'n', '\n'] ++
          (('\x7b' :: body') ++ ['\n', '`', '`', '`']) from rfl,
      List.getLast?_append, List.getLast?_append]
    rfl
  have hpsX : pyStrip ('`' :: '`' :: '`' :: 'j' :: 's' :: 'o' :: 'n' ::
      '\n' :: (('\x7b' :: body') ++ '\n' :: '`' :: '`' :: '`' :: post)) =
      '`' :: '`' :: '`' :: 'j' :: 's' :: 'o' :: 'n' :: '\n' ::
        (('\x7b' :: body') ++ '\n' :: '`' :: '`' :: '`' :: pyRStrip post)
      := by
    unfold pyStrip
    rw [show pyLStrip ('`' :: '`' :: '`' :: 'j' :: 's' :: 'o' :: 'n' ::
        '\n' :: (('\x7b' :: body') ++ '\n' :: '`' :: '`' :: '`' :: post)) =
        '`' :: '`' :: '`' :: 'j' :: 's' :: 'o' :: 'n' :: '\n' ::
        (('\x7b' :: body') ++ '\n' :: '`' :: '`' :: '`' :: post) from
      List.dropWhile_cons_of_neg (by decide)]
    rw [show ('`' :: '`' :: '`' :: 'j' :: 's' :: 'o' :: 'n' :: '\n' ::
        (('\x7b' :: body') ++ '\n' :: '`' :: '`' :: '`' :: post)) =
        ('`' :: '`' :: '`' :: 'j' :: 's' :: 'o' :: 'n' :: '\n' ::
        (('\x7b' :: body') ++ ['\n', '`', '`', '`'])) ++ post from by simp]
    rw [pyRStrip_append _ post '`' hlastA (by decide)]
    simp
  have hnormF : normalize (pre ++ '`' :: '`' :: '`' :: 'j' :: 's' :: 'o' ::
      'n' :: '\n' :: (('\x7b' :: body') ++ '\n' :: '`' :: '`' :: '`' :: post))
      = '`' :: '`' :: '`' :: 'j' :: 's' :: 'o' :: 'n' :: '\n' ::
        (('\x7b' :: body') ++ '\n' :: '`' :: '`' :: '`' :: pyRStrip post)
      := by
    rw [normalize_eq, hcnF, hlsF, hdropF, hpsX]
  -- the closing delimiter is found exactly at the end of the body
  have hsfNT : subFind ['\n', '`', '`', '`'] (('\x7b' :: body') ++
      '\n' :: '`' :: '`' :: '`' :: pyRStrip post) =
      some ('\x7b' :: body').length :=
    subFind_append_exact ['\n', '`', '`', '`'] ('\x7b' :: body')
      ('\n' :: '`' :: '`' :: '`' :: pyRStrip post)
      (nt4_no_early ('\x7b' :: body') (pyRStrip post) hbfence)
      (by simp [List.isPrefixOf])
  have hfbs : fenceBodySplit ('\n' :: (('\x7b' :: body') ++
      '\n' :: '`' :: '`' :: '`' :: pyRStrip post)) =
      some ('\x7b' :: body') := by
    have hf0 : (subFind ['\n', '`', '`', '`']
        (('\n' :: (('\x7b' :: body') ++
          '\n' :: '`' :: '`' :: '`' :: pyRStrip post)).drop (0 + 1))).map
        (fun i => (('\n' :: (('\x7b' :: body') ++
          '\n' :: '`' :: '`' :: '`' :: pyRStrip post)).drop (0 + 1)).take i)
        = some ('\x7b' :: body') := by
      rw [show ('\n' :: (('\x7b' :: body') ++
          '\n' :: '`' :: '`' :: '`' :: pyRStrip post)).drop (0 + 1) =
          ('\x7b' :: body') ++ '\n' :: '`' :: '`' :: '`' :: pyRStrip post
        from rfl]
      rw [hsfNT, Option.map_some', List.take_left]
    unfold fenceBodySplit
    show List.findSome? (fun k =>
        (subFind ['\n', '`', '`', '`']
          (('\n' :: (('\x7b' :: body') ++
            '\n' :: '`' :: '`' :: '`' :: pyRStrip post)).drop (k + 1))).map
          (fun i => (('\n' :: (('\x7b' :: body') ++
            '\n' :: '`' :: '`' :: '`' :: pyRStrip post)).drop (k + 1)).take
            i))
      ((List.range (['\n'] : List Char).length).filter
        (fun k => (['\n'] : List Char).getD k ' ' = '\n')).reverse =
      some ('\x7b' :: body')
    rw [show ((List.range (['\n'] : List Char).length).filter
        (fun k => (['\n'] : List Char).getD k ' ' = '\n')).reverse = [0] from
      by decide]
    rw [List.findSome?_cons, hf0]
  have hfence : extract_code_fence ('`' :: '`' :: '`' :: 'j' :: 's' :: 'o' ::
      'n' :: '\n' :: (('\x7b' :: body') ++
      '\n' :: '`' :: '`' :: '`' :: pyRStrip post)) =
      some (['j', 's', 'o', 'n'], '\x7b' :: body') := by
    unfold extract_code_fence
    rw [List.dropWhile_cons_of_neg (by decide)]
    show (match fenceBodySplit (List.dropWhile isWordChar ('j' :: 's' :: 'o'
        :: 'n' :: '\n' :: (('\x7b' :: body') ++
        '\n' :: '`' :: '`' :: '`' :: pyRStrip post))) with
      | some b => some (pyStrip (List.map Char.toLower (List.takeWhile
          isWordChar ('j' :: 's' :: 'o' :: 'n' :: '\n' :: (('\x7b' :: body')
          ++ '\n' :: '`' :: '`' :: '`' :: pyRStrip post)))), b)
      | none => none) = some (['j', 's', 'o', 'n'], '\x7b' :: body')
    have htw : ('j' :: 's' :: 'o' :: 'n' :: '\n' :: (('\x7b' :: body') ++
        '\n' :: '`' :: '`' :: '`' :: pyRStrip post)).takeWhile isWordChar =
        ['j', 's', 'o', 'n'] := by
      rw [List.takeWhile_cons, if_pos (by decide), List.takeWhile_cons,
        if_pos (by decide), List.takeWhile_cons, if_pos (by decide),
        List.takeWhile_cons, if_pos (by decide), List.takeWhile_cons,
        if_neg (by decide)]
    have hdw : ('j' :: 's' :: 'o' :: 'n' :: '\n' :: (('\x7b' :: body') ++
        '\n' :: '`' :: '`' :: '`' :: pyRStrip post)).dropWhile isWordChar =
        '\n' :: (('\x7b' :: body') ++
          '\n' :: '`' :: '`' :: '`' :: pyRStrip post) := by
      rw [List.dropWhile_cons_of_pos (by decide),
        List.dropWhile_cons_of_pos (by decide),
        List.dropWhile_cons_of_pos (by decide),
        List.dropWhile_cons_of_pos (by decide),
        List.dropWhile_cons_of_neg (by decide)]
    rw [hdw, hfbs, htw]
    rfl
  have hscf : strat_code_fence ('`' :: '`' :: '`' :: 'j' :: 's' :: 'o' ::
      'n' :: '\n' :: (('\x7b' :: body') ++
      '\n' :: '`' :: '`' :: '`' :: pyRStrip post)) t = some kvs := by
    unfold strat_code_fence
    rw [hfence]
    dsimp only
    rw [if_pos (by simp), if_pos (by decide), hbody]
    rfl
  have hdsj : strat_direct_json ('`' :: '`' :: '`' :: 'j' :: 's' :: 'o' ::
      'n' :: '\n' :: (('\x7b' :: body') ++
      '\n' :: '`' :: '`' :: '`' :: pyRStrip post)) = none := by
    unfold strat_direct_json
    rw [try_json_backtick]
    rfl
  have hstratF : strategies17 ('`' :: '`' :: '`' :: 'j' :: 's' :: 'o' ::
      'n' :: '\n' :: (('\x7b' :: body') ++
      '\n' :: '`' :: '`' :: '`' :: pyRStrip post)) t = some kvs := by
    unfold strategies17
    rw [hdsj, hscf]
    rfl
  have hA : robust_parse_third_arg
      ⟨pre ++ '`' :: '`' :: '`' :: 'j' :: 's' :: 'o' :: 'n' :: '\n' ::
        (('\x7b' :: body') ++ '\n' :: '`' :: '`' :: '`' :: post)⟩ t = kvs
      := by
    refine robust_eq_of_strategies _ t kvs ?_ ?_
    · rintro (h | h)
      · rw [List.append_eq_nil] at h
        exact List.noConfusion h.2
      · have h' : pyStrip (pre ++ '`' :: '`' :: '`' :: 'j' :: 's' :: 'o' ::
            'n' :: '\n' :: (('\x7b' :: body') ++
            '\n' :: '`' :: '`' :: '`' :: post)) = [] := h
        exact pyStrip_ne_nil_of_mem _ '`' (by simp) (by decide) h'
    · show strategies17 (normalize (pre ++ '`' :: '`' :: '`' :: 'j' :: 's' ::
        'o' :: 'n' :: '\n' :: (('\x7b' :: body') ++
        '\n' :: '`' :: '`' :: '`' :: post))) t = some kvs
      rw [hnormF]
      exact hstratF
  exact ⟨hA, hB⟩

set_option maxHeartbeats 2000000 in
/-- Witness for C5 (amended): prose `see ` before and ` done` after a
`json`-tagged fence with body `{"a": 1}`. -/
theorem C5_witness :
    robust_parse_third_arg
        ⟨"see ".data ++ '`' :: '`' :: '`' :: 'j' :: 's' :: 'o' :: 'n' ::
          '\n' :: (('\x7b' :: "\"a\": 1\x7d".data) ++
          '\n' :: '`' :: '`' :: '`' :: " done".data)⟩ "move_camera" =
      [("a", Json.num 1)] ∧
    robust_parse_third_arg ⟨'\x7b' :: "\"a\": 1\x7d".data⟩ "move_camera" =
      [("a", Json.num 1)] :=
  C5_fence_precedence "see ".data "\"a\": 1\x7d".data " done".data
    [("a", Json.num 1)] "move_camera" (by decide) (by decide) (by decide)
    (by decide) (by decide) (by decide) (by decide) (by decide) (by decide)

/-! # Claim C2: the serialization round-trip

Bottom-up: digits, hex quadruples, string bodies, numbers, then the mutual
value/members/elements round-trip, and finally the resolver-level claim. -/

theorem digitChar_toNat : ∀ n, n < 10 → (digitChar n).toNat = 48 + n := by
  decide

theorem isDigitChar_digitChar : ∀ n, n < 10 →
    isDigitChar (digitChar n) = true := by
  decide

theorem digitChar_eq_zero_iff : ∀ n, n < 10 →
    ((digitChar n = '0') ↔ n = 0) := by
  decide

theorem digitsToNat_append_one (a : List Char) (c : Char) :
    digitsToNat (a ++ [c]) = digitsToNat a * 10 + (c.toNat - 48) := by
  unfold digitsToNat
  rw [List.foldl_append]
  rfl

/-- Shape, digit-class, value and leading-digit facts about `str(n)`. -/
theorem natDigitsF_spec : ∀ (fuel n : Nat), n < fuel →
    (∃ d ds, natDigitsF fuel n = d :: ds) ∧
    (∀ c ∈ natDigitsF fuel n, isDigitChar c = true) ∧
    digitsToNat (natDigitsF fuel n) = n ∧
    ((natDigitsF fuel n).head? = some '0' → n = 0) := by
  intro fuel
  induction fuel with
  | zero => intro n h; omega
  | succ f ih =>
      intro n h
      by_cases h10 : n < 10
      · rw [show natDigitsF (f + 1) n = (if n < 10 then [digitChar n]
            else natDigitsF f (n / 10) ++ [digitChar (n % 10)]) from rfl,
          if_pos h10]
        refine ⟨⟨_, _, rfl⟩, ?_, ?_, ?_⟩
        · intro c hc
          rw [List.mem_singleton] at hc
          rw [hc]
          exact isDigitChar_digitChar n h10
        · show digitsToNat ([] ++ [digitChar n]) = n
          rw [digitsToNat_append_one, digitChar_toNat n h10]
          show 0 * 10 + (48 + n - 48) = n
          omega
        · intro h0
          simp only [List.head?_cons, Option.some_inj] at h0
          exact (digitChar_eq_zero_iff n h10).mp h0
      · have hrec : n / 10 < f := by omega
        rw [show natDigitsF (f + 1) n = (if n < 10 then [digitChar n]
            else natDigitsF f (n / 10) ++ [digitChar (n % 10)]) from rfl,
          if_neg h10]
        obtain ⟨⟨d, ds, hds⟩, hall, hval, hhd⟩ := ih (n / 10) hrec
        refine ⟨⟨d, ds ++ [digitChar (n % 10)], by rw [hds]; rfl⟩, ?_, ?_, ?_⟩
        · intro c hc
          rw [List.mem_append] at hc
          rcases hc with hc | hc
          · exact hall c hc
          · rw [List.mem_singleton] at hc
            rw [hc]
            exact isDigitChar_digitChar _ (Nat.mod_lt n (by omega))
        · rw [digitsToNat_append_one, hval,
            digitChar_toNat _ (Nat.mod_lt n (by omega))]
          omega
        · intro h0
          rw [hds] at h0
          simp only [List.cons_append, List.head?_cons, Option.some_inj] at h0
          have hz : n / 10 = 0 := hhd (by rw [hds]; simp [h0])
          omega

theorem natDigits_spec (n : Nat) :
    (∃ d ds, natDigits n = d :: ds) ∧
    (∀ c ∈ natDigits n, isDigitChar c = true) ∧
    digitsToNat (natDigits n) = n ∧
    ((natDigits n).head? = some '0' → n = 0) :=
  natDigitsF_spec (n + 1) n (by omega)

/-- `takeWhile`/`dropWhile` on a text formed of a block of matching
characters followed by a non-matching boundary. -/
theorem takeWhile_dropWhile_append {p : Char → Bool} :
    ∀ (a b : List Char), (∀ c ∈ a, p c = true) →
      (∀ c, b.head? = some c → p c = false) →
      (a ++ b).takeWhile p = a ∧ (a ++ b).dropWhile p = b := by
  intro a
  induction a with
  | nil =>
      intro b _ hb
      constructor
      · cases b with
        | nil => rfl
        | cons c cs =>
            rw [List.nil_append, List.takeWhile_cons, if_neg]
            simp [hb c rfl]
      · cases b with
        | nil => rfl
        | cons c cs =>
            rw [List.nil_append]
            exact List.dropWhile_cons_of_neg (by simp [hb c rfl])
  | cons d ds ih =>
      intro b ha hb
      have hd : p d = true := ha d (List.mem_cons_self d ds)
      have hihs := ih b (fun c hc => ha c (List.mem_cons_of_mem d hc)) hb
      constructor
      · rw [List.cons_append, List.takeWhile_cons, if_pos hd, hihs.1]
      · rw [List.cons_append, List.dropWhile_cons_of_pos hd, hihs.2]

theorem hexVal_hexDigitChar : ∀ k, k < 16 →
    hexVal (hexDigitChar k) = some k := by
  decide

theorem parseHex4_hex4 (n : Nat) (hn : n < 65536) (t : List Char) :
    parseHex4 (hex4 n ++ t) = some (n, t) := by
  rw [show hex4 n ++ t = hexDigitChar (n / 4096 % 16) ::
      hexDigitChar (n / 256 % 16) :: hexDigitChar (n / 16 % 16) ::
      hexDigitChar (n % 16) :: t from rfl]
  rw [show parseHex4 (hexDigitChar (n / 4096 % 16) ::
      hexDigitChar (n / 256 % 16) :: hexDigitChar (n / 16 % 16) ::
      hexDigitChar (n % 16) :: t) =
      (match hexVal (hexDigitChar (n / 4096 % 16)),
        hexVal (hexDigitChar (n / 256 % 16)),
        hexVal (hexDigitChar (n / 16 % 16)),
        hexVal (hexDigitChar (n % 16)) with
      | some va, some vb, some vc, some vd =>
          some ((((va * 16 + vb) * 16 + vc) * 16 + vd), t)
      | _, _, _, _ => none) from rfl]
  rw [hexVal_hexDigitChar _ (by omega), hexVal_hexDigitChar _ (by omega),
    hexVal_hexDigitChar _ (by omega), hexVal_hexDigitChar _ (by omega)]
  dsimp only
  have hv : (((n / 4096 % 16) * 16 + n / 256 % 16) * 16 + n / 16 % 16) * 16 +
      n % 16 = n := by omega
  rw [hv]

theorem parseJStr_close (f : Nat) (rest : List Char) :
    parseJStr (f + 1) ('"' :: rest) = some ([], rest) := rfl

theorem parseJStr_lit (f : Nat) (c : Char) (T : List Char)
    (h1 : ¬c = '"') (h2 : ¬c = '\\') (h3 : ¬c.toNat < 0x20) :
    parseJStr (f + 1) (c :: T) =
      (parseJStr f T).map (fun pr => (c :: pr.1, pr.2)) := by
  rw [parseJStr.eq_def]
  dsimp only
  rw [if_neg h1, if_neg h2, if_neg h3]
  cases parseJStr f T with
  | none => rfl
  | some pr => rfl

theorem parseJStr_escape (f : Nat) (e d : Char) (T : List Char)
    (he : jsonEscChar e = some d) (hu : ¬e = 'u') :
    parseJStr (f + 1) ('\\' :: e :: T) =
      (parseJStr f T).map (fun pr => (d :: pr.1, pr.2)) := by
  rw [parseJStr.eq_def]
  dsimp only
  rw [if_neg (by decide), if_pos rfl]
  split
  · rename_i heq
    simp at heq
  · rename_i cs2 heq
    injection heq with h1 h2
    exact absurd h1 hu
  · rename_i e' cs2 hne heq
    injection heq with g1 g2
    subst g1
    subst g2
    rw [he]
    cases parseJStr f T with
    | none => rfl
    | some pr => rfl

theorem parseJStr_u (f : Nat) (n : Nat) (T : List Char)
    (hb : n < 65536) (hlo : ¬(0xd800 ≤ n ∧ n < 0xdc00))
    (hhi : ¬(0xdc00 ≤ n ∧ n ≤ 0xdfff)) :
    parseJStr (f + 1) ('\\' :: 'u' :: (hex4 n ++ T)) =
      (parseJStr f T).map (fun pr => (Char.ofNat n :: pr.1, pr.2)) := by
  rw [parseJStr.eq_def]
  dsimp only
  rw [if_neg (by decide), if_pos rfl]
  split
  · rename_i heq
    simp at heq
  · rename_i cs2 heq
    injection heq with g1 g2
    subst g2
    rw [parseHex4_hex4 n hb]
    dsimp only
    rw [if_neg hlo, if_neg hhi]
    cases parseJStr f T with
    | none => rfl
    | some pr => rfl
  · rename_i e' cs2 hne heq
    injection heq with g1 g2
    exact absurd (hne g1.symm) not_false

theorem parseJStr_surr (f : Nat) (hi lo : Nat) (T : List Char)
    (hhi : 0xd800 ≤ hi ∧ hi < 0xdc00) (hlo : 0xdc00 ≤ lo ∧ lo ≤ 0xdfff) :
    parseJStr (f + 1) ('\\' :: 'u' ::
        (hex4 hi ++ ('\\' :: 'u' :: (hex4 lo ++ T)))) =
      (parseJStr f T).map (fun pr =>
        (Char.ofNat (0x10000 + (hi - 0xd800) * 0x400 + (lo - 0xdc00)) ::
          pr.1, pr.2)) := by
  rw [parseJStr.eq_def]
  dsimp only
  rw [if_neg (by decide), if_pos rfl]
  split
  · rename_i heq
    simp at heq
  · rename_i cs2 heq
    injection heq with g1 g2
    subst g2
    rw [parseHex4_hex4 hi (by omega)]
    dsimp only
    rw [if_pos hhi]
    split
    · rename_i cs3 heq2
      injection heq2 with g3 g4
      injection g4 with g5 g6
      subst g6
      rw [parseHex4_hex4 lo (by omega)]
      dsimp only
      rw [if_pos hlo]
      cases parseJStr f T with
      | none => rfl
      | some pr => rfl
    · rename_i hne
      exact absurd rfl (hne _)
  · rename_i e' cs2 hne heq
    injection heq with g1 g2
    exact absurd (hne g1.symm) not_false

/-- The round-trip for JSON string bodies: parsing the serialized body
followed by the closing quote returns exactly the original characters. -/
theorem R_str : ∀ (s : List Char) (fuel : Nat) (rest : List Char),
    (serJStrBody s).length < fuel →
    parseJStr fuel (serJStrBody s ++ '"' :: rest) = some (s, rest) := by
  intro s
  induction s with
  | nil =>
      intro fuel rest h
      cases fuel with
      | zero => omega
      | succ f => exact parseJStr_close f rest
  | cons c cs ih =>
      intro fuel rest h
      cases fuel with
      | zero => omega
      | succ f =>
          rw [show serJStrBody (c :: cs) = serJChar c ++ serJStrBody cs
            from rfl] at h ⊢
          rw [List.append_assoc]
          by_cases h1 : c = '"'
          · subst h1
            have hser : serJChar '"' = ['\\', '"'] := rfl
            rw [hser] at h ⊢
            rw [show (['\\', '"'] : List Char) ++
                (serJStrBody cs ++ '"' :: rest) =
                '\\' :: '"' :: (serJStrBody cs ++ '"' :: rest) from rfl,
              parseJStr_escape f '"' '"' _ (by decide) (by decide),
              ih f rest (by
                simp only [List.length_append, List.length_cons] at h
                omega)]
            rfl
          by_cases h2 : c = '\\'
          · subst h2
            have hser : serJChar '\\' = ['\\', '\\'] := rfl
            rw [hser] at h ⊢
            rw [show (['\\', '\\'] : List Char) ++
                (serJStrBody cs ++ '"' :: rest) =
                '\\' :: '\\' :: (serJStrBody cs ++ '"' :: rest) from rfl,
              parseJStr_escape f '\\' '\\' _ (by decide) (by decide),
              ih f rest (by
                simp only [List.length_append, List.length_cons] at h
                omega)]
            rfl
          by_cases h3 : c = '\n'
          · subst h3
            have hser : serJChar '\n' = ['\\', 'n'] := rfl
            rw [hser] at h ⊢
            rw [show (['\\', 'n'] : List Char) ++
                (serJStrBody cs ++ '"' :: rest) =
                '\\' :: 'n' :: (serJStrBody cs ++ '"' :: rest) from rfl,
              parseJStr_escape f 'n' '\n' _ (by decide) (by decide),
              ih f rest (by
                simp only [List.length_append, List.length_cons] at h
                omega)]
            rfl
          by_cases h4 : c = '\r'
          · subst h4
            have hser : serJChar '\r' = ['\\', 'r'] := rfl
            rw [hser] at h ⊢
            rw [show (['\\', 'r'] : List Char) ++
                (serJStrBody cs ++ '"' :: rest) =
                '\\' :: 'r' :: (serJStrBody cs ++ '"' :: rest) from rfl,
              parseJStr_escape f 'r' '\r' _ (by decide) (by decide),
              ih f rest (by
                simp only [List.length_append, List.length_cons] at h
                omega)]
            rfl
          by_cases h5 : c = '\t'
          · subst h5
            have hser : serJChar '\t' = ['\\', 't'] := rfl
            rw [hser] at h ⊢
            rw [show (['\\', 't'] : List Char) ++
                (serJStrBody cs ++ '"' :: rest) =
                '\\' :: 't' :: (serJStrBody cs ++ '"' :: rest) from rfl,
              parseJStr_escape f 't' '\t' _ (by decide) (by decide),
              ih f rest (by
                simp only [List.length_append, List.length_cons] at h
                omega)]
            rfl
          by_cases h6 : c = '\x08'
          · subst h6
            have hser : serJChar '\x08' = ['\\', 'b'] := rfl
            rw [hser] at h ⊢
            rw [show (['\\', 'b'] : List Char) ++
                (serJStrBody cs ++ '"' :: rest) =
                '\\' :: 'b' :: (serJStrBody cs ++ '"' :: rest) from rfl,
              parseJStr_escape f 'b' '\x08' _ (by decide) (by decide),
              ih f rest (by
                simp only [List.length_append, List.length_cons] at h
                omega)]
            rfl
          by_cases h7 : c = '\x0c'
          · subst h7
            have hser : serJChar '\x0c' = ['\\', 'f'] := rfl
            rw [hser] at h ⊢
            rw [show (['\\', 'f'] : List Char) ++
                (serJStrBody cs ++ '"' :: rest) =
                '\\' :: 'f' :: (serJStrBody cs ++ '"' :: rest) from rfl,
              parseJStr_escape f 'f' '\x0c' _ (by decide) (by decide),
              ih f rest (by
                simp only [List.length_append, List.length_cons] at h
                omega)]
            rfl
          by_cases h8 : c.toNat < 0x20
          · have hser : serJChar c = '\\' :: 'u' :: hex4 c.toNat := by
              unfold serJChar
              rw [if_neg h1, if_neg h2, if_neg h3, if_neg h4, if_neg h5,
                if_neg h6, if_neg h7, if_pos h8]
            rw [hser] at h ⊢
            rw [show ('\\' :: 'u' :: hex4 c.toNat) ++
                (serJStrBody cs ++ '"' :: rest) =
                '\\' :: 'u' :: (hex4 c.toNat ++
                  (serJStrBody cs ++ '"' :: rest)) from rfl,
              parseJStr_u f c.toNat _ (by omega) (by omega) (by omega),
              ih f rest (by
                simp only [List.length_append, List.length_cons, hex4] at h
                omega),
              Char.ofNat_toNat]
            rfl
          by_cases h9 : c.toNat < 0x7f
          · have hser : serJChar c = [c] := by
              unfold serJChar
              rw [if_neg h1, if_neg h2, if_neg h3, if_neg h4, if_neg h5,
                if_neg h6, if_neg h7, if_neg h8, if_pos h9]
            rw [hser] at h ⊢
            rw [show ([c] : List Char) ++ (serJStrBody cs ++ '"' :: rest) =
                c :: (serJStrBody cs ++ '"' :: rest) from rfl,
              parseJStr_lit f c _ h1 h2 h8,
              ih f rest (by
                simp only [List.length_append, List.length_cons] at h
                omega)]
            rfl
          by_cases h10 : c.toNat < 0x10000
          · have hval : c.toNat < 0xd800 ∨
                (0xdfff < c.toNat ∧ c.toNat < 0x110000) := c.valid
            have hser : serJChar c = '\\' :: 'u' :: hex4 c.toNat := by
              unfold serJChar
              rw [if_neg h1, if_neg h2, if_neg h3, if_neg h4, if_neg h5,
                if_neg h6, if_neg h7, if_neg h8, if_neg h9, if_pos h10]
            rw [hser] at h ⊢
            rw [show ('\\' :: 'u' :: hex4 c.toNat) ++
                (serJStrBody cs ++ '"' :: rest) =
                '\\' :: 'u' :: (hex4 c.toNat ++
                  (serJStrBody cs ++ '"' :: rest)) from rfl,
              parseJStr_u f c.toNat _ (by omega) (by omega) (by omega),
              ih f rest (by
                simp only [List.length_append, List.length_cons, hex4] at h
                omega),
              Char.ofNat_toNat]
            rfl
          · have hval : c.toNat < 0xd800 ∨
                (0xdfff < c.toNat ∧ c.toNat < 0x110000) := c.valid
            have hser : serJChar c =
                ('\\' :: 'u' :: hex4 (0xd800 + (c.toNat - 0x10000) / 0x400))
                ++ ('\\' :: 'u' ::
                  hex4 (0xdc00 + (c.toNat - 0x10000) % 0x400)) := by
              unfold serJChar
              rw [if_neg h1, if_neg h2, if_neg h3, if_neg h4, if_neg h5,
                if_neg h6, if_neg h7, if_neg h8, if_neg h9, if_neg h10]
            have hmod : (c.toNat - 0x10000) % 0x400 < 0x400 :=
              Nat.mod_lt _ (by omega)
            have hdiv : (c.toNat - 0x10000) / 0x400 < 0x400 := by
              rcases hval with hv | hv
              · omega
              · have : c.toNat - 0x10000 < 0x100000 := by omega
                omega
            rw [hser] at h ⊢
            rw [show (('\\' :: 'u' ::
                  hex4 (0xd800 + (c.toNat - 0x10000) / 0x400)) ++
                ('\\' :: 'u' ::
                  hex4 (0xdc00 + (c.toNat - 0x10000) % 0x400))) ++
                (serJStrBody cs ++ '"' :: rest) =
                '\\' :: 'u' ::
                  (hex4 (0xd800 + (c.toNat - 0x10000) / 0x400) ++
                    ('\\' :: 'u' ::
                      (hex4 (0xdc00 + (c.toNat - 0x10000) % 0x400) ++
                        (serJStrBody cs ++ '"' :: rest)))) from by simp,
              parseJStr_surr f _ _ _ (by omega) (by omega),
              ih f rest (by
                simp only [List.length_append, List.length_cons, hex4] at h
                omega)]
            rw [show 0x10000 +
                ((0xd800 + (c.toNat - 0x10000) / 0x400) - 0xd800) * 0x400 +
                ((0xdc00 + (c.toNat - 0x10000) % 0x400) - 0xdc00) =
                c.toNat from by omega,
              Char.ofNat_toNat]
            rfl

theorem sep_not_digit (rest : List Char) (hsep : sepOk rest = true) :
    ∀ c, rest.head? = some c → isDigitChar c = false := by
  intro c hc
  cases rest with
  | nil => exact Option.noConfusion hc
  | cons d r =>
      simp only [List.head?_cons, Option.some_inj] at hc
      subst hc
      unfold sepOk at hsep
      simp only [Bool.or_eq_true, decide_eq_true_eq] at hsep
      rcases hsep with (h | h) | h <;> rw [h] <;> decide

theorem jIntPart_digits (m : Nat) (tail : List Char)
    (ht : ∀ c, tail.head? = some c → isDigitChar c = false) :
    ∀ d ds, natDigits m = d :: ds →
      jIntPart d (ds ++ tail) = some (natDigits m, tail) := by
  intro d ds hds
  obtain ⟨-, hall, hval, hhd⟩ := natDigits_spec m
  have hdd : isDigitChar d = true :=
    hall d (by rw [hds]; exact List.mem_cons_self _ _)
  have htk := takeWhile_dropWhile_append (p := isDigitChar) ds tail
    (fun c hc => hall c (by rw [hds]; exact List.mem_cons_of_mem d hc)) ht
  unfold jIntPart
  by_cases h0 : d = '0'
  · rw [if_pos h0]
    have hm0 : m = 0 := hhd (by rw [hds, h0]; rfl)
    subst hm0
    have h01 : natDigits 0 = ['0'] := rfl
    rw [h01] at hds
    injection hds with e1 e2
    rw [← e2, h01, List.nil_append, e1]
  · rw [if_neg h0, if_pos hdd, htk.1, htk.2, hds]

theorem jFracSplit_not_dot (c : Char) (r : List Char) (hc : ¬c = '.') :
    jFracSplit (c :: r) = ([], c :: r) := by
  rw [jFracSplit.eq_def]
  split
  · rename_i r2 heq
    injection heq with h1 h2
    exact absurd h1 hc
  · rfl

theorem sepOk_cons_facts (c : Char) (r : List Char)
    (hsep : sepOk (c :: r) = true) :
    ¬c = '.' ∧ ¬(c = 'e' ∨ c = 'E') ∧ ¬c = '-' ∧ ¬c = '+' := by
  unfold sepOk at hsep
  simp only [Bool.or_eq_true, decide_eq_true_eq] at hsep
  refine ⟨?_, ?_, ?_, ?_⟩
  · intro h
    rcases hsep with (h2 | h2) | h2 <;> (rw [h] at h2; exact absurd h2 (by decide))
  · rintro (h | h) <;> rcases hsep with (h2 | h2) | h2 <;>
      (rw [h] at h2; exact absurd h2 (by decide))
  · intro h
    rcases hsep with (h2 | h2) | h2 <;> (rw [h] at h2; exact absurd h2 (by decide))
  · intro h
    rcases hsep with (h2 | h2) | h2 <;> (rw [h] at h2; exact absurd h2 (by decide))

theorem jFracSplit_sep (tail : List Char) (hsep : sepOk tail = true) :
    jFracSplit tail = ([], tail) := by
  cases tail with
  | nil => rfl
  | cons c r => exact jFracSplit_not_dot c r (sepOk_cons_facts c r hsep).1

theorem jExpSplit_sep (tail : List Char) (hsep : sepOk tail = true) :
    jExpSplit tail = (none, tail) := by
  cases tail with
  | nil => rfl
  | cons c r =>
      rw [jExpSplit.eq_def]
      dsimp only
      rw [if_neg (sepOk_cons_facts c r hsep).2.1]

theorem jExpSign_dash (r : List Char) : jExpSign ('-' :: r) = (-1, r) := rfl

theorem jExpSign_other (c : Char) (r : List Char) (h1 : ¬c = '+')
    (h2 : ¬c = '-') : jExpSign (c :: r) = (1, c :: r) := by
  rw [jExpSign.eq_def]
  split
  · rename_i r4 heq
    injection heq with g1 g2
    exact absurd g1 h1
  · rename_i r4 heq
    injection heq with g1 g2
    exact absurd g1 h2
  · rfl

theorem jExpSplit_exp (e : Int) (rest : List Char)
    (hsep : sepOk rest = true) :
    jExpSplit ('e' :: (intChars e ++ rest)) = (some e, rest) := by
  have hnd := sep_not_digit rest hsep
  rw [jExpSplit.eq_def]
  dsimp only
  rw [if_pos (Or.inl rfl)]
  by_cases hneg : e < 0
  · have hic : intChars e = '-' :: natDigits e.natAbs := by
      unfold intChars
      rw [if_pos hneg]
    obtain ⟨⟨d, ds, hds⟩, hall, hval, -⟩ := natDigits_spec e.natAbs
    have htk := takeWhile_dropWhile_append (p := isDigitChar)
      (natDigits e.natAbs) rest (fun c hc => hall c hc) hnd
    rw [hic, List.cons_append, jExpSign_dash]
    dsimp only
    rw [htk.1, htk.2]
    rw [if_neg (by rw [hds]; simp)]
    rw [hval, show (-1 : Int) * (e.natAbs : Int) = e from by omega]
  · have hic : intChars e = natDigits e.natAbs := by
      unfold intChars
      rw [if_neg hneg]
    obtain ⟨⟨d, ds, hds⟩, hall, hval, -⟩ := natDigits_spec e.natAbs
    have hdd : isDigitChar d = true :=
      hall d (by rw [hds]; exact List.mem_cons_self _ _)
    have htk := takeWhile_dropWhile_append (p := isDigitChar)
      (natDigits e.natAbs) rest (fun c hc => hall c hc) hnd
    have hplus : ¬d = '+' := by
      intro hh
      rw [hh] at hdd
      exact absurd hdd (by decide)
    have hdash : ¬d = '-' := by
      intro hh
      rw [hh] at hdd
      exact absurd hdd (by decide)
    rw [hic, hds, List.cons_append, jExpSign_other d _ hplus hdash,
      ← List.cons_append, ← hds]
    dsimp only
    rw [htk.1, htk.2]
    rw [if_neg (by rw [hds]; simp)]
    rw [hval, show (1 : Int) * (e.natAbs : Int) = e from by omega]

theorem parseJNum_dash (r : List Char) :
    parseJNum ('-' :: r) = parseJNumFrom true r := rfl

theorem parseJNum_not_dash (c : Char) (t : List Char) (hc : ¬c = '-') :
    parseJNum (c :: t) = parseJNumFrom false (c :: t) := by
  rw [parseJNum.eq_def]
  split
  · rename_i r heq
    injection heq with h1 h2
    exact absurd h1 hc
  · rfl

theorem parseJNumFrom_digits (neg : Bool) (m : Nat) (tail : List Char)
    (ht : ∀ c, tail.head? = some c → isDigitChar c = false) :
    parseJNumFrom neg (natDigits m ++ tail) =
      jNumFinish neg (natDigits m) (jFracSplit tail).1
        (jExpSplit (jFracSplit tail).2) := by
  obtain ⟨⟨d, ds, hds⟩, -, -, -⟩ := natDigits_spec m
  rw [hds, List.cons_append, parseJNumFrom.eq_def]
  dsimp only
  rw [jIntPart_digits m tail ht d ds hds]
  dsimp only
  rw [hds]

theorem parseJNum_int (n : Int) (rest : List Char)
    (hsep : sepOk rest = true) :
    parseJNum (intChars n ++ rest) = some (Json.num n, rest) := by
  have hnd := sep_not_digit rest hsep
  obtain ⟨⟨d, ds, hds⟩, hall, hval, -⟩ := natDigits_spec n.natAbs
  by_cases hneg : n < 0
  · have hic : intChars n = '-' :: natDigits n.natAbs := by
      unfold intChars
      rw [if_pos hneg]
    rw [hic, List.cons_append, parseJNum_dash,
      parseJNumFrom_digits true n.natAbs rest hnd,
      jFracSplit_sep rest hsep]
    dsimp only
    rw [jExpSplit_sep rest hsep, jNumFinish.eq_def]
    dsimp only
    rw [if_pos rfl, if_pos rfl, hval,
      show -((n.natAbs : Nat) : Int) = n from by omega]
  · have hic : intChars n = natDigits n.natAbs := by
      unfold intChars
      rw [if_neg hneg]
    have hdd : isDigitChar d = true :=
      hall d (by rw [hds]; exact List.mem_cons_self _ _)
    have hdash : ¬d = '-' := by
      intro hh
      rw [hh] at hdd
      exact absurd hdd (by decide)
    rw [hic, hds, List.cons_append, parseJNum_not_dash d _ hdash,
      ← List.cons_append, ← hds,
      parseJNumFrom_digits false n.natAbs rest hnd,
      jFracSplit_sep rest hsep]
    dsimp only
    rw [jExpSplit_sep rest hsep, jNumFinish.eq_def]
    dsimp only
    rw [if_pos rfl, if_neg (by simp), hval,
      show ((n.natAbs : Nat) : Int) = n from by omega]

theorem parseJNum_float (m e : Int) (rest : List Char)
    (hsep : sepOk rest = true) :
    parseJNum (intChars m ++ 'e' :: (intChars e ++ rest)) =
      some (Json.fnum m e, rest) := by
  have hte : ∀ c, ('e' :: (intChars e ++ rest)).head? = some c →
      isDigitChar c = false := by
    intro c hc
    simp only [List.head?_cons, Option.some_inj] at hc
    rw [← hc]
    decide
  obtain ⟨⟨d, ds, hds⟩, hall, hval, -⟩ := natDigits_spec m.natAbs
  have hcore : ∀ neg : Bool,
      jNumFinish neg (natDigits m.natAbs)
        (jFracSplit ('e' :: (intChars e ++ rest))).1
        (jExpSplit (jFracSplit ('e' :: (intChars e ++ rest))).2) =
      some (Json.fnum (if neg then -((m.natAbs : Nat) : Int)
            else ((m.natAbs : Nat) : Int)) e, rest) := by
    intro neg
    rw [jFracSplit_not_dot 'e' _ (by decide)]
    dsimp only
    rw [jExpSplit_exp e rest hsep, jNumFinish.eq_def]
    dsimp only
    rw [List.append_nil, hval,
      show ((([] : List Char).length : Nat) : Int) = 0 from rfl, sub_zero]
  by_cases hneg : m < 0
  · have hic : intChars m = '-' :: natDigits m.natAbs := by
      unfold intChars
      rw [if_pos hneg]
    rw [hic, List.cons_append, parseJNum_dash,
      parseJNumFrom_digits true m.natAbs _ hte, hcore true,
      if_pos rfl, show -((m.natAbs : Nat) : Int) = m from by omega]
  · have hic : intChars m = natDigits m.natAbs := by
      unfold intChars
      rw [if_neg hneg]
    have hdd : isDigitChar d = true :=
      hall d (by rw [hds]; exact List.mem_cons_self _ _)
    have hdash : ¬d = '-' := by
      intro hh
      rw [hh] at hdd
      exact absurd hdd (by decide)
    rw [hic, hds, List.cons_append, parseJNum_not_dash d _ hdash,
      ← List.cons_append, ← hds,
      parseJNumFrom_digits false m.natAbs _ hte, hcore false,
      if_neg (by simp), show ((m.natAbs : Nat) : Int) = m from by omega]

theorem digit_head_route (d : Char) (h : isDigitChar d = true) :
    ¬d = '\x7b' ∧ ¬d = '[' ∧ ¬d = '"' ∧ ¬d = 't' ∧ ¬d = 'f' ∧ ¬d = 'n' ∧
      isJsonWs d = false := by
  refine ⟨?_, ?_, ?_, ?_, ?_, ?_, ?_⟩
  · intro hh; rw [hh] at h; exact absurd h (by decide)
  · intro hh; rw [hh] at h; exact absurd h (by decide)
  · intro hh; rw [hh] at h; exact absurd h (by decide)
  · intro hh; rw [hh] at h; exact absurd h (by decide)
  · intro hh; rw [hh] at h; exact absurd h (by decide)
  · intro hh; rw [hh] at h; exact absurd h (by decide)
  · cases hws : isJsonWs d with
    | false => rfl
    | true =>
        unfold isJsonWs at hws
        simp only [Bool.or_eq_true, decide_eq_true_eq] at hws
        rcases hws with ((h2 | h2) | h2) | h2 <;>
          (rw [h2] at h; exact absurd h (by decide))

theorem digit_head_close (d : Char) (h : isDigitChar d = true) :
    ¬d = ']' ∧ ¬d = '\x7d' := by
  constructor <;> (intro hh; rw [hh] at h; exact absurd h (by decide))

theorem parseJVal_route_num (f : Nat) (c : Char) (t : List Char)
    (hws : isJsonWs c = false)
    (h1 : ¬c = '\x7b') (h2 : ¬c = '[') (h3 : ¬c = '"') (h4 : ¬c = 't')
    (h5 : ¬c = 'f') (h6 : ¬c = 'n') :
    parseJVal (f + 1) (c :: t) = parseJNum (c :: t) := by
  rw [parseJVal.eq_def]
  dsimp only
  rw [show skipJsonWs (c :: t) = c :: t from
    List.dropWhile_cons_of_neg (by simp [hws])]
  dsimp only
  rw [if_neg h1, if_neg h2, if_neg h3, if_neg h4, if_neg h5, if_neg h6]

theorem R_val_num (n : Int) (f : Nat) (rest : List Char)
    (hsep : sepOk rest = true) :
    parseJVal (f + 1) (intChars n ++ rest) = some (Json.num n, rest) := by
  obtain ⟨⟨d, ds, hds⟩, hall, -, -⟩ := natDigits_spec n.natAbs
  have hdd : isDigitChar d = true :=
    hall d (by rw [hds]; exact List.mem_cons_self _ _)
  obtain ⟨r1, r2, r3, r4, r5, r6, r7⟩ := digit_head_route d hdd
  by_cases hneg : n < 0
  · have hic : intChars n = '-' :: natDigits n.natAbs := by
      unfold intChars
      rw [if_pos hneg]
    rw [hic, List.cons_append,
      parseJVal_route_num f '-' _ (by decide) (by decide) (by decide)
        (by decide) (by decide) (by decide) (by decide),
      ← List.cons_append, ← hic]
    exact parseJNum_int n rest hsep
  · have hic : intChars n = natDigits n.natAbs := by
      unfold intChars
      rw [if_neg hneg]
    rw [hic, hds, List.cons_append,
      parseJVal_route_num f d _ r7 r1 r2 r3 r4 r5 r6,
      ← List.cons_append, ← hds, ← hic]
    exact parseJNum_int n rest hsep

theorem R_val_fnum (m e : Int) (f : Nat) (rest : List Char)
    (hsep : sepOk rest = true) :
    parseJVal (f + 1) ((intChars m ++ 'e' :: intChars e) ++ rest) =
      some (Json.fnum m e, rest) := by
  rw [List.append_assoc, List.cons_append]
  obtain ⟨⟨d, ds, hds⟩, hall, -, -⟩ := natDigits_spec m.natAbs
  have hdd : isDigitChar d = true :=
    hall d (by rw [hds]; exact List.mem_cons_self _ _)
  obtain ⟨r1, r2, r3, r4, r5, r6, r7⟩ := digit_head_route d hdd
  by_cases hneg : m < 0
  · have hic : intChars m = '-' :: natDigits m.natAbs := by
      unfold intChars
      rw [if_pos hneg]
    rw [hic, List.cons_append,
      parseJVal_route_num f '-' _ (by decide) (by decide) (by decide)
        (by decide) (by decide) (by decide) (by decide),
      ← List.cons_append, ← hic]
    exact parseJNum_float m e rest hsep
  · have hic : intChars m = natDigits m.natAbs := by
      unfold intChars
      rw [if_neg hneg]
    rw [hic, hds, List.cons_append,
      parseJVal_route_num f d _ r7 r1 r2 r3 r4 r5 r6,
      ← List.cons_append, ← hds, ← hic]
    exact parseJNum_float m e rest hsep

/-- Every serialized value starts with a non-whitespace character that is
not a closing bracket. -/
theorem serialize_head (v : Json) : ∃ c t, serialize v = c :: t ∧
    isJsonWs c = false ∧ ¬c = ']' ∧ ¬c = '\x7d' := by
  cases v with
  | null =>
      refine ⟨'n', _, rfl, ?_, ?_, ?_⟩ <;> decide
  | bool b =>
      cases b
      · refine ⟨'f', _, rfl, ?_, ?_, ?_⟩ <;> decide
      · refine ⟨'t', _, rfl, ?_, ?_, ?_⟩ <;> decide
  | num n =>
      obtain ⟨⟨d, ds, hds⟩, hall, -, -⟩ := natDigits_spec n.natAbs
      have hdd : isDigitChar d = true :=
        hall d (by rw [hds]; exact List.mem_cons_self _ _)
      obtain ⟨hc1, hc2⟩ := digit_head_close d hdd
      by_cases hneg : n < 0
      · refine ⟨'-', natDigits n.natAbs, ?_, by decide, by decide, by decide⟩
        show intChars n = _
        unfold intChars
        rw [if_pos hneg]
      · refine ⟨d, ds, ?_, (digit_head_route d hdd).2.2.2.2.2.2, hc1, hc2⟩
        show intChars n = _
        unfold intChars
        rw [if_neg hneg, hds]
  | fnum m e =>
      obtain ⟨⟨d, ds, hds⟩, hall, -, -⟩ := natDigits_spec m.natAbs
      have hdd : isDigitChar d = true :=
        hall d (by rw [hds]; exact List.mem_cons_self _ _)
      obtain ⟨hc1, hc2⟩ := digit_head_close d hdd
      by_cases hneg : m < 0
      · refine ⟨'-', natDigits m.natAbs ++ 'e' :: intChars e, ?_,
          by decide, by decide, by decide⟩
        show intChars m ++ 'e' :: intChars e = _
        rw [show intChars m = '-' :: natDigits m.natAbs from by
            unfold intChars
            rw [if_pos hneg],
          List.cons_append]
      · refine ⟨d, ds ++ 'e' :: intChars e, ?_,
          (digit_head_route d hdd).2.2.2.2.2.2, hc1, hc2⟩
        show intChars m ++ 'e' :: intChars e = _
        rw [show intChars m = natDigits m.natAbs from by
            unfold intChars
            rw [if_neg hneg],
          hds, List.cons_append]
  | str s =>
      refine ⟨'"', _, rfl, ?_, ?_, ?_⟩ <;> decide
  | arr es =>
      refine ⟨'[', _, rfl, ?_, ?_, ?_⟩ <;> decide
  | obj ms =>
      refine ⟨'\x7b', _, rfl, ?_, ?_, ?_⟩ <;> decide

theorem skipJsonWs_serialize (v : Json) (X : List Char) :
    skipJsonWs (serialize v ++ X) = serialize v ++ X := by
  obtain ⟨c, t, hc, hws, -, -⟩ := serialize_head v
  rw [hc, List.cons_append]
  exact List.dropWhile_cons_of_neg (by simp [hws])

theorem serElems_shape (e0 : Json) (es' : List Json) :
    ∃ c t, serElems (e0 :: es') = c :: t ∧ isJsonWs c = false ∧
      ¬c = ']' ∧ ¬c = '\x7d' := by
  obtain ⟨c, t, hc, hws, hcl, hbr⟩ := serialize_head e0
  cases es' with
  | nil =>
      refine ⟨c, t ++ [']'], ?_, hws, hcl, hbr⟩
      rw [show serElems [e0] = serialize e0 ++ [']'] from rfl, hc,
        List.cons_append]
  | cons e1 es2 =>
      refine ⟨c, t ++ ',' :: ' ' :: serElems (e1 :: es2), ?_, hws, hcl, hbr⟩
      rw [show serElems (e0 :: e1 :: es2) =
          serialize e0 ++ ',' :: ' ' :: serElems (e1 :: es2) from rfl, hc,
        List.cons_append]

theorem parseJVal_cons_ws (f : Nat) (c : Char) (s : List Char)
    (hc : isJsonWs c = true) :
    parseJVal (f + 1) (c :: s) = parseJVal (f + 1) s := by
  rw [parseJVal.eq_def, parseJVal.eq_def]
  dsimp only
  rw [show skipJsonWs (c :: s) = skipJsonWs s from
    List.dropWhile_cons_of_pos hc]

theorem parseJElems_cons_ws (f : Nat) (c : Char) (s : List Char)
    (hc : isJsonWs c = true) :
    parseJElems (f + 1) (c :: s) = parseJElems (f + 1) s := by
  rw [parseJElems.eq_def, parseJElems.eq_def]
  dsimp only
  cases f with
  | zero =>
      rw [show parseJVal 0 (c :: s) = none from rfl,
        show parseJVal 0 s = none from rfl]
  | succ f' => rw [parseJVal_cons_ws f' c s hc]

theorem keyFresh_spec : ∀ (ms : List (String × Json)) (k : String),
    keyFresh k ms = true → ∀ p ∈ ms, ¬p.1 = k
  | [], _, _, p, hp => absurd hp (List.not_mem_nil p)
  | (k', v') :: ms, k, h, p, hp => by
      unfold keyFresh at h
      simp only [Bool.and_eq_true, Bool.not_eq_true',
        decide_eq_false_iff_not] at h
      rcases List.mem_cons.mp hp with hp1 | hp2
      · subst hp1
        exact fun hh => h.1 hh.symm
      · exact keyFresh_spec ms k h.2 p hp2

theorem dictInsert_fresh : ∀ (d : Dict) (k : String) (v : Json),
    (∀ p ∈ d, ¬p.1 = k) → dictInsert d k v = d ++ [(k, v)]
  | [], k, v, _ => rfl
  | (k', v') :: rest, k, v, h => by
      unfold dictInsert
      rw [if_neg (h (k', v') (List.mem_cons_self _ _)),
        dictInsert_fresh rest k v
          (fun p hp => h p (List.mem_cons_of_mem _ hp))]
      rfl

theorem dictOfPairs_go : ∀ (ms : List (String × Json)) (acc : Dict),
    wfPairs ms = true →
    (∀ p ∈ acc, keyFresh p.1 ms = true) →
    ms.foldl (fun d p => dictInsert d p.1 p.2) acc = acc ++ ms
  | [], acc, _, _ => by simp
  | (k, v) :: ms, acc, hwf, hacc => by
      unfold wfPairs at hwf
      simp only [Bool.and_eq_true] at hwf
      rw [List.foldl_cons]
      have hins : dictInsert acc k v = acc ++ [(k, v)] := by
        apply dictInsert_fresh
        intro p hp
        have hfr := hacc p hp
        unfold keyFresh at hfr
        simp only [Bool.and_eq_true, Bool.not_eq_true',
          decide_eq_false_iff_not] at hfr
        exact hfr.1
      rw [show dictInsert acc (k, v).1 (k, v).2 = dictInsert acc k v
          from rfl, hins,
        dictOfPairs_go ms (acc ++ [(k, v)]) hwf.2 (by
          intro p hp
          rcases List.mem_append.mp hp with hp1 | hp2
          · have hfr := hacc p hp1
            unfold keyFresh at hfr
            simp only [Bool.and_eq_true] at hfr
            exact hfr.2
          · rw [List.mem_singleton] at hp2
            subst hp2
            exact hwf.1.1)]
      simp

theorem dictOfPairs_wf (ms : List (String × Json)) (h : wfPairs ms = true) :
    dictOfPairs ms = ms := by
  unfold dictOfPairs
  rw [dictOfPairs_go ms [] h (fun p hp => absurd hp (List.not_mem_nil p))]
  rfl

theorem serMembers_head (k2 : String) (v2 : Json)
    (ms2 : List (String × Json)) :
    ∃ t, serMembers ((k2, v2) :: ms2) = '"' :: t := by
  cases ms2 with
  | nil =>
      refine ⟨(serJStrBody k2.data ++ ['"']) ++ ':' :: ' ' ::
        (serialize v2 ++ ['\x7d']), ?_⟩
      rw [show serMembers [(k2, v2)] = serJString k2 ++ ':' :: ' ' ::
          (serialize v2 ++ ['\x7d']) from rfl,
        show serJString k2 = '"' :: (serJStrBody k2.data ++ ['"']) from rfl,
        List.cons_append]
  | cons m3 ms3 =>
      refine ⟨(serJStrBody k2.data ++ ['"']) ++ ':' :: ' ' ::
        (serialize v2 ++ ',' :: ' ' :: serMembers (m3 :: ms3)), ?_⟩
      rw [show serMembers ((k2, v2) :: m3 :: ms3) = serJString k2 ++
          ':' :: ' ' :: (serialize v2 ++ ',' :: ' ' ::
            serMembers (m3 :: ms3)) from rfl,
        show serJString k2 = '"' :: (serJStrBody k2.data ++ ['"']) from rfl,
        List.cons_append]

theorem serJString_len (k : String) :
    (serJString k).length = (serJStrBody k.data).length + 2 := by
  rw [show serJString k = '"' :: (serJStrBody k.data ++ ['"']) from rfl]
  simp

theorem serialize_len_pos (v : Json) : 0 < (serialize v).length := by
  obtain ⟨c, t, hc, -, -, -⟩ := serialize_head v
  rw [hc]
  simp

theorem serMembers_single_len (k : String) (v : Json) :
    (serMembers [(k, v)]).length =
      (serJString k).length + ((serialize v).length + 3) := by
  rw [show serMembers [(k, v)] = serJString k ++ ':' :: ' ' ::
      (serialize v ++ ['\x7d']) from rfl]
  simp only [List.length_append, List.length_cons, List.length_nil]

theorem serMembers_cons_len (k : String) (v : Json) (m2 : String × Json)
    (ms2 : List (String × Json)) :
    (serMembers ((k, v) :: m2 :: ms2)).length =
      (serJString k).length + ((serialize v).length +
        ((serMembers (m2 :: ms2)).length + 4)) := by
  rw [show serMembers ((k, v) :: m2 :: ms2) = serJString k ++ ':' :: ' ' ::
      (serialize v ++ ',' :: ' ' :: serMembers (m2 :: ms2)) from rfl]
  simp only [List.length_append, List.length_cons]
  omega

theorem serElems_single_len (e0 : Json) :
    (serElems [e0]).length = (serialize e0).length + 1 := by
  rw [show serElems [e0] = serialize e0 ++ [']'] from rfl]
  simp

theorem serElems_cons_len (e0 e1 : Json) (es2 : List Json) :
    (serElems (e0 :: e1 :: es2)).length =
      (serialize e0).length + ((serElems (e1 :: es2)).length + 2) := by
  rw [show serElems (e0 :: e1 :: es2) = serialize e0 ++ ',' :: ' ' ::
      serElems (e1 :: es2) from rfl]
  simp only [List.length_append, List.length_cons]

theorem wfPairs_cons (k : String) (v : Json) (ms : List (String × Json))
    (h : wfPairs ((k, v) :: ms) = true) :
    wfJson v = true ∧ wfPairs ms = true := by
  unfold wfPairs at h
  simp only [Bool.and_eq_true] at h
  exact ⟨h.1.2, h.2⟩

theorem wfElems_cons (e : Json) (es : List Json)
    (h : wfElems (e :: es) = true) :
    wfJson e = true ∧ wfElems es = true := by
  unfold wfElems at h
  simp only [Bool.and_eq_true] at h
  exact h

mutual

/-- Round-trip for one serialized value followed by a separator context. -/
theorem R_val : (v : Json) → ∀ (f : Nat) (rest : List Char),
    wfJson v = true → sepOk rest = true → (serialize v).length < f →
    parseJVal f (serialize v ++ rest) = some (v, rest)
  | .null, f, rest, _, _, hf => by
      cases f with
      | zero => omega
      | succ f' => rfl
  | .bool true, f, rest, _, _, hf => by
      cases f with
      | zero => omega
      | succ f' => rfl
  | .bool false, f, rest, _, _, hf => by
      cases f with
      | zero => omega
      | succ f' => rfl
  | .num n, f, rest, _, hsep, hf => by
      cases f with
      | zero => omega
      | succ f' => exact R_val_num n f' rest hsep
  | .fnum m e, f, rest, _, hsep, hf => by
      cases f with
      | zero => omega
      | succ f' => exact R_val_fnum m e f' rest hsep
  | .str s, f, rest, _, _, hf => by
      cases f with
      | zero => omega
      | succ f' =>
          rw [show serialize (.str s) ++ rest =
              '"' :: (serJStrBody s.data ++ ('"' :: rest)) from by
            rw [show serialize (.str s) = '"' ::
                (serJStrBody s.data ++ ['"']) from rfl]
            simp]
          rw [parseJVal.eq_def]
          dsimp only
          rw [show skipJsonWs ('"' :: (serJStrBody s.data ++ ('"' :: rest)))
              = '"' :: (serJStrBody s.data ++ ('"' :: rest)) from
            List.dropWhile_cons_of_neg (by decide)]
          dsimp only
          rw [if_neg (by decide), if_neg (by decide), if_pos rfl]
          have hstr := R_str s.data
            ((serJStrBody s.data ++ ('"' :: rest)).length + 1) rest
            (by simp only [List.length_append, List.length_cons]; omega)
          rw [hstr]
  | .arr [], f, rest, _, _, hf => by
      cases f with
      | zero => omega
      | succ f' => rfl
  | .arr (e0 :: es'), f, rest, hwf, hsep, hf => by
      cases f with
      | zero => omega
      | succ f' =>
          rw [show serialize (.arr (e0 :: es')) ++ rest =
              '[' :: (serElems (e0 :: es') ++ rest) from rfl]
          rw [parseJVal.eq_def]
          dsimp only
          rw [show skipJsonWs ('[' :: (serElems (e0 :: es') ++ rest)) =
              '[' :: (serElems (e0 :: es') ++ rest) from
            List.dropWhile_cons_of_neg (by decide)]
          dsimp only
          rw [if_neg (by decide), if_pos rfl]
          obtain ⟨c, t, hsh, hws, hcl, hbr⟩ := serElems_shape e0 es'
          rw [show skipJsonWs (serElems (e0 :: es') ++ rest) =
              serElems (e0 :: es') ++ rest from by
            rw [hsh, List.cons_append]
            exact List.dropWhile_cons_of_neg (by simp [hws])]
          have hb : (serElems (e0 :: es')).length < f' := by
            have hl : (serialize (.arr (e0 :: es'))).length =
                (serElems (e0 :: es')).length + 1 := by
              rw [show serialize (.arr (e0 :: es')) =
                  '[' :: serElems (e0 :: es') from rfl]
              rfl
            omega
          split
          · rename_i r2 heq
            rw [hsh, List.cons_append] at heq
            injection heq with g1 g2
            exact absurd g1 hcl
          · rw [R_elems (e0 :: es') f' rest hwf hsep (by simp) hb]
  | .obj [], f, rest, _, _, hf => by
      cases f with
      | zero => omega
      | succ f' => rfl
  | .obj ((k, v) :: ms'), f, rest, hwf, hsep, hf => by
      cases f with
      | zero => omega
      | succ f' =>
          rw [show serialize (.obj ((k, v) :: ms')) ++ rest =
              '\x7b' :: (serMembers ((k, v) :: ms') ++ rest) from rfl]
          rw [parseJVal.eq_def]
          dsimp only
          rw [show skipJsonWs ('\x7b' :: (serMembers ((k, v) :: ms') ++
              rest)) = '\x7b' :: (serMembers ((k, v) :: ms') ++ rest) from
            List.dropWhile_cons_of_neg (by decide)]
          dsimp only
          rw [if_pos rfl]
          obtain ⟨t0, hsh⟩ := serMembers_head k v ms'
          rw [show skipJsonWs (serMembers ((k, v) :: ms') ++ rest) =
              serMembers ((k, v) :: ms') ++ rest from by
            rw [hsh, List.cons_append]
            exact List.dropWhile_cons_of_neg (by decide)]
          have hb : (serMembers ((k, v) :: ms')).length < f' := by
            have hl : (serialize (.obj ((k, v) :: ms'))).length =
                (serMembers ((k, v) :: ms')).length + 1 := by
              rw [show serialize (.obj ((k, v) :: ms')) =
                  '\x7b' :: serMembers ((k, v) :: ms') from rfl]
              rfl
            omega
          split
          · rename_i r2 heq
            rw [hsh, List.cons_append] at heq
            injection heq with g1 g2
            exact absurd g1 (by decide)
          · rw [R_members ((k, v) :: ms') f' rest hwf hsep (by simp) hb]
            dsimp only
            rw [dictOfPairs_wf ((k, v) :: ms') hwf]

/-- Round-trip for a non-empty serialized element list with its closing
bracket. -/
theorem R_elems : (es : List Json) → ∀ (f : Nat) (rest : List Char),
    wfElems es = true → sepOk rest = true → es ≠ [] →
    (serElems es).length < f →
    parseJElems f (serElems es ++ rest) = some (es, rest)
  | [], _, _, _, _, hne, _ => absurd rfl hne
  | [e0], f, rest, hwf, hsep, _, hf => by
      cases f with
      | zero => omega
      | succ f' =>
          have hl := serElems_single_len e0
          have hvp := serialize_len_pos e0
          rw [show serElems [e0] ++ rest = serialize e0 ++ (']' :: rest)
            from by
              rw [show serElems [e0] = serialize e0 ++ [']'] from rfl]
              simp]
          rw [parseJElems.eq_def]
          dsimp only
          cases f' with
          | zero => omega
          | succ f'' =>
              rw [R_val e0 (f'' + 1) (']' :: rest)
                (wfElems_cons e0 [] hwf).1 rfl (by omega)]
              rfl
  | e0 :: e1 :: es2, f, rest, hwf, hsep, _, hf => by
      cases f with
      | zero => omega
      | succ f' =>
          have hl := serElems_cons_len e0 e1 es2
          have hvp := serialize_len_pos e0
          obtain ⟨h1, h2⟩ := wfElems_cons e0 (e1 :: es2) hwf
          rw [show serElems (e0 :: e1 :: es2) ++ rest =
              serialize e0 ++ (',' :: ' ' :: (serElems (e1 :: es2) ++
                rest)) from by
            rw [show serElems (e0 :: e1 :: es2) = serialize e0 ++
                ',' :: ' ' :: serElems (e1 :: es2) from rfl]
            simp]
          rw [parseJElems.eq_def]
          dsimp only
          cases f' with
          | zero => omega
          | succ f'' =>
              rw [R_val e0 (f'' + 1)
                (',' :: ' ' :: (serElems (e1 :: es2) ++ rest)) h1 rfl
                (by omega)]
              show (match parseJElems (f'' + 1)
                  (' ' :: (serElems (e1 :: es2) ++ rest)) with
                | some (es, rest2) => some (e0 :: es, rest2)
                | none => none) = some (e0 :: e1 :: es2, rest)
              rw [parseJElems_cons_ws f'' ' ' _ (by decide)]
              rw [R_elems (e1 :: es2) (f'' + 1) rest h2 hsep (by simp)
                (by omega)]

/-- Round-trip for a non-empty serialized member list with its closing
brace. -/
theorem R_members : (ms : List (String × Json)) →
    ∀ (f : Nat) (rest : List Char),
    wfPairs ms = true → sepOk rest = true → ms ≠ [] →
    (serMembers ms).length < f →
    parseJMembers f (serMembers ms ++ rest) = some (ms, rest)
  | [], _, _, _, _, hne, _ => absurd rfl hne
  | [(k, v)], f, rest, hwf, hsep, _, hf => by
      cases f with
      | zero => omega
      | succ f' =>
          have hwfv : wfJson v = true := (wfPairs_cons k v [] hwf).1
          have hjl := serJString_len k
          have hml := serMembers_single_len k v
          have hvp := serialize_len_pos v
          rw [show serMembers [(k, v)] ++ rest =
              '"' :: (serJStrBody k.data ++ ('"' :: (':' :: ' ' ::
                (serialize v ++ ('\x7d' :: rest))))) from by
            rw [show serMembers [(k, v)] = serJString k ++ ':' :: ' ' ::
                (serialize v ++ ['\x7d']) from rfl,
              show serJString k = '"' :: (serJStrBody k.data ++ ['"'])
                from rfl]
            simp]
          show (match parseJStr ((serJStrBody k.data ++ ('"' :: (':' ::
              ' ' :: (serialize v ++ ('\x7d' :: rest))))).length + 1)
              (serJStrBody k.data ++ ('"' :: (':' :: ' ' ::
                (serialize v ++ ('\x7d' :: rest))))) with
            | none => none
            | some (key, rest1) =>
                match skipJsonWs rest1 with
                | ':' :: r2 =>
                    match parseJVal f' r2 with
                    | none => none
                    | some (w, rest2) =>
                        match skipJsonWs rest2 with
                        | ',' :: r3 =>
                            match parseJMembers f' (skipJsonWs r3) with
                            | some (ms2, rest3) =>
                                some ((⟨key⟩, w) :: ms2, rest3)
                            | none => none
                        | '\x7d' :: r3 => some ([(⟨key⟩, w)], r3)
                        | _ => none
                | _ => none) = some ([(k, v)], rest)
          have hstr := R_str k.data
            ((serJStrBody k.data ++ ('"' :: (':' :: ' ' ::
              (serialize v ++ ('\x7d' :: rest))))).length + 1)
            (':' :: ' ' :: (serialize v ++ ('\x7d' :: rest)))
            (by simp only [List.length_append, List.length_cons]; omega)
          rw [hstr]
          dsimp only
          show (match parseJVal f' (' ' :: (serialize v ++
              ('\x7d' :: rest))) with
            | none => none
            | some (w, rest2) =>
                match skipJsonWs rest2 with
                | ',' :: r3 =>
                    match parseJMembers f' (skipJsonWs r3) with
                    | some (ms2, rest3) =>
                        some ((⟨k.data⟩, w) :: ms2, rest3)
                    | none => none
                | '\x7d' :: r3 => some ([(⟨k.data⟩, w)], r3)
                | _ => none) = some ([(k, v)], rest)
          cases f' with
          | zero => omega
          | succ f'' =>
              rw [parseJVal_cons_ws f'' ' ' _ (by decide)]
              rw [R_val v (f'' + 1) ('\x7d' :: rest) hwfv rfl (by omega)]
              show some ([(String.mk k.data, v)], rest) =
                some ([(k, v)], rest)
              rw [string_mk_data]
  | (k, v) :: (k2, v2) :: ms2, f, rest, hwf, hsep, _, hf => by
      cases f with
      | zero => omega
      | succ f' =>
          have hwfv : wfJson v = true :=
            (wfPairs_cons k v ((k2, v2) :: ms2) hwf).1
          have hwft : wfPairs ((k2, v2) :: ms2) = true :=
            (wfPairs_cons k v ((k2, v2) :: ms2) hwf).2
          have hjl := serJString_len k
          have hml := serMembers_cons_len k v (k2, v2) ms2
          have hvp := serialize_len_pos v
          rw [show serMembers ((k, v) :: (k2, v2) :: ms2) ++ rest =
              '"' :: (serJStrBody k.data ++ ('"' :: (':' :: ' ' ::
                (serialize v ++ (',' :: ' ' ::
                  (serMembers ((k2, v2) :: ms2) ++ rest)))))) from by
            rw [show serMembers ((k, v) :: (k2, v2) :: ms2) =
                serJString k ++ ':' :: ' ' :: (serialize v ++ ',' :: ' ' ::
                  serMembers ((k2, v2) :: ms2)) from rfl,
              show serJString k = '"' :: (serJStrBody k.data ++ ['"'])
                from rfl]
            simp]
          show (match parseJStr ((serJStrBody k.data ++ ('"' :: (':' ::
              ' ' :: (serialize v ++ (',' :: ' ' ::
                (serMembers ((k2, v2) :: ms2) ++ rest)))))).length + 1)
              (serJStrBody k.data ++ ('"' :: (':' :: ' ' ::
                (serialize v ++ (',' :: ' ' ::
                  (serMembers ((k2, v2) :: ms2) ++ rest)))))) with
            | none => none
            | some (key, rest1) =>
                match skipJsonWs rest1 with
                | ':' :: r2 =>
                    match parseJVal f' r2 with
                    | none => none
                    | some (w, rest2) =>
                        match skipJsonWs rest2 with
                        | ',' :: r3 =>
                            match parseJMembers f' (skipJsonWs r3) with
                            | some (ms3, rest3) =>
                                some ((⟨key⟩, w) :: ms3, rest3)
                            | none => none
                        | '\x7d' :: r3 => some ([(⟨key⟩, w)], r3)
                        | _ => none
                | _ => none) = some ((k, v) :: (k2, v2) :: ms2, rest)
          have hstr := R_str k.data
            ((serJStrBody k.data ++ ('"' :: (':' :: ' ' ::
              (serialize v ++ (',' :: ' ' ::
                (serMembers ((k2, v2) :: ms2) ++ rest)))))).length + 1)
            (':' :: ' ' :: (serialize v ++ (',' :: ' ' ::
              (serMembers ((k2, v2) :: ms2) ++ rest))))
            (by simp only [List.length_append, List.length_cons]; omega)
          rw [hstr]
          dsimp only
          show (match parseJVal f' (' ' :: (serialize v ++ (',' :: ' ' ::
              (serMembers ((k2, v2) :: ms2) ++ rest)))) with
            | none => none
            | some (w, rest2) =>
                match skipJsonWs rest2 with
                | ',' :: r3 =>
                    match parseJMembers f' (skipJsonWs r3) with
                    | some (ms3, rest3) =>
                        some ((⟨k.data⟩, w) :: ms3, rest3)
                    | none => none
                | '\x7d' :: r3 => some ([(⟨k.data⟩, w)], r3)
                | _ => none) = some ((k, v) :: (k2, v2) :: ms2, rest)
          cases f' with
          | zero => omega
          | succ f'' =>
              rw [parseJVal_cons_ws f'' ' ' _ (by decide)]
              rw [R_val v (f'' + 1) (',' :: ' ' ::
                (serMembers ((k2, v2) :: ms2) ++ rest)) hwfv rfl (by omega)]
              show (match parseJMembers (f'' + 1) (skipJsonWs (' ' ::
                  (serMembers ((k2, v2) :: ms2) ++ rest))) with
                | some (ms3, rest3) =>
                    some ((⟨k.data⟩, v) :: ms3, rest3)
                | none => none) = some ((k, v) :: (k2, v2) :: ms2, rest)
              obtain ⟨t2, hsh2⟩ := serMembers_head k2 v2 ms2
              rw [show skipJsonWs (' ' :: (serMembers ((k2, v2) :: ms2) ++
                  rest)) = serMembers ((k2, v2) :: ms2) ++ rest from by
                rw [show skipJsonWs (' ' :: (serMembers ((k2, v2) :: ms2)
                    ++ rest)) = skipJsonWs (serMembers ((k2, v2) :: ms2)
                    ++ rest) from List.dropWhile_cons_of_pos (by decide),
                  hsh2, List.cons_append]
                exact List.dropWhile_cons_of_neg (by decide)]
              rw [R_members ((k2, v2) :: ms2) (f'' + 1) rest hwft hsep
                (by simp) (by omega)]

end

theorem try_json_serialize (v : Json) (h : wfJson v = true) :
    try_json (serialize v) = some v := by
  unfold try_json
  have hr := R_val v (2 * (serialize v).length + 2) [] h rfl (by omega)
  rw [List.append_nil] at hr
  rw [hr]
  rfl

/-! ## The serialized text is already normalized -/

theorem hexDigitChar_ascii : ∀ k, k < 16 →
    32 ≤ (hexDigitChar k).toNat ∧ (hexDigitChar k).toNat < 127 := by
  decide

theorem isDigitChar_ascii (c : Char) (h : isDigitChar c = true) :
    32 ≤ c.toNat ∧ c.toNat < 127 := by
  unfold isDigitChar at h
  simp only [Bool.and_eq_true, decide_eq_true_eq] at h
  have h1 : ('0' : Char).toNat ≤ c.toNat := h.1
  have h2 : c.toNat ≤ ('9' : Char).toNat := h.2
  have e1 : ('0' : Char).toNat = 48 := rfl
  have e2 : ('9' : Char).toNat = 57 := rfl
  omega

theorem hex4_ascii (n : Nat) (c : Char) (hc : c ∈ hex4 n) :
    32 ≤ c.toNat ∧ c.toNat < 127 := by
  unfold hex4 at hc
  simp only [List.mem_cons, List.not_mem_nil, or_false] at hc
  rcases hc with rfl | rfl | rfl | rfl <;>
    exact hexDigitChar_ascii _ (Nat.mod_lt _ (by omega))

theorem serJChar_ascii (ch : Char) : ∀ c ∈ serJChar ch,
    32 ≤ c.toNat ∧ c.toNat < 127 := by
  intro c hc
  unfold serJChar at hc
  by_cases h1 : ch = '"'
  · rw [if_pos h1] at hc
    simp only [List.mem_cons, List.not_mem_nil, or_false] at hc
    rcases hc with rfl | rfl <;> decide
  rw [if_neg h1] at hc
  by_cases h2 : ch = '\\'
  · rw [if_pos h2] at hc
    simp only [List.mem_cons, List.not_mem_nil, or_false] at hc
    rcases hc with rfl | rfl <;> decide
  rw [if_neg h2] at hc
  by_cases h3 : ch = '\n'
  · rw [if_pos h3] at hc
    simp only [List.mem_cons, List.not_mem_nil, or_false] at hc
    rcases hc with rfl | rfl <;> decide
  rw [if_neg h3] at hc
  by_cases h4 : ch = '\r'
  · rw [if_pos h4] at hc
    simp only [List.mem_cons, List.not_mem_nil, or_false] at hc
    rcases hc with rfl | rfl <;> decide
  rw [if_neg h4] at hc
  by_cases h5 : ch = '\t'
  · rw [if_pos h5] at hc
    simp only [List.mem_cons, List.not_mem_nil, or_false] at hc
    rcases hc with rfl | rfl <;> decide
  rw [if_neg h5] at hc
  by_cases h6 : ch = '\x08'
  · rw [if_pos h6] at hc
    simp only [List.mem_cons, List.not_mem_nil, or_false] at hc
    rcases hc with rfl | rfl <;> decide
  rw [if_neg h6] at hc
  by_cases h7 : ch = '\x0c'
  · rw [if_pos h7] at hc
    simp only [List.mem_cons, List.not_mem_nil, or_false] at hc
    rcases hc with rfl | rfl <;> decide
  rw [if_neg h7] at hc
  by_cases h8 : ch.toNat < 0x20
  · rw [if_pos h8] at hc
    rcases List.mem_cons.mp hc with rfl | hc2
    · decide
    rcases List.mem_cons.mp hc2 with rfl | hc3
    · decide
    · exact hex4_ascii _ c hc3
  rw [if_neg h8] at hc
  by_cases h9 : ch.toNat < 0x7f
  · rw [if_pos h9] at hc
    rw [List.mem_singleton] at hc
    subst hc
    omega
  rw [if_neg h9] at hc
  by_cases h10 : ch.toNat < 0x10000
  · rw [if_pos h10] at hc
    rcases List.mem_cons.mp hc with rfl | hc2
    · decide
    rcases List.mem_cons.mp hc2 with rfl | hc3
    · decide
    · exact hex4_ascii _ c hc3
  · rw [if_neg h10, List.mem_append] at hc
    rcases hc with hc | hc <;>
      (rcases List.mem_cons.mp hc with rfl | hc2
       · decide
       rcases List.mem_cons.mp hc2 with rfl | hc3
       · decide
       · exact hex4_ascii _ c hc3)

theorem serJStrBody_ascii : ∀ (s : List Char) (c : Char),
    c ∈ serJStrBody s → 32 ≤ c.toNat ∧ c.toNat < 127
  | [], c, hc => absurd hc (List.not_mem_nil c)
  | ch :: cs, c, hc => by
      rw [show serJStrBody (ch :: cs) = serJChar ch ++ serJStrBody cs
        from rfl, List.mem_append] at hc
      rcases hc with h | h
      · exact serJChar_ascii ch c h
      · exact serJStrBody_ascii cs c h

theorem serJString_ascii (k : String) : ∀ c ∈ serJString k,
    32 ≤ c.toNat ∧ c.toNat < 127 := by
  intro c hc
  rw [show serJString k = '"' :: (serJStrBody k.data ++ ['"']) from rfl]
    at hc
  rcases List.mem_cons.mp hc with rfl | hc2
  · decide
  rw [List.mem_append] at hc2
  rcases hc2 with h | h
  · exact serJStrBody_ascii k.data c h
  · rw [List.mem_singleton] at h
    subst h
    decide

theorem natDigits_ascii (n : Nat) : ∀ c ∈ natDigits n,
    32 ≤ c.toNat ∧ c.toNat < 127 := by
  intro c hc
  obtain ⟨-, hall, -, -⟩ := natDigits_spec n
  exact isDigitChar_ascii c (hall c hc)

theorem intChars_ascii (i : Int) : ∀ c ∈ intChars i,
    32 ≤ c.toNat ∧ c.toNat < 127 := by
  intro c hc
  unfold intChars at hc
  by_cases h : i < 0
  · rw [if_pos h] at hc
    rcases List.mem_cons.mp hc with rfl | h2
    · decide
    · exact natDigits_ascii _ c h2
  · rw [if_neg h] at hc
    exact natDigits_ascii _ c hc

mutual

theorem serialize_ascii : (v : Json) → ∀ c ∈ serialize v,
    32 ≤ c.toNat ∧ c.toNat < 127
  | .null, c, hc => by
      simp only [show serialize .null = ['n', 'u', 'l', 'l'] from rfl,
        List.mem_cons, List.not_mem_nil, or_false] at hc
      rcases hc with rfl | rfl | rfl | rfl <;> decide
  | .bool true, c, hc => by
      simp only [show serialize (.bool true) = ['t', 'r', 'u', 'e'] from rfl,
        List.mem_cons, List.not_mem_nil, or_false] at hc
      rcases hc with rfl | rfl | rfl | rfl <;> decide
  | .bool false, c, hc => by
      simp only [show serialize (.bool false) = ['f', 'a', 'l', 's', 'e']
          from rfl,
        List.mem_cons, List.not_mem_nil, or_false] at hc
      rcases hc with rfl | rfl | rfl | rfl | rfl <;> decide
  | .num n, c, hc => intChars_ascii n c hc
  | .fnum m e, c, hc => by
      rw [show serialize (.fnum m e) = intChars m ++ 'e' :: intChars e
        from rfl, List.mem_append] at hc
      rcases hc with h | h
      · exact intChars_ascii m c h
      rcases List.mem_cons.mp h with rfl | h2
      · decide
      · exact intChars_ascii e c h2
  | .str s, c, hc => serJString_ascii s c hc
  | .arr es, c, hc => by
      rw [show serialize (.arr es) = '[' :: serElems es from rfl] at hc
      rcases List.mem_cons.mp hc with rfl | h
      · decide
      · exact serElems_ascii es c h
  | .obj ms, c, hc => by
      rw [show serialize (.obj ms) = '\x7b' :: serMembers ms from rfl] at hc
      rcases List.mem_cons.mp hc with rfl | h
      · decide
      · exact serMembers_ascii ms c h

theorem serElems_ascii : (es : List Json) → ∀ c ∈ serElems es,
    32 ≤ c.toNat ∧ c.toNat < 127
  | [], c, hc => by
      rw [show serElems [] = [']'] from rfl, List.mem_singleton] at hc
      subst hc
      decide
  | [e], c, hc => by
      rw [show serElems [e] = serialize e ++ [']'] from rfl,
        List.mem_append] at hc
      rcases hc with h | h
      · exact serialize_ascii e c h
      · rw [List.mem_singleton] at h
        subst h
        decide
  | e :: e1 :: es2, c, hc => by
      rw [show serElems (e :: e1 :: es2) = serialize e ++ ',' :: ' ' ::
          serElems (e1 :: es2) from rfl, List.mem_append] at hc
      rcases hc with h | h
      · exact serialize_ascii e c h
      rcases List.mem_cons.mp h with rfl | h2
      · decide
      rcases List.mem_cons.mp h2 with rfl | h3
      · decide
      · exact serElems_ascii (e1 :: es2) c h3

theorem serMembers_ascii : (ms : List (String × Json)) →
    ∀ c ∈ serMembers ms, 32 ≤ c.toNat ∧ c.toNat < 127
  | [], c, hc => by
      rw [show serMembers [] = ['\x7d'] from rfl, List.mem_singleton] at hc
      subst hc
      decide
  | [(k, v)], c, hc => by
      rw [show serMembers [(k, v)] = serJString k ++ ':' :: ' ' ::
          (serialize v ++ ['\x7d']) from rfl, List.mem_append] at hc
      rcases hc with h | h
      · exact serJString_ascii k c h
      rcases List.mem_cons.mp h with rfl | h2
      · decide
      rcases List.mem_cons.mp h2 with rfl | h3
      · decide
      rw [List.mem_append] at h3
      rcases h3 with h4 | h4
      · exact serialize_ascii v c h4
      · rw [List.mem_singleton] at h4
        subst h4
        decide
  | (k, v) :: m2 :: ms2, c, hc => by
      rw [show serMembers ((k, v) :: m2 :: ms2) = serJString k ++ ':' ::
          ' ' :: (serialize v ++ ',' :: ' ' :: serMembers (m2 :: ms2))
          from rfl, List.mem_append] at hc
      rcases hc with h | h
      · exact serJString_ascii k c h
      rcases List.mem_cons.mp h with rfl | h2
      · decide
      rcases List.mem_cons.mp h2 with rfl | h3
      · decide
      rw [List.mem_append] at h3
      rcases h3 with h4 | h4
      · exact serialize_ascii v c h4
      rcases List.mem_cons.mp h4 with rfl | h5
      · decide
      rcases List.mem_cons.mp h5 with rfl | h6
      · decide
      · exact serMembers_ascii (m2 :: ms2) c h6

end

theorem goodChar_ascii (c : Char) (h1 : 32 ≤ c.toNat) (h2 : c.toNat < 127) :
    goodChar c = true := by
  cases hg : goodChar c with
  | true => rfl
  | false =>
      exfalso
      unfold goodChar at hg
      simp only [Bool.not_eq_false', Bool.or_eq_true,
        decide_eq_true_eq] at hg
      rcases hg with
        (((((((((((((h|h)|h)|h)|h)|h)|h)|h)|h)|h)|h)|h)|h)|h)
      all_goals subst h
      all_goals revert h1 h2
      all_goals decide

theorem serialize_good (v : Json) : (serialize v).all goodChar = true := by
  rw [List.all_eq_true]
  intro c hc
  obtain ⟨h1, h2⟩ := serialize_ascii v c hc
  exact goodChar_ascii c h1 h2

theorem serMembers_ends : ∀ (ms : List (String × Json)),
    ∃ A, serMembers ms = A ++ ['\x7d']
  | [] => ⟨[], rfl⟩
  | [(k, v)] => ⟨serJString k ++ ':' :: ' ' :: serialize v, by
      rw [show serMembers [(k, v)] = serJString k ++ ':' :: ' ' ::
        (serialize v ++ ['\x7d']) from rfl]
      simp⟩
  | (k, v) :: m2 :: ms2 => by
      obtain ⟨A, hA⟩ := serMembers_ends (m2 :: ms2)
      refine ⟨serJString k ++ ':' :: ' ' ::
        (serialize v ++ ',' :: ' ' :: A), ?_⟩
      rw [show serMembers ((k, v) :: m2 :: ms2) = serJString k ++
        ':' :: ' ' :: (serialize v ++ ',' :: ' ' ::
          serMembers (m2 :: ms2)) from rfl, hA]
      simp

theorem pyRStrip_eq_self_of_last (x : List Char) (c : Char)
    (hl : x.getLast? = some c) (hc : isPySpace c = false) :
    pyRStrip x = x := by
  have h := pyRStrip_append x [] c hl hc
  rw [List.append_nil] at h
  rw [h, show pyRStrip ([] : List Char) = [] from rfl, List.append_nil]

theorem pyStrip_serialize_obj (ms : List (String × Json)) :
    pyStrip (serialize (Json.obj ms)) = serialize (Json.obj ms) := by
  have hls : pyLStrip (serialize (Json.obj ms)) =
      serialize (Json.obj ms) := by
    rw [show serialize (Json.obj ms) = '\x7b' :: serMembers ms from rfl]
    exact List.dropWhile_cons_of_neg (by decide)
  obtain ⟨A, hA⟩ := serMembers_ends ms
  have hlast : (serialize (Json.obj ms)).getLast? = some '\x7d' := by
    rw [show serialize (Json.obj ms) = '\x7b' :: serMembers ms from rfl, hA,
      show '\x7b' :: (A ++ ['\x7d']) = ('\x7b' :: A) ++ ['\x7d'] from rfl,
      List.getLast?_append]
    rfl
  unfold pyStrip
  rw [hls]
  exact pyRStrip_eq_self_of_last _ '\x7d' hlast (by decide)

theorem normalize_serialize_obj (ms : List (String × Json)) :
    normalize (serialize (Json.obj ms)) = serialize (Json.obj ms) := by
  rw [normalize_eq,
    charNormalize_eq_self_of_good _ (serialize_good (Json.obj ms))]
  have hls : pyLStrip (serialize (Json.obj ms)) =
      serialize (Json.obj ms) := by
    rw [show serialize (Json.obj ms) = '\x7b' :: serMembers ms from rfl]
    exact List.dropWhile_cons_of_neg (by decide)
  rw [hls]
  have hfj : first_json_like (serialize (Json.obj ms)) = 0 :=
    first_json_like_eq _ 0
      (Or.inl (subFind_zero_of_startsAt _ _ (by
        rw [show serialize (Json.obj ms) = '\x7b' :: serMembers ms from rfl]
        simp [List.isPrefixOf])))
      (fun j _ => Nat.zero_le j) (fun j _ => Nat.zero_le j)
      (fun j _ => Nat.zero_le j)
  rw [hfj, if_neg (by omega)]
  exact pyStrip_serialize_obj ms

/-- C2: the resolver is a left inverse of `json.dumps` on JSON objects —
resolving the serialization of any duplicate-key-free object value returns
exactly its member mapping, for all member contents. -/
theorem C2_serialized_object_roundtrip (ms : List (String × Json))
    (t : String) (hwf : wfJson (Json.obj ms) = true) :
    robust_parse_third_arg ⟨serialize (Json.obj ms)⟩ t = ms := by
  refine robust_eq_of_strategies _ t ms ?_ ?_
  · rintro (h | h)
    · have h' : serialize (Json.obj ms) = [] := h
      rw [show serialize (Json.obj ms) = '\x7b' :: serMembers ms from rfl]
        at h'
      exact List.noConfusion h'
    · have h' : pyStrip (serialize (Json.obj ms)) = [] := h
      rw [pyStrip_serialize_obj] at h'
      rw [show serialize (Json.obj ms) = '\x7b' :: serMembers ms from rfl]
        at h'
      exact List.noConfusion h'
  · show strategies17 (normalize (serialize (Json.obj ms))) t = some ms
    rw [normalize_serialize_obj]
    unfold strategies17
    have hd : strat_direct_json (serialize (Json.obj ms)) = some ms := by
      unfold strat_direct_json
      rw [try_json_serialize _ hwf]
      rfl
    rw [hd]
    rfl

set_option maxHeartbeats 2000000 in
/-- Witness for C2 at a nested object with a string, numbers, an array and
a nested object. -/
theorem C2_witness :
    robust_parse_third_arg
      ⟨serialize (Json.obj [("a", Json.str "x y"),
        ("b", Json.arr [Json.num (-3), Json.fnum 25 (-1)]),
        ("c", Json.obj [("d", Json.bool true), ("e", Json.null)])])⟩
      "move_camera" =
      [("a", Json.str "x y"),
       ("b", Json.arr [Json.num (-3), Json.fnum 25 (-1)]),
       ("c", Json.obj [("d", Json.bool true), ("e", Json.null)])] :=
  C2_serialized_object_roundtrip
    [("a", Json.str "x y"),
     ("b", Json.arr [Json.num (-3), Json.fnum 25 (-1)]),
     ("c", Json.obj [("d", Json.bool true), ("e", Json.null)])]
    "move_camera" (by decide)

end UEParse
